import Mathlib

/-!
# Communication composition of mCRL2 action summands

A shallow embedding of `mcrl2/lps/linearise_communication.h`: the pairwise
argument matcher, the tuple lists, the communication table `comm_entry` and
the enumeration kernel `phi` / `xi` / `psi` / `makeMultiActionConditionList`.

Identifiers and sorts are interned terms; they are represented by natural
numbers.  An iterator into a term list is represented by the suffix of the
list it points at: `begin()` is the list itself, `end()` the empty list,
`++` takes the tail and `*` the head.
-/

namespace lps

/-! ## Data model -/

/-- An interned identifier string (`core::identifier_string`). -/
abbrev identifier_string := Nat

/-- The name of an action (`action_name_t`). -/
abbrev action_name_t := identifier_string

/-- A sorted list of action names (`action_name_multiset_t`). -/
abbrev action_name_multiset_t := List action_name_t

/-- A sort expression of the data library. -/
abbrev sort_expression := Nat

/-- The sort of the Booleans, `sort_bool::bool_()`. -/
def bool_ : sort_expression := 0

/-- Data expressions as far as the communication kernel observes them: atoms
(variables and function symbols, each carrying its sort), the Boolean
literals and connectives of `sort_bool`, and the equality `equal_to`. -/
inductive data_expression where
  | var (name : Nat) (sort : sort_expression)
  | function_symbol (name : Nat) (sort : sort_expression)
  | true_
  | false_
  | not_ (p : data_expression)
  | and_ (p q : data_expression)
  | or_ (p q : data_expression)
  | equal_to (x y : data_expression)
  deriving DecidableEq, Repr

namespace data_expression

/-- The sort of a data expression, `data_expression::sort()`. -/
def sort : data_expression → sort_expression
  | var _ s => s
  | function_symbol _ s => s
  | _ => bool_

end data_expression

open data_expression

/-- A list of data expressions, the arguments of an action. -/
abbrev data_expression_list := List data_expression

/-- The rewriter callback `RewriteTerm`. -/
abbrev rewriter := data_expression → data_expression

namespace lazy

/-- Modelled from the spec: `data::lazy::and_` is not among the sources; it is
the conjunction that short-circuits on the Boolean literals: a literal
`false` operand collapses the result, equal operands and a literal `true`
operand are dropped, otherwise the conjunction is built. -/
def and_ (p q : data_expression) : data_expression :=
  if p = false_ ∨ q = false_ then false_
  else if p = q ∨ p = true_ then q
  else if q = true_ then p
  else data_expression.and_ p q

/-- Modelled from the spec: `data::lazy::or_` is not among the sources; it is
the disjunction that short-circuits on the Boolean literals. -/
def or_ (p q : data_expression) : data_expression :=
  if p = true_ ∨ q = true_ then true_
  else if p = q ∨ p = false_ then q
  else if q = false_ then p
  else data_expression.or_ p q

/-- Modelled from the spec: `data::lazy::not_` is not among the sources; it is
the negation that short-circuits on the Boolean literals. -/
def not_ (p : data_expression) : data_expression :=
  if p = true_ then false_
  else if p = false_ then true_
  else data_expression.not_ p

end lazy

/-! ## Pairwise argument matcher -/

/-- The loop of `pairwiseMatch`: `l1` is traversed with the iterator `i2` into
`l2` (its remaining suffix) and the accumulator `result`. -/
def pairwiseMatch_loop (RewriteTerm : rewriter) :
    data_expression_list → data_expression_list → data_expression → data_expression
  | [], _, result => result
  | _ :: _, [], result => result
  | t1 :: l1, t2 :: i2, result =>
    if t1.sort ≠ t2.sort then false_
    else pairwiseMatch_loop RewriteTerm l1 i2 (lazy.and_ result (RewriteTerm (equal_to t1 t2)))

/-- Check that the sorts of both termlists match, and deliver the condition
under which the two lists are equal. -/
def pairwiseMatch (l1 l2 : data_expression_list) (RewriteTerm : rewriter) : data_expression :=
  if l1.length ≠ l2.length then false_
  else pairwiseMatch_loop RewriteTerm l1 l2 true_

/-! ## Actions and multi-actions -/

/-- An action label: a name and the sorts of the arguments. -/
structure action_label where
  name : action_name_t
  sorts : List sort_expression
  deriving DecidableEq, Repr

/-- An action: a label and a list of arguments.  The default-constructed
terms `process::action_label()` and `process::action()` are the "no label" and
"no action" marks of the source; they are no label or action of a process and
are represented by `none` where the source compares against them. -/
structure action where
  label : action_label
  arguments : data_expression_list
  deriving DecidableEq, Repr

/-- A multi-action, sorted w.r.t. `action_compare`. -/
abbrev action_multiset_t := List action

/-- The names of the actions of a multi-action, in the same order. -/
def names (actions : action_multiset_t) : action_name_multiset_t :=
  actions.map (fun a => a.label.name)

/-- Modelled from the spec: the order on sort lists used to compare action
labels with equal names (`linearise_utility.h` is not among the sources). -/
def sort_list_compare : List sort_expression → List sort_expression → Bool
  | [], [] => false
  | [], _ :: _ => true
  | _ :: _, [] => false
  | s1 :: l1, s2 :: l2 => decide (s1 < s2) || (decide (s1 = s2) && sort_list_compare l1 l2)

/-- Modelled from the spec: the total order on action labels (name first, then
the sorts); `linearise_utility.h` is not among the sources. -/
def action_label_compare (a1 a2 : action_label) : Bool :=
  if a1.name ≠ a2.name then decide (a1.name < a2.name)
  else sort_list_compare a1.sorts a2.sorts

/-- Modelled from the spec: the order in which a multi-action is kept, the
order on the labels of the actions. -/
def action_compare (a1 a2 : action) : Bool :=
  action_label_compare a1.label a2.label

/-- Modelled from the spec: `insert(a, M)` of `linearise_utility.h` (not among
the sources) returns `M` with `a` inserted at the position that preserves the
order on action labels; actions with equal labels are placed adjacently, the
new action behind the ones that are there (the operation is stable). -/
def insert (act : action) : action_multiset_t → action_multiset_t
  | [] => [act]
  | head :: tail =>
    if action_compare act head then act :: head :: tail
    else head :: insert act tail

/-- Modelled from the spec: `reverse(M)` of `linearise_utility.h` (not among the
sources) returns the multi-action whose sequence is the reverse of `M`. -/
def reverse (l : action_multiset_t) : action_multiset_t :=
  l.reverse

/-! ## Tuple lists -/

/-- A tuple list contains pairs of a multi-action and the condition under
which this multi-action can occur, as two parallel vectors. -/
structure tuple_list where
  actions : List action_multiset_t
  conditions : List data_expression
  deriving DecidableEq, Repr

namespace tuple_list

/-- The size of a tuple list, `tuple_list::size()`. -/
def size (t : tuple_list) : Nat :=
  t.actions.length

/-- The default-constructed, empty tuple list. -/
def empty : tuple_list :=
  ⟨[], []⟩

end tuple_list

/-- Extends the list `S` to `S ++ L2`, where `L2` is the list `L` in which
`firstaction` is inserted into every multi-action and every condition is
strengthened with `condition`.  If `S` is empty the operation is performed in
`L`, which is moved to `S`.  `firstaction = none` stands for `action()`:
nothing is inserted. -/
def addActionCondition (firstaction : Option action) (condition : data_expression)
    (L S : tuple_list) : tuple_list :=
  if S.size = 0 then
    let actions := match firstaction with
      | some a => L.actions.map (fun m => insert a m)
      | none => L.actions
    ⟨actions, L.conditions.map (fun x => lazy.and_ x condition)⟩
  else
    let actions := match firstaction with
      | none => S.actions ++ L.actions
      | some a => S.actions ++ L.actions.map (fun m => insert a m)
    ⟨actions, S.conditions ++ L.conditions.map (fun x => lazy.and_ x condition)⟩

/-! ## The communication table -/

/-- A communication expression `a1|...|an -> b`. -/
structure communication_expression where
  action_name : action_name_multiset_t
  name : action_name_t
  deriving DecidableEq, Repr

/-- A list of communication expressions. -/
abbrev communication_expression_list := List communication_expression

/-- Modelled from the spec: the silent name `tau` that a right-hand side is
compared with (`process::tau()` is not among the sources). -/
def tau : action_name_t := 0

/-- The ways in which a call can fail to deliver a result: the
`mcrl2::runtime_error` thrown by `can_communicate`, the dereference of
`m.begin()` for an empty `m` (undefined in C++), and the exhaustion of the
recursion budget of the embedding. -/
inductive exn where
  | runtime_error
  | undefined_behaviour
  | out_of_fuel
  deriving DecidableEq, Repr

deriving instance DecidableEq for Except

/-- Data structure to store the communication function more efficiently: the
left-hand sides and right-hand sides as parallel vectors, and the temporary
data `m_lhs_iters` (an iterator into each left-hand side) and
`m_match_failed`. -/
structure comm_entry where
  m_lhs : List action_name_multiset_t
  m_rhs : List action_name_t
  m_lhs_iters : List action_name_multiset_t
  m_match_failed : List Bool
  deriving DecidableEq, Repr

namespace comm_entry

/-- Initialization of `m_lhs`. -/
def init_lhs (communications : communication_expression_list) : List action_name_multiset_t :=
  communications.map (fun l => l.action_name)

/-- Initialization of `m_rhs`. -/
def init_rhs (communications : communication_expression_list) : List action_name_t :=
  communications.map (fun l => l.name)

/-- The constructor `comm_entry(communications)`; the temporary vectors get
`communications.size()` value-initialised entries. -/
def init (communications : communication_expression_list) : comm_entry :=
  ⟨init_lhs communications, init_rhs communications,
    List.replicate communications.length [], List.replicate communications.length false⟩

/-- The number of communication expressions, `comm_entry::size()`. -/
def size (c : comm_entry) : Nat :=
  c.m_lhs.length

/-- The assertion of `size()`: the four vectors have the same length. -/
def wf (c : comm_entry) : Prop :=
  c.m_lhs.length = c.m_rhs.length ∧ c.m_rhs.length = c.m_lhs_iters.length ∧
    c.m_lhs_iters.length = c.m_match_failed.length

/-- The loop of `reset_temporary_data` over the indices `i < size()`, as a
recursion over the parallel vectors: entry `i` of `m_lhs_iters` becomes
`m_lhs[i].begin()` and entry `i` of `m_match_failed` becomes `false`. -/
def reset_loop : List action_name_multiset_t → List action_name_multiset_t → List Bool →
    List action_name_multiset_t × List Bool
  | lhs :: ls, _ :: its, _ :: fs =>
    let r := reset_loop ls its fs
    (lhs :: r.1, false :: r.2)
  | _, its, fs => (its, fs)

/-- The method `reset_temporary_data`. -/
def reset_temporary_data (c : comm_entry) : comm_entry :=
  let r := reset_loop c.m_lhs c.m_lhs_iters c.m_match_failed
  { c with m_lhs_iters := r.1, m_match_failed := r.2 }

/-- The inner loop of `match_multiaction` for one `actionname`: every
left-hand side `i < size()` that has not failed yet either fails (its iterator
is at the end, or points at another name) or advances its iterator.  The
third component is `comm_ok`. -/
def match_step (actionname : action_name_t) :
    List action_name_multiset_t → List action_name_multiset_t → List Bool →
    List action_name_multiset_t × List Bool × Bool
  | _ :: ls, it :: its, f :: fs =>
    let r := match_step actionname ls its fs
    if f then (it :: r.1, true :: r.2.1, r.2.2)
    else match it with
      | [] => (it :: r.1, true :: r.2.1, r.2.2)
      | x :: it2 =>
        if actionname ≠ x then (it :: r.1, true :: r.2.1, r.2.2)
        else (it2 :: r.1, false :: r.2.1, true)
  | _, its, fs => (its, fs, false)

/-- The outer loop of `match_multiaction` over the names, with the early
return as soon as no left-hand side is left. -/
def match_loop : action_name_multiset_t → comm_entry → Bool × comm_entry
  | [], c => (true, c)
  | actionname :: rest, c =>
    let r := match_step actionname c.m_lhs c.m_lhs_iters c.m_match_failed
    let c2 := { c with m_lhs_iters := r.1, m_match_failed := r.2.1 }
    if !r.2.2 then (false, c2)
    else match_loop rest c2

/-- Check if `m` is contained in a lhs in the communication entry; resets the
temporary data before performing computations.  Delivers the result and the
table with its temporary data as they are left behind. -/
def match_multiaction (c : comm_entry) (m_names : action_name_multiset_t) : Bool × comm_entry :=
  match_loop m_names c.reset_temporary_data

/-- The loop of `can_communicate` over the left-hand sides: the first one
that has not failed and whose iterator is at the end decides. -/
def can_communicate_loop (m : action_multiset_t) :
    List action_name_multiset_t → List action_name_t → List action_name_multiset_t → List Bool →
    Except exn (Option action_label)
  | _ :: ls, rhs :: rs, it :: its, f :: fs =>
    if (!f) && it.isEmpty then
      if rhs = tau then .error exn.runtime_error
      else match m with
        | [] => .error exn.undefined_behaviour
        | a :: _ => .ok (some ⟨rhs, a.label.sorts⟩)
    else can_communicate_loop m ls rs its fs
  | _, _, _, _ => .ok none

/-- Determine if there exists a communication expression `a1|...|an -> b` such
that `m` is `a1|...|an`; delivers the resulting action label, or `none` (the
default `action_label()`) if there is none. -/
def can_communicate (c : comm_entry) (m : action_multiset_t) :
    Except exn (Option action_label × comm_entry) :=
  let r := c.match_multiaction (names m)
  if r.1 then
    match can_communicate_loop m r.2.m_lhs r.2.m_rhs r.2.m_lhs_iters r.2.m_match_failed with
    | .error e => .error e
    | .ok result => .ok (result, r.2)
  else .ok (none, r.2)

/-- The inner `while` of `might_communicate`: look for `comm_name` in the range
`rest`; delivers the iterator at the action found, or `none` when the range
is exhausted. -/
def find_name (comm_name : action_name_t) : action_multiset_t → Option action_multiset_t
  | [] => none
  | a :: rest =>
    if comm_name ≠ a.label.name then find_name comm_name rest
    else some (a :: rest)

/-- The outer `while` of `might_communicate` for one left-hand side: as long as
the iterator `it` is not at the end, its name is looked for in `rest`.
Delivers the iterator and `rest[i]` as they are when the loop is left. -/
def complete : action_name_multiset_t → action_multiset_t →
    action_name_multiset_t × Option action_multiset_t
  | [], rest => ([], some rest)
  | comm_name :: it, rest =>
    match find_name comm_name rest with
    | none => (comm_name :: it, none)
    | some [] => (comm_name :: it, none)
    | some (_ :: rest2) => complete it rest2

/-- The loop of `might_communicate` over the left-hand sides, left at the
first one that can be completed in `n`. -/
def might_communicate_loop (n : action_multiset_t) :
    List action_name_multiset_t → List action_name_multiset_t → List Bool →
    Bool × List action_name_multiset_t
  | _ :: ls, it :: its, f :: fs =>
    if f then
      let r := might_communicate_loop n ls its fs
      (r.1, it :: r.2)
    else
      let c := complete it n
      if c.2.isSome then (true, c.1 :: its)
      else
        let r := might_communicate_loop n ls its fs
        (r.1, c.1 :: r.2)
  | _, its, _ => (false, its)

/-- Indicates whether the actions in `m` occur in a left-hand side such that a
communication might take place: all actions of a matching communication that
are not in `m` should be in the range `n`. -/
def might_communicate (c : comm_entry) (m n : action_multiset_t) : Bool × comm_entry :=
  let r := c.match_multiaction (names m)
  if r.1 then
    let l := might_communicate_loop n r.2.m_lhs r.2.m_lhs_iters r.2.m_match_failed
    (l.1, { r.2 with m_lhs_iters := l.2 })
  else (false, r.2)

end comm_entry

/-! ## The enumeration kernel

The table `comm_table` is passed by reference in the source; here every
function takes the table and delivers it back together with its result. -/

/-- The function `xi`: is there a part of the range `beta` that extends
`alpha` to a multi-action that can communicate? -/
def xi (alpha : action_multiset_t) :
    action_multiset_t → comm_entry → Except exn (Bool × comm_entry)
  | [], comm_table =>
    match comm_table.can_communicate alpha with
    | .error e => .error e
    | .ok (c, t1) => .ok (c.isSome, t1)
  | beta_first :: beta, comm_table =>
    let alpha_ := insert beta_first alpha
    match comm_table.can_communicate alpha_ with
    | .error e => .error e
    | .ok (c, t1) =>
      if c.isSome then .ok (true, t1)
      else
        let mc := t1.might_communicate alpha_ beta
        match (if mc.1 then xi alpha beta mc.2 else .ok (false, mc.2)) with
        | .error e => .error e
        | .ok (result, t3) =>
          if result then .ok (true, t3)
          else xi alpha beta t3

/-- The inner loop of `psi`: `beta_first` runs over the range behind
`alpha_first`. -/
def psi_inner (RewriteTerm : rewriter) (alpha_first : action) :
    action_multiset_t → data_expression → comm_entry → Except exn (data_expression × comm_entry)
  | [], cond, comm_table => .ok (cond, comm_table)
  | beta_first :: beta, cond, comm_table =>
    let actl := insert alpha_first (insert beta_first [])
    let mc := comm_table.might_communicate actl beta
    if mc.1 then
      match xi actl beta mc.2 with
      | .error e => .error e
      | .ok (x, t2) =>
        if x then
          psi_inner RewriteTerm alpha_first beta
            (lazy.or_ cond (pairwiseMatch alpha_first.arguments beta_first.arguments RewriteTerm))
            t2
        else psi_inner RewriteTerm alpha_first beta cond t2
    else psi_inner RewriteTerm alpha_first beta cond mc.2

/-- The outer loop of `psi`: `alpha_first` runs over the reversed multi-action. -/
def psi_outer (RewriteTerm : rewriter) :
    action_multiset_t → data_expression → comm_entry → Except exn (data_expression × comm_entry)
  | [], cond, comm_table => .ok (cond, comm_table)
  | alpha_first :: rest, cond, comm_table =>
    match psi_inner RewriteTerm alpha_first rest cond comm_table with
    | .error e => .error e
    | .ok (cond2, t2) => psi_outer RewriteTerm rest cond2 t2

/-- The function `psi`: the condition under which no two actions of `alpha`
communicate. -/
def psi (alpha : action_multiset_t) (comm_table : comm_entry) (RewriteTerm : rewriter) :
    Except exn (data_expression × comm_entry) :=
  match psi_outer RewriteTerm (reverse alpha) false_ comm_table with
  | .error e => .error e
  | .ok (cond, t) => .ok (lazy.not_ cond, t)

mutual

/-- The function `phi`: a list of pairs indicating how the actions in `m|w|n`
can communicate, where all actions of `m`, none of `w` and a subset of `n`
take part in the communication; `d` is the data parameter of the
communication.  The first argument bounds the depth of the recursion. -/
def phi : Nat → action_multiset_t → data_expression_list → action_multiset_t →
    action_multiset_t → action_multiset_t → comm_entry → rewriter →
    Except exn (tuple_list × comm_entry)
  | 0, _, _, _, _, _, _, _ => .error exn.out_of_fuel
  | fuel + 1, m, d, w, n, r, comm_table, RewriteTerm =>
    let mc := comm_table.might_communicate m n
    if !mc.1 then .ok (tuple_list.empty, mc.2)
    else
      match n with
      | [] =>
        match mc.2.can_communicate m with
        | .error e => .error e
        | .ok (some c, t1) =>
          match makeMultiActionConditionList_aux fuel w t1 r RewriteTerm with
          | .error e => .error e
          | .ok (T, t2) =>
            .ok (addActionCondition (some ⟨c, d⟩) true_ T tuple_list.empty, t2)
        | .ok (none, t1) => .ok (tuple_list.empty, t1)
      | firstaction :: n_next =>
        let condition := pairwiseMatch d firstaction.arguments RewriteTerm
        if condition = false_ then
          phi fuel m d (insert firstaction w) n_next r mc.2 RewriteTerm
        else
          match phi fuel (insert firstaction m) d w n_next r mc.2 RewriteTerm with
          | .error e => .error e
          | .ok (T, t1) =>
            match phi fuel m d (insert firstaction w) n_next r t1 RewriteTerm with
            | .error e => .error e
            | .ok (result, t2) => .ok (addActionCondition none condition T result, t2)

/-- The function `gamma(m, C, r)` of the note "Calculation of communication
with open terms": the alternatives for the range `multiaction`, where `r`
holds the actions that do not communicate.  The first argument bounds the
depth of the recursion. -/
def makeMultiActionConditionList_aux : Nat → action_multiset_t → comm_entry →
    action_multiset_t → rewriter → Except exn (tuple_list × comm_entry)
  | 0, _, _, _, _ => .error exn.out_of_fuel
  | _ + 1, [], comm_table, r, RewriteTerm =>
    if r.isEmpty then .ok (⟨[[]], [true_]⟩, comm_table)
    else
      match psi r comm_table RewriteTerm with
      | .error e => .error e
      | .ok (c, t1) => .ok (⟨[[]], [c]⟩, t1)
  | fuel + 1, firstaction :: rest, comm_table, r, RewriteTerm =>
    match phi fuel [firstaction] firstaction.arguments [] rest r comm_table RewriteTerm with
    | .error e => .error e
    | .ok (S, t1) =>
      match makeMultiActionConditionList_aux fuel rest t1 (insert firstaction r) RewriteTerm with
      | .error e => .error e
      | .ok (T, t2) => .ok (addActionCondition (some firstaction) true_ T S, t2)

end

/-- The recursion budget that suffices for a multi-action of `k` actions. -/
def fuel_for (k : Nat) : Nat :=
  (k + 1) * (k + 1)

/-- The entry of the kernel: builds the table from `communications` and
enumerates the alternatives of `multiaction` with an empty `r`. -/
def makeMultiActionConditionList (multiaction : action_multiset_t)
    (communications : communication_expression_list) (RewriteTerm : rewriter) :
    Except exn tuple_list :=
  let comm_table := comm_entry.init communications
  match makeMultiActionConditionList_aux (fuel_for multiaction.length) multiaction comm_table []
      RewriteTerm with
  | .error e => .error e
  | .ok (T, _) => .ok T

/-! ## Valuations -/

/-- The value of a data expression under a valuation of the variables; a
function symbol is a constant that stands for its own number, and a Boolean
holds when its value is not `0`. -/
def eval (sigma : Nat → sort_expression → Nat) : data_expression → Nat
  | var x s => sigma x s
  | function_symbol f _ => f
  | true_ => 1
  | false_ => 0
  | data_expression.not_ p => if eval sigma p = 0 then 1 else 0
  | data_expression.and_ p q => if eval sigma p = 0 then 0 else if eval sigma q = 0 then 0 else 1
  | data_expression.or_ p q => if eval sigma p = 0 then (if eval sigma q = 0 then 0 else 1) else 1
  | equal_to x y => if eval sigma x = eval sigma y then 1 else 0

/-- A guard is true under a valuation. -/
def holds (sigma : Nat → sort_expression → Nat) (g : data_expression) : Prop :=
  eval sigma g ≠ 0

instance (sigma : Nat → sort_expression → Nat) (g : data_expression) : Decidable (holds sigma g) := by
  unfold holds
  infer_instance

/-! ## Auxiliary notions of the correctness proofs -/

/-- The state of the temporary data after the names `p` have been processed. -/
def scratch_inv (p : action_name_multiset_t) :
    List action_name_multiset_t → List action_name_multiset_t → List Bool → Prop
  | l :: ls, it :: its, f :: fs =>
    (if f then ¬ p <+: l else l = p ++ it) ∧ scratch_inv p ls its fs
  | [], [], [] => True
  | _, _, _ => False

instance (c : comm_entry) : Decidable c.wf := by
  unfold comm_entry.wf
  infer_instance

/-- The right-hand side of the first rule, in declared order, whose left-hand
side is `nm`. -/
def first_rule (nm : action_name_multiset_t) :
    List action_name_multiset_t → List action_name_t → Option action_name_t
  | l :: ls, r :: rs => if l = nm then some r else first_rule nm ls rs
  | _, _ => none

/-- What `can_communicate` delivers for `m`, read off the rules. -/
def can_communicate_result (lhs : List action_name_multiset_t) (rhs : List action_name_t)
    (m : action_multiset_t) : Except exn (Option action_label) :=
  match first_rule (names m) lhs rhs with
  | none => .ok none
  | some r =>
    if r = tau then .error exn.runtime_error
    else match m with
      | [] => .error exn.undefined_behaviour
      | a :: _ => .ok (some ⟨r, a.label.sorts⟩)

/-- The table `c2` is a state of the table `c`: it satisfies the assertion of
`size()` and holds the same rules. -/
def rules_kept (c c2 : comm_entry) : Prop :=
  c2.wf ∧ c2.m_lhs = c.m_lhs ∧ c2.m_rhs = c.m_rhs

/-- The literal `false` is what `psi` delivers for some non-empty context `r`
made of actions that satisfy `U`, on a state of the table `c0`. -/
def psi_false_source (c0 : comm_entry) (R : rewriter) (U : action → Prop) : Prop :=
  ∃ r c c2, r ≠ [] ∧ (∀ a ∈ r, U a) ∧ rules_kept c0 c ∧ psi r c R = .ok (false_, c2)

/-- A data variable: a name and a sort. -/
structure data_variable where
  name : Nat
  sort : sort_expression
  deriving DecidableEq, Repr

/-- A list of data variables, `data::variable_list`. -/
abbrev variable_list := List data_variable

/-- Modelled from the spec: `occursinterm(t, v)`, which is not among the
sources, tells whether the variable `v` occurs in the term `t`. -/
def occursinterm : data_expression → data_variable → Bool
  | var x s, v => decide (x = v.name ∧ s = v.sort)
  | function_symbol _ _, _ => false
  | true_, _ => false
  | false_, _ => false
  | data_expression.not_ p, v => occursinterm p v
  | data_expression.and_ p q, v => occursinterm p v || occursinterm q v
  | data_expression.or_ p q, v => occursinterm p v || occursinterm q v
  | equal_to x y, v => occursinterm x v || occursinterm y v

/-- A multi-action with an optional time stamp; `has_time()` holds when the
time is present. -/
structure multi_action where
  actions : action_multiset_t
  time : Option data_expression
  deriving DecidableEq, Repr

/-- A deadlock with an optional time stamp, `deadlock(time)`. -/
structure deadlock where
  time : Option data_expression
  deriving DecidableEq, Repr

/-- An assignment of the next state. -/
structure assignment where
  lhs : data_variable
  rhs : data_expression
  deriving DecidableEq, Repr

/-- The next-state assignments of a summand. -/
abbrev assignment_list := List assignment

/-- The stochastic distribution of a summand; the driver only copies it. -/
structure stochastic_distribution where
  vars : variable_list
  distribution : Option data_expression
  deriving DecidableEq, Repr

/-- An action summand `(sumvars, condition, multi_action, assignments,
distribution)`. -/
structure stochastic_action_summand where
  summation_variables : variable_list
  condition : data_expression
  multi_action : multi_action
  assignments : assignment_list
  distribution : stochastic_distribution
  deriving DecidableEq, Repr

/-- A deadlock summand `(sumvars, condition, deadlock)`. -/
structure deadlock_summand where
  summation_variables : variable_list
  condition : data_expression
  deadlock : deadlock
  deriving DecidableEq, Repr

/-- A list of multisets of action names, the allow list or the block list. -/
abbrev action_name_multiset_list := List action_name_multiset_t

/-- The collaborators of `communicationcomposition` that are not among the
sources; the driver calls them as black boxes.  `sumelm` delivers the summand
as it leaves it and whether it changed it; `insert_timed_delta_summand`
delivers the new list of deadlock summands. -/
structure collaborators where
  sort_communications : communication_expression_list → communication_expression_list
  sort_multi_action_labels : action_name_multiset_list → action_name_multiset_list
  allow_ : action_name_multiset_list → action_multiset_t → action → Bool
  encap : action_name_multiset_list → action_multiset_t → Bool
  sumelm : stochastic_action_summand → stochastic_action_summand × Bool
  insert_timed_delta_summand : List stochastic_action_summand → List deadlock_summand →
    deadlock_summand → Bool → List deadlock_summand

/-- The summand that the body of the inner loop of `communicationcomposition`
builds for the alternative `(multiaction, c)` of the summand `smmnd`, before
its condition is tested: the conditions are rewritten and, unless `nosumelm`,
`sumelm` is applied and a changed condition is rewritten again. -/
def new_summand (ext : collaborators) (smmnd : stochastic_action_summand) (nosumelm : Bool)
    (RewriteTerm : rewriter) (multiaction : action_multiset_t) (c : data_expression) :
    stochastic_action_summand :=
  let communicationcondition := RewriteTerm c
  let newcondition := RewriteTerm (lazy.and_ smmnd.condition communicationcondition)
  let s : stochastic_action_summand :=
    ⟨smmnd.summation_variables, newcondition,
      if smmnd.multi_action.time.isSome then ⟨multiaction, smmnd.multi_action.time⟩
      else ⟨multiaction, none⟩,
      smmnd.assignments, smmnd.distribution⟩
  if !nosumelm then
    let r := ext.sumelm s
    if r.2 then { r.1 with condition := RewriteTerm r.1.condition }
    else r.1
  else s

/-- The inner loop of `communicationcomposition` over the alternatives `i <
multiactionconditionlist.size()`, as a recursion over the two parallel
vectors: an alternative is skipped when it is not allowed or blocked, and its
summand is pushed at the back of `resulting_action_summands` unless its
condition is the literal `false`. -/
def summand_loop (ext : collaborators) (smmnd : stochastic_action_summand)
    (allowlist : action_name_multiset_list) (is_allow is_block : Bool)
    (terminationAction : action) (nosumelm : Bool) (RewriteTerm : rewriter) :
    List action_multiset_t → List data_expression → List stochastic_action_summand →
    List stochastic_action_summand
  | multiaction :: actions, c :: conditions, resulting_action_summands =>
    if is_allow && !ext.allow_ allowlist multiaction terminationAction then
      summand_loop ext smmnd allowlist is_allow is_block terminationAction nosumelm RewriteTerm
        actions conditions resulting_action_summands
    else if is_block && ext.encap allowlist multiaction then
      summand_loop ext smmnd allowlist is_allow is_block terminationAction nosumelm RewriteTerm
        actions conditions resulting_action_summands
    else if (new_summand ext smmnd nosumelm RewriteTerm multiaction c).condition ≠ false_ then
      summand_loop ext smmnd allowlist is_allow is_block terminationAction nosumelm RewriteTerm
        actions conditions
        (resulting_action_summands ++ [new_summand ext smmnd nosumelm RewriteTerm multiaction c])
    else
      summand_loop ext smmnd allowlist is_allow is_block terminationAction nosumelm RewriteTerm
        actions conditions resulting_action_summands
  | _, _, resulting_action_summands => resulting_action_summands

/-- The deadlock summand that is recalled for a summand: its summation
variables are those that occur in the condition or in the time stamp. -/
def shadow_deadlock_summand (smmnd : stochastic_action_summand) : deadlock_summand :=
  ⟨smmnd.summation_variables.filter (fun v =>
      occursinterm smmnd.condition v ||
        (match smmnd.multi_action.time with
          | some t => occursinterm t v
          | none => false)),
    smmnd.condition, ⟨smmnd.multi_action.time⟩⟩

/-- The loop of `communicationcomposition` over the action summands; it
delivers `resulting_action_summands` and `resulting_deadlock_summands`, or the
error raised by `makeMultiActionConditionList`. -/
def composition_loop (ext : collaborators) (communications : communication_expression_list)
    (allowlist : action_name_multiset_list) (is_allow is_block : Bool)
    (terminationAction : action) (nosumelm : Bool) (RewriteTerm : rewriter) :
    List stochastic_action_summand → List stochastic_action_summand → List deadlock_summand →
    Except exn (List stochastic_action_summand × List deadlock_summand)
  | [], resulting_action_summands, resulting_deadlock_summands =>
    .ok (resulting_action_summands, resulting_deadlock_summands)
  | smmnd :: rest, resulting_action_summands, resulting_deadlock_summands =>
    let deadlocks :=
      if !(is_allow || is_block) then resulting_deadlock_summands ++ [shadow_deadlock_summand smmnd]
      else resulting_deadlock_summands
    match makeMultiActionConditionList smmnd.multi_action.actions communications RewriteTerm with
    | .error e => .error e
    | .ok multiactionconditionlist =>
      composition_loop ext communications allowlist is_allow is_block terminationAction nosumelm
        RewriteTerm rest
        (summand_loop ext smmnd allowlist is_allow is_block terminationAction nosumelm
          RewriteTerm multiactionconditionlist.actions multiactionconditionlist.conditions
          resulting_action_summands)
        deadlocks

/-- Apply the communication composition to a list of action summands; delivers
the new action summands and deadlock summands.  The assertion
`!nodeltaelimination && ignore_time` for the inline filters is the caller's
obligation and not checked here. -/
def communicationcomposition (ext : collaborators)
    (communications : communication_expression_list) (allowlist : action_name_multiset_list)
    (is_allow is_block : Bool) (action_summands : List stochastic_action_summand)
    (deadlock_summands : List deadlock_summand) (terminationAction : action)
    (nosumelm nodeltaelimination ignore_time : Bool) (RewriteTerm : rewriter) :
    Except exn (List stochastic_action_summand × List deadlock_summand) :=
  let communications := ext.sort_communications communications
  let allowlist := if is_allow then ext.sort_multi_action_labels allowlist else allowlist
  let resulting_deadlock_summands := deadlock_summands
  let inline_allow := is_allow || is_block
  let deadlock_summands : List deadlock_summand :=
    if inline_allow then [⟨[], true_, ⟨none⟩⟩] else []
  match composition_loop ext communications allowlist is_allow is_block terminationAction
      nosumelm RewriteTerm action_summands [] resulting_deadlock_summands with
  | .error e => .error e
  | .ok (resulting_action_summands, resulting_deadlock_summands) =>
    if !inline_allow && !nodeltaelimination then
      .ok (resulting_action_summands,
        resulting_deadlock_summands.foldl
          (fun deadlocks summand =>
            ext.insert_timed_delta_summand resulting_action_summands deadlocks summand ignore_time)
          deadlock_summands)
    else .ok (resulting_action_summands, deadlock_summands)

/-- Collaborators for the examples: nothing is sorted, filtered or eliminated,
and a deadlock summand is put at the back of the list. -/
def plain_collaborators : collaborators :=
  ⟨fun l => l, fun l => l, fun _ _ _ => true, fun _ _ => false, fun s => (s, false),
    fun _ deadlocks s _ => deadlocks ++ [s]⟩

/-- The summand, if any, that the alternative `(multiaction, c)` of the input
summand `smmnd` contributes to the output: none when the alternative is
disallowed, blocked, or when the condition of its summand is the literal
`false`. -/
def summand_of_alternative (ext : collaborators) (smmnd : stochastic_action_summand)
    (allowlist : action_name_multiset_list) (is_allow is_block : Bool)
    (terminationAction : action) (nosumelm : Bool) (RewriteTerm : rewriter)
    (multiaction : action_multiset_t) (c : data_expression) : Option stochastic_action_summand :=
  if is_allow && !ext.allow_ allowlist multiaction terminationAction then none
  else if is_block && ext.encap allowlist multiaction then none
  else if (new_summand ext smmnd nosumelm RewriteTerm multiaction c).condition ≠ false_ then
    some (new_summand ext smmnd nosumelm RewriteTerm multiaction c)
  else none

/-- The summands built from the alternatives `j, j + 1, ...` of the input
summand with index `i`, in the order of the alternatives, each with the pair
`(i, j)` it stems from; the discarded alternatives are omitted. -/
def tagged_alternatives (ext : collaborators) (smmnd : stochastic_action_summand)
    (allowlist : action_name_multiset_list) (is_allow is_block : Bool)
    (terminationAction : action) (nosumelm : Bool) (RewriteTerm : rewriter) (i : Nat) :
    Nat → List action_multiset_t → List data_expression →
    List (Nat × Nat × stochastic_action_summand)
  | j, multiaction :: actions, c :: conditions =>
    match summand_of_alternative ext smmnd allowlist is_allow is_block terminationAction
        nosumelm RewriteTerm multiaction c with
    | some s =>
      (i, j, s) :: tagged_alternatives ext smmnd allowlist is_allow is_block terminationAction
        nosumelm RewriteTerm i (j + 1) actions conditions
    | none =>
      tagged_alternatives ext smmnd allowlist is_allow is_block terminationAction
        nosumelm RewriteTerm i (j + 1) actions conditions
  | _, _, _ => []

/-- The ordering of the output as the spec words it: the concatenation, over
the input summands `i, i + 1, ...` in input order, of the summands built from
the alternatives of each in the order of `makeMultiActionConditionList`. -/
def tagged_summands (ext : collaborators) (communications : communication_expression_list)
    (allowlist : action_name_multiset_list) (is_allow is_block : Bool)
    (terminationAction : action) (nosumelm : Bool) (RewriteTerm : rewriter) :
    Nat → List stochastic_action_summand →
    Except exn (List (Nat × Nat × stochastic_action_summand))
  | _, [] => .ok []
  | i, smmnd :: rest =>
    match makeMultiActionConditionList smmnd.multi_action.actions communications RewriteTerm with
    | .error e => .error e
    | .ok T =>
      match tagged_summands ext communications allowlist is_allow is_block terminationAction
          nosumelm RewriteTerm (i + 1) rest with
      | .error e => .error e
      | .ok l =>
        .ok (tagged_alternatives ext smmnd allowlist is_allow is_block terminationAction
          nosumelm RewriteTerm i 0 T.actions T.conditions ++ l)

/-- The simplification of `xi` that the spec allows: the first recursive call,
guarded by `might_communicate`, is dropped. -/
def xi_simplified (alpha : action_multiset_t) :
    action_multiset_t → comm_entry → Except exn (Bool × comm_entry)
  | [], comm_table =>
    match comm_table.can_communicate alpha with
    | .error e => .error e
    | .ok (c, t1) => .ok (c.isSome, t1)
  | beta_first :: beta, comm_table =>
    match comm_table.can_communicate (insert beta_first alpha) with
    | .error e => .error e
    | .ok (c, t1) =>
      if c.isSome then .ok (true, t1)
      else xi_simplified alpha beta t1

/-- An action summand for the examples: `sum v0, v1, v2. (v0 = f) -> a|b @ v2`,
with three summation variables of which `v1` occurs nowhere. -/
def example_summand : stochastic_action_summand :=
  ⟨[⟨0, 5⟩, ⟨1, 5⟩, ⟨2, 6⟩], equal_to (var 0 5) (function_symbol 8 5),
    ⟨[⟨⟨1, []⟩, []⟩, ⟨⟨2, []⟩, []⟩], some (var 2 6)⟩, [], ⟨[], none⟩⟩

/-- The summand that the driver builds from `example_summand` and the
alternative `(c, true)`. -/
def example_result : stochastic_action_summand :=
  ⟨[⟨0, 5⟩, ⟨1, 5⟩, ⟨2, 6⟩], equal_to (var 0 5) (function_symbol 8 5),
    ⟨[⟨⟨3, []⟩, []⟩], some (var 2 6)⟩, [], ⟨[], none⟩⟩

/-- The deadlock summand recalled for `example_summand`. -/
def example_deadlock : deadlock_summand :=
  ⟨[⟨0, 5⟩, ⟨2, 6⟩], equal_to (var 0 5) (function_symbol 8 5), ⟨some (var 2 6)⟩⟩

/-- The action that a group `G` of actions of a multi-action contributes to an
alternative: the single action of the group unchanged, or the action `c(d)`
where the names of the group are the left-hand side of a rule with the
right-hand side `c`, and `d` and the sorts of the label are those of the first
action of the group.  The rules are given by the relation `rule`. -/
def group_action (rule : action_name_multiset_t → action_name_t → Prop)
    (G : action_multiset_t) (b : action) : Prop :=
  G = [b] ∨ ∃ a rest cn, G = a :: rest ∧ rule (names G) cn ∧
    b = ⟨⟨cn, a.label.sorts⟩, a.arguments⟩

/-- The multi-action `M` holds one action for each group of a partition of the
actions of `alpha` into groups: the groups `gs` are parts of `alpha` in the
order of `alpha`, together they hold the actions of `alpha`, and `M` holds the
actions `bs` that the groups contribute. -/
def partition_image (rule : action_name_multiset_t → action_name_t → Prop)
    (alpha M : action_multiset_t) : Prop :=
  ∃ (gs : List action_multiset_t) (bs : action_multiset_t),
    (∀ G ∈ gs, List.Sublist G alpha) ∧ List.Perm gs.flatten alpha ∧
      List.Forall₂ (group_action rule) gs bs ∧ List.Perm M bs

/-! ## Lemmas on the lazy connectives and the matcher -/

theorem lazy_and_false_left (q : data_expression) : lazy.and_ false_ q = false_ := by
  simp [lazy.and_]

theorem lazy_and_false_right (p : data_expression) : lazy.and_ p false_ = false_ := by
  simp [lazy.and_]

theorem lazy_and_true_true : lazy.and_ true_ true_ = true_ := by
  simp [lazy.and_]

theorem lazy_and_eq_false_iff (p q : data_expression) :
    lazy.and_ p q = false_ ↔ p = false_ ∨ q = false_ := by
  unfold lazy.and_
  constructor
  · intro h
    by_contra hn
    rw [if_neg hn] at h
    push_neg at hn
    split_ifs at h with h1 h2
    · exact hn.2 h
    · exact hn.1 h
  · intro h
    rw [if_pos h]

theorem pairwiseMatch_loop_false (R : rewriter) (l1 l2 : data_expression_list) :
    pairwiseMatch_loop R l1 l2 false_ = false_ := by
  induction l1 generalizing l2 with
  | nil => simp [pairwiseMatch_loop]
  | cons t1 l1 ih =>
    cases l2 with
    | nil => simp [pairwiseMatch_loop]
    | cons t2 l2 =>
      simp only [pairwiseMatch_loop, lazy_and_false_left, ih]
      split_ifs <;> rfl

theorem pairwiseMatch_loop_sort_mismatch (R : rewriter) (l1 l2 : data_expression_list)
    (acc : data_expression) (k : Nat) (t1 t2 : data_expression)
    (h1 : l1[k]? = some t1) (h2 : l2[k]? = some t2) (hs : t1.sort ≠ t2.sort) :
    pairwiseMatch_loop R l1 l2 acc = false_ := by
  induction l1 generalizing l2 acc k with
  | nil => simp at h1
  | cons a l1 ih =>
    cases l2 with
    | nil => simp at h2
    | cons b l2 =>
      cases k with
      | zero =>
        simp only [List.getElem?_cons_zero, Option.some.injEq] at h1 h2
        subst h1 h2
        simp [pairwiseMatch_loop, hs]
      | succ k =>
        simp only [List.getElem?_cons_succ] at h1 h2
        simp only [pairwiseMatch_loop]
        split_ifs
        · rfl
        · exact ih l2 _ k h1 h2

theorem pairwiseMatch_loop_eq_foldl (R : rewriter) (l1 l2 : data_expression_list)
    (acc : data_expression) (hlen : l1.length = l2.length)
    (hsort : ∀ p ∈ l1.zip l2, p.1.sort = p.2.sort) :
    pairwiseMatch_loop R l1 l2 acc =
      (l1.zip l2).foldl (fun result p => lazy.and_ result (R (equal_to p.1 p.2))) acc := by
  induction l1 generalizing l2 acc with
  | nil => simp [pairwiseMatch_loop]
  | cons a l1 ih =>
    cases l2 with
    | nil => simp at hlen
    | cons b l2 =>
      have hab : a.sort = b.sort := hsort (a, b) (by simp)
      simp only [pairwiseMatch_loop, hab, ne_eq, not_true_eq_false, if_false, List.zip_cons_cons,
        List.foldl_cons]
      apply ih
      · simpa using hlen
      · intro p hp
        exact hsort p (by simp [hp])

theorem foldl_lazy_and_false (R : rewriter) (ps : List (data_expression × data_expression)) :
    ps.foldl (fun result p => lazy.and_ result (R (equal_to p.1 p.2))) false_ = false_ := by
  induction ps with
  | nil => rfl
  | cons p ps ih => simp [List.foldl_cons, lazy_and_false_left, ih]

theorem foldl_lazy_and_all_true (R : rewriter) (ps : List (data_expression × data_expression))
    (h : ∀ p ∈ ps, R (equal_to p.1 p.2) = true_) :
    ps.foldl (fun result p => lazy.and_ result (R (equal_to p.1 p.2))) true_ = true_ := by
  induction ps with
  | nil => rfl
  | cons p ps ih =>
    have hp : R (equal_to p.1 p.2) = true_ := h p (by simp)
    simp only [List.foldl_cons, hp, lazy_and_true_true]
    exact ih (fun q hq => h q (by simp [hq]))

theorem foldl_lazy_and_some_false (R : rewriter) (ps : List (data_expression × data_expression))
    (acc : data_expression) (h : ∃ p ∈ ps, R (equal_to p.1 p.2) = false_) :
    ps.foldl (fun result p => lazy.and_ result (R (equal_to p.1 p.2))) acc = false_ := by
  induction ps generalizing acc with
  | nil => simp at h
  | cons p ps ih =>
    obtain ⟨q, hq, hq2⟩ := h
    simp only [List.foldl_cons]
    rcases List.mem_cons.mp hq with rfl | hq
    · rw [hq2, lazy_and_false_right]
      exact foldl_lazy_and_false R ps
    · exact ih _ ⟨q, hq, hq2⟩

/-! ## The pairwise matcher: claims C9 and C10 -/

/-- C9: `pairwiseMatch l1 l2 R` is the literal `false` whenever the two lists
differ in length, and whenever at some position the two expressions have
different sorts, whatever the earlier positions rewrote to. -/
theorem pairwiseMatch_false_of_mismatch (l1 l2 : data_expression_list) (R : rewriter)
    (h : l1.length ≠ l2.length ∨
      ∃ (k : Nat) (t1 t2 : data_expression), l1[k]? = some t1 ∧ l2[k]? = some t2 ∧ t1.sort ≠ t2.sort) :
    pairwiseMatch l1 l2 R = false_ := by
  unfold pairwiseMatch
  split_ifs with hl
  · rfl
  · rcases h with h | ⟨k, t1, t2, h1, h2, hs⟩
    · exact absurd h hl
    · exact pairwiseMatch_loop_sort_mismatch R l1 l2 _ k t1 t2 h1 h2 hs

/-- Witness of C9: `[x : 1]` against `[y : 2]` (same length, different sorts). -/
theorem pairwiseMatch_false_of_mismatch_witness :
    pairwiseMatch [var 0 1] [var 1 2] id = false_ :=
  pairwiseMatch_false_of_mismatch [var 0 1] [var 1 2] id
    (Or.inr ⟨0, var 0 1, var 1 2, rfl, rfl, by decide⟩)

/-- C10: for lists of equal length with position-wise equal sorts,
`pairwiseMatch` is the left fold of the lazy conjunction over the rewritten
equalities, starting from the literal `true`; it is `true` for two empty
lists and when every rewritten equality is the literal `true`, and `false` as
soon as one rewritten equality is the literal `false`. -/
theorem pairwiseMatch_eq_foldl (l1 l2 : data_expression_list) (R : rewriter)
    (hlen : l1.length = l2.length) (hsort : ∀ p ∈ l1.zip l2, p.1.sort = p.2.sort) :
    pairwiseMatch l1 l2 R =
        (l1.zip l2).foldl (fun result p => lazy.and_ result (R (equal_to p.1 p.2))) true_ ∧
      pairwiseMatch [] [] R = true_ ∧
      ((∀ p ∈ l1.zip l2, R (equal_to p.1 p.2) = true_) → pairwiseMatch l1 l2 R = true_) ∧
      ((∃ p ∈ l1.zip l2, R (equal_to p.1 p.2) = false_) → pairwiseMatch l1 l2 R = false_) := by
  have hfold : pairwiseMatch l1 l2 R =
      (l1.zip l2).foldl (fun result p => lazy.and_ result (R (equal_to p.1 p.2))) true_ := by
    unfold pairwiseMatch
    rw [if_neg (by simpa using hlen)]
    exact pairwiseMatch_loop_eq_foldl R l1 l2 true_ hlen hsort
  refine ⟨hfold, by simp [pairwiseMatch, pairwiseMatch_loop], ?_, ?_⟩
  · intro h
    rw [hfold]
    exact foldl_lazy_and_all_true R _ h
  · intro h
    rw [hfold]
    exact foldl_lazy_and_some_false R _ _ h

/-- Witness of C10: `[x, y]` against `[y, x]`, all of sort 1, with the identity
rewriter. -/
theorem pairwiseMatch_eq_foldl_witness :
    pairwiseMatch [var 0 1, var 1 1] [var 1 1, var 0 1] id =
      lazy.and_ (lazy.and_ true_ (equal_to (var 0 1) (var 1 1)))
        (equal_to (var 1 1) (var 0 1)) :=
  (pairwiseMatch_eq_foldl [var 0 1, var 1 1] [var 1 1, var 0 1] id rfl
    (by decide)).1

/-! ## The prefix automaton `match_multiaction` -/

open comm_entry

theorem scratch_inv_reset (ls its : List action_name_multiset_t) (fs : List Bool)
    (h1 : ls.length = its.length) (h2 : its.length = fs.length) :
    scratch_inv [] ls (reset_loop ls its fs).1 (reset_loop ls its fs).2 := by
  induction ls generalizing its fs with
  | nil =>
    cases its with
    | nil =>
      cases fs with
      | nil => simp [reset_loop, scratch_inv]
      | cons _ _ => simp at h2
    | cons _ _ => simp at h1
  | cons l ls ih =>
    cases its with
    | nil => simp at h1
    | cons it its =>
      cases fs with
      | nil => simp at h2
      | cons f fs =>
        simp only [reset_loop, scratch_inv]
        refine ⟨by simp, ih its fs ?_ ?_⟩
        · simpa using h1
        · simpa using h2

theorem not_prefix_of_append_singleton (p : List Nat) (x : Nat) : ¬ (p ++ [x]) <+: p := by
  intro h
  have := h.length_le
  simp at this

theorem scratch_inv_step (x : action_name_t) (p : action_name_multiset_t)
    (ls its : List action_name_multiset_t) (fs : List Bool) (h : scratch_inv p ls its fs) :
    scratch_inv (p ++ [x]) ls (match_step x ls its fs).1 (match_step x ls its fs).2.1 ∧
      ((match_step x ls its fs).2.2 = true ↔ ∃ l ∈ ls, (p ++ [x]) <+: l) := by
  induction ls generalizing its fs with
  | nil =>
    cases its <;> cases fs <;> simp_all [scratch_inv, match_step]
  | cons l ls ih =>
    cases its with
    | nil => cases fs <;> simp [scratch_inv] at h
    | cons it its =>
      cases fs with
      | nil => simp [scratch_inv] at h
      | cons f fs =>
        simp only [scratch_inv] at h
        obtain ⟨h1, h2⟩ := h
        obtain ⟨ih1, ih2⟩ := ih its fs h2
        cases f with
        | true =>
          simp only [if_true] at h1
          have hn : ¬ (p ++ [x]) <+: l := fun hp => h1 ((List.prefix_append p [x]).trans hp)
          simp only [match_step, if_true, scratch_inv, ih1, and_true, List.mem_cons,
            exists_eq_or_imp, hn, false_or]
          exact ⟨not_false, ih2⟩
        | false =>
          simp only [Bool.false_eq_true, if_false] at h1
          subst h1
          cases it with
          | nil =>
            have hn : ¬ (p ++ [x]) <+: (p ++ []) := by
              rw [List.append_nil]
              exact not_prefix_of_append_singleton p x
            simp only [match_step, Bool.false_eq_true, if_false, scratch_inv, if_true, ih1,
              and_true, List.mem_cons, exists_eq_or_imp, hn, false_or]
            exact ⟨not_false, ih2⟩
          | cons y it2 =>
            by_cases hxy : x = y
            · subst hxy
              simp only [match_step, Bool.false_eq_true, if_false, ne_eq, not_true_eq_false,
                scratch_inv, ih1, and_true, List.mem_cons, exists_eq_or_imp, true_iff]
              refine ⟨by simp, Or.inl ?_⟩
              exact ⟨it2, by simp⟩
            · have hn : ¬ (p ++ [x]) <+: (p ++ y :: it2) := by
                intro hp
                rw [List.prefix_append_right_inj] at hp
                have := List.cons_prefix_cons.mp hp
                exact hxy this.1
              simp only [match_step, Bool.false_eq_true, if_false, ne_eq, hxy, not_false_eq_true,
                if_true, scratch_inv, ih1, and_true, List.mem_cons, exists_eq_or_imp, hn, false_or]
              exact ⟨trivial, ih2⟩

theorem scratch_inv_dead (p q : action_name_multiset_t)
    (ls its : List action_name_multiset_t) (fs : List Bool) (h : scratch_inv p ls its fs)
    (hdead : ∀ l ∈ ls, ¬ p <+: l) (hpq : p <+: q) : scratch_inv q ls its fs := by
  induction ls generalizing its fs with
  | nil => cases its <;> cases fs <;> simp_all [scratch_inv]
  | cons l ls ih =>
    cases its with
    | nil => cases fs <;> simp [scratch_inv] at h
    | cons it its =>
      cases fs with
      | nil => simp [scratch_inv] at h
      | cons f fs =>
        simp only [scratch_inv] at h ⊢
        have hl : ¬ p <+: l := hdead l (by simp)
        have hq : ¬ q <+: l := fun hq => hl (hpq.trans hq)
        refine ⟨?_, ih its fs h.2 (fun l2 hl2 => hdead l2 (by simp [hl2]))⟩
        cases f with
        | true => simpa using hq
        | false =>
          exfalso
          have := h.1
          simp only [Bool.false_eq_true, if_false] at this
          exact hl ⟨it, this.symm⟩

theorem match_loop_spec (nm p : action_name_multiset_t) (c : comm_entry)
    (h : scratch_inv p c.m_lhs c.m_lhs_iters c.m_match_failed) :
    (match_loop nm c).2.m_lhs = c.m_lhs ∧ (match_loop nm c).2.m_rhs = c.m_rhs ∧
      scratch_inv (p ++ nm) c.m_lhs (match_loop nm c).2.m_lhs_iters
        (match_loop nm c).2.m_match_failed ∧
      ((match_loop nm c).1 = true ↔ nm = [] ∨ ∃ l ∈ c.m_lhs, (p ++ nm) <+: l) := by
  induction nm generalizing p c with
  | nil => simp [match_loop, h]
  | cons x nm ih =>
    obtain ⟨hs1, hs2⟩ := scratch_inv_step x p c.m_lhs c.m_lhs_iters c.m_match_failed h
    have happ : p ++ x :: nm = (p ++ [x]) ++ nm := by simp
    simp only [match_loop]
    by_cases hok : (match_step x c.m_lhs c.m_lhs_iters c.m_match_failed).2.2 = true
    · simp only [hok, Bool.not_true, Bool.false_eq_true, if_false]
      have := ih (p ++ [x])
        { c with m_lhs_iters := (match_step x c.m_lhs c.m_lhs_iters c.m_match_failed).1,
                 m_match_failed := (match_step x c.m_lhs c.m_lhs_iters c.m_match_failed).2.1 } hs1
      obtain ⟨i1, i2, i3, i4⟩ := this
      refine ⟨i1, i2, ?_, ?_⟩
      · rw [happ]; exact i3
      · rw [i4, happ]
        simp only [List.cons_ne_nil, false_or]
        constructor
        · rintro (rfl | hx)
          · simpa using hs2.mp hok
          · exact hx
        · intro hx; exact Or.inr hx
    · have hdead : ∀ l ∈ c.m_lhs, ¬ (p ++ [x]) <+: l := by
        intro l hl hp
        exact hok (hs2.mpr ⟨l, hl, hp⟩)
      simp only [Bool.not_eq_true] at hok
      simp only [hok, Bool.not_false, if_true, true_and, Bool.false_eq_true, List.cons_ne_nil,
        false_or, false_iff, not_exists, not_and]
      refine ⟨?_, ?_⟩
      · exact scratch_inv_dead (p ++ [x]) (p ++ x :: nm) _ _ _ hs1 hdead
          (by rw [happ]; exact List.prefix_append _ _)
      · intro l hl hp
        exact hdead l hl (((by rw [happ]; exact List.prefix_append _ _ :
          (p ++ [x]) <+: (p ++ x :: nm))).trans hp)

theorem match_multiaction_spec (c : comm_entry) (hwf : c.wf) (nm : action_name_multiset_t) :
    (c.match_multiaction nm).2.m_lhs = c.m_lhs ∧ (c.match_multiaction nm).2.m_rhs = c.m_rhs ∧
      scratch_inv nm c.m_lhs (c.match_multiaction nm).2.m_lhs_iters
        (c.match_multiaction nm).2.m_match_failed ∧
      ((c.match_multiaction nm).1 = true ↔ nm = [] ∨ ∃ l ∈ c.m_lhs, nm <+: l) := by
  have h0 : scratch_inv [] c.reset_temporary_data.m_lhs c.reset_temporary_data.m_lhs_iters
      c.reset_temporary_data.m_match_failed := by
    simp only [reset_temporary_data]
    exact scratch_inv_reset _ _ _ (hwf.1.trans hwf.2.1) hwf.2.2
  have := match_loop_spec nm [] c.reset_temporary_data h0
  simpa [match_multiaction, reset_temporary_data] using this

theorem scratch_inv_get (p : action_name_multiset_t)
    (ls its : List action_name_multiset_t) (fs : List Bool) (h : scratch_inv p ls its fs)
    (i : Nat) (l : action_name_multiset_t) (hl : ls[i]? = some l) :
    ∃ it f, its[i]? = some it ∧ fs[i]? = some f ∧ (if f then ¬ p <+: l else l = p ++ it) := by
  induction ls generalizing its fs i with
  | nil => simp at hl
  | cons l0 ls ih =>
    cases its with
    | nil => cases fs <;> simp [scratch_inv] at h
    | cons it its =>
      cases fs with
      | nil => simp [scratch_inv] at h
      | cons f fs =>
        simp only [scratch_inv] at h
        cases i with
        | zero =>
          simp only [List.getElem?_cons_zero, Option.some.injEq] at hl
          subst hl
          exact ⟨it, f, by simp, by simp, h.1⟩
        | succ i =>
          simp only [List.getElem?_cons_succ] at hl ⊢
          exact ih its fs h.2 i hl

theorem scratch_inv_length (p : action_name_multiset_t)
    (ls its : List action_name_multiset_t) (fs : List Bool) (h : scratch_inv p ls its fs) :
    ls.length = its.length ∧ its.length = fs.length := by
  induction ls generalizing its fs with
  | nil => cases its <;> cases fs <;> simp_all [scratch_inv]
  | cons l0 ls ih =>
    cases its with
    | nil => cases fs <;> simp [scratch_inv] at h
    | cons it its =>
      cases fs with
      | nil => simp [scratch_inv] at h
      | cons f fs =>
        simp only [scratch_inv] at h
        have := ih its fs h.2
        simp [this.1, this.2]

/-- C8: after `match_multiaction nm` has run (whether it delivered `true` or
left early with `false`), rule `i` is live, i.e. `m_match_failed[i]` is
`false`, if and only if `nm` is a prefix of `lhs[i]`; and for every live rule
the iterator `m_lhs_iters[i]` points at position `|nm|` of `lhs[i]`. -/
theorem match_multiaction_live_iff (c : comm_entry) (hwf : c.wf)
    (nm : action_name_multiset_t) (i : Nat) (l : action_name_multiset_t)
    (hl : c.m_lhs[i]? = some l) :
    (c.match_multiaction nm).2.m_lhs = c.m_lhs ∧
      ∃ it f, (c.match_multiaction nm).2.m_lhs_iters[i]? = some it ∧
        (c.match_multiaction nm).2.m_match_failed[i]? = some f ∧
        (f = false ↔ nm <+: l) ∧ (f = false → it = l.drop nm.length) := by
  obtain ⟨h1, -, h3, -⟩ := match_multiaction_spec c hwf nm
  refine ⟨h1, ?_⟩
  obtain ⟨it, f, hit, hf, hinv⟩ := scratch_inv_get nm _ _ _ h3 i l hl
  refine ⟨it, f, hit, hf, ?_, ?_⟩
  · cases f with
    | true => simpa using hinv
    | false =>
      simp only [Bool.false_eq_true, if_false] at hinv
      simp only [true_iff]
      exact ⟨it, hinv.symm⟩
  · intro hf2
    subst hf2
    simp only [Bool.false_eq_true, if_false] at hinv
    rw [hinv]
    simp

/-- Witness of C8: the table of `a|b -> c` and `a|d -> e` after matching `a`. -/
theorem match_multiaction_live_iff_witness :
    (comm_entry.init [⟨[1, 2], 3⟩, ⟨[1, 4], 5⟩]).wf ∧
      ∃ it f, ((comm_entry.init [⟨[1, 2], 3⟩, ⟨[1, 4], 5⟩]).match_multiaction
          [1]).2.m_lhs_iters[1]? = some it ∧
        ((comm_entry.init [⟨[1, 2], 3⟩, ⟨[1, 4], 5⟩]).match_multiaction
          [1]).2.m_match_failed[1]? = some f ∧
        (f = false ↔ [1] <+: [1, 4]) ∧ (f = false → it = [1, 4].drop [1].length) :=
  ⟨by decide,
    (match_multiaction_live_iff (comm_entry.init [⟨[1, 2], 3⟩, ⟨[1, 4], 5⟩]) (by decide)
      [1] 1 [1, 4] rfl).2⟩

/-! ## The query `can_communicate` -/

theorem first_rule_eq_none (nm : action_name_multiset_t) (ls : List action_name_multiset_t)
    (rs : List action_name_t) (hlen : ls.length = rs.length) :
    first_rule nm ls rs = none ↔ ∀ l ∈ ls, l ≠ nm := by
  induction ls generalizing rs with
  | nil => simp [first_rule]
  | cons l ls ih =>
    cases rs with
    | nil => simp at hlen
    | cons r rs =>
      simp only [first_rule, List.mem_cons, forall_eq_or_imp]
      by_cases h : l = nm
      · simp [h]
      · simp only [h, if_false, ne_eq, not_false_eq_true, true_and]
        exact ih rs (by simpa using hlen)

theorem first_rule_eq_some (nm : action_name_multiset_t) (ls : List action_name_multiset_t)
    (rs : List action_name_t) (r : action_name_t) :
    first_rule nm ls rs = some r ↔
      ∃ i : Nat, ls[i]? = some nm ∧ (∀ j, j < i → ls[j]? ≠ some nm) ∧ rs[i]? = some r := by
  induction ls generalizing rs with
  | nil => simp [first_rule]
  | cons l ls ih =>
    cases rs with
    | nil =>
      simp [first_rule]
    | cons r0 rs =>
      simp only [first_rule]
      by_cases h : l = nm
      · subst h
        simp only [if_true, Option.some.injEq]
        constructor
        · rintro rfl
          exact ⟨0, by simp, by simp, by simp⟩
        · rintro ⟨i, -, h2, h3⟩
          cases i with
          | zero => simpa using h3
          | succ i => exact absurd (by simp) (h2 0 (Nat.succ_pos i))
      · simp only [h, if_false]
        rw [ih rs]
        constructor
        · rintro ⟨i, h1, h2, h3⟩
          refine ⟨i + 1, by simpa using h1, ?_, by simpa using h3⟩
          intro j hj
          cases j with
          | zero => simpa using h
          | succ j => simpa using h2 j (by omega)
        · rintro ⟨i, h1, h2, h3⟩
          cases i with
          | zero => simp at h1; exact absurd h1 h
          | succ i =>
            refine ⟨i, by simpa using h1, ?_, by simpa using h3⟩
            intro j hj
            simpa using h2 (j + 1) (by omega)

theorem can_communicate_loop_eq (m : action_multiset_t) (nm : action_name_multiset_t)
    (ls : List action_name_multiset_t) (rs : List action_name_t)
    (its : List action_name_multiset_t) (fs : List Bool) (h : scratch_inv nm ls its fs)
    (hlen : ls.length = rs.length) :
    can_communicate_loop m ls rs its fs =
      match first_rule nm ls rs with
      | none => .ok none
      | some r =>
        if r = tau then .error exn.runtime_error
        else match m with
          | [] => .error exn.undefined_behaviour
          | a :: _ => .ok (some ⟨r, a.label.sorts⟩) := by
  induction ls generalizing rs its fs with
  | nil => cases rs <;> cases its <;> cases fs <;> simp [can_communicate_loop, first_rule]
  | cons l ls ih =>
    cases its with
    | nil => cases fs <;> simp [scratch_inv] at h
    | cons it its =>
      cases fs with
      | nil => simp [scratch_inv] at h
      | cons f fs =>
        cases rs with
        | nil => simp at hlen
        | cons r rs =>
          simp only [scratch_inv] at h
          have hiff : ((!f) && it.isEmpty) = true ↔ l = nm := by
            cases f with
            | true =>
              have h1 := h.1
              simp only [if_true] at h1
              simp only [Bool.not_true, Bool.false_and, Bool.false_eq_true, false_iff]
              rintro rfl
              exact h1 (List.prefix_refl _)
            | false =>
              have h1 := h.1
              simp only [Bool.false_eq_true, if_false] at h1
              subst h1
              cases it <;> simp
          simp only [can_communicate_loop, first_rule]
          by_cases hl : l = nm
          · rw [if_pos (hiff.mpr hl), if_pos hl]
          · rw [if_neg (fun hc => hl (hiff.mp hc)), if_neg hl]
            exact ih rs its fs h.2 (by simpa using hlen)

theorem can_communicate_eq (c : comm_entry) (hwf : c.wf) (m : action_multiset_t) :
    c.can_communicate m =
      match can_communicate_result c.m_lhs c.m_rhs m with
      | .error e => .error e
      | .ok result => .ok (result, (c.match_multiaction (names m)).2) := by
  obtain ⟨h1, h2, h3, h4⟩ := match_multiaction_spec c hwf (names m)
  unfold can_communicate
  simp only
  by_cases hm : (c.match_multiaction (names m)).1 = true
  · rw [if_pos hm, h1, h2, can_communicate_loop_eq m (names m) _ _ _ _ h3 hwf.1]
    unfold can_communicate_result
    cases first_rule (names m) c.m_lhs c.m_rhs with
    | none => rfl
    | some r => simp only
  · rw [if_neg hm]
    have hnone : first_rule (names m) c.m_lhs c.m_rhs = none := by
      rw [first_rule_eq_none _ _ _ hwf.1]
      intro l hl hln
      exact hm (h4.mpr (Or.inr ⟨l, hl, hln ▸ List.prefix_refl _⟩))
    simp [can_communicate_result, hnone]

theorem match_multiaction_wf (c : comm_entry) (hwf : c.wf) (nm : action_name_multiset_t) :
    (c.match_multiaction nm).2.wf ∧ (c.match_multiaction nm).2.m_lhs = c.m_lhs ∧
      (c.match_multiaction nm).2.m_rhs = c.m_rhs := by
  obtain ⟨h1, h2, h3, -⟩ := match_multiaction_spec c hwf nm
  have hl := scratch_inv_length _ _ _ _ h3
  refine ⟨⟨?_, ?_, hl.2⟩, h1, h2⟩
  · rw [h1, h2]; exact hwf.1
  · rw [h2, ← hwf.1]; exact hl.1

theorem can_communicate_result_cons (lhs : List action_name_multiset_t) (rhs : List action_name_t)
    (a : action) (rest : action_multiset_t) :
    can_communicate_result lhs rhs (a :: rest) =
      match first_rule (names (a :: rest)) lhs rhs with
      | none => .ok none
      | some r => if r = tau then .error exn.runtime_error else .ok (some ⟨r, a.label.sorts⟩) := by
  unfold can_communicate_result
  cases first_rule (names (a :: rest)) lhs rhs <;> rfl

/-- C4, counterexample: for the table of the single rule `a|b -> tau` and the
multi-action `a|b`, rule `0` has the left-hand side `names(m)`, and yet
`can_communicate` delivers no label: it raises the runtime error. -/
theorem can_communicate_label_iff_counterexample :
    (comm_entry.init [⟨[1, 2], tau⟩]).m_lhs[0]? =
        some (names [⟨⟨1, []⟩, []⟩, ⟨⟨2, []⟩, []⟩]) ∧
      (comm_entry.init [⟨[1, 2], tau⟩]).can_communicate [⟨⟨1, []⟩, []⟩, ⟨⟨2, []⟩, []⟩] =
        .error exn.runtime_error := by
  decide

/-- C4, amended: for every table and every non-empty multi-action `m`,
`can_communicate m` delivers the label `lab` if and only if there is a
smallest index `i` with `lhs[i] = names(m)`, the name `rhs[i]` is not `tau`,
and `lab` has the name `rhs[i]` and the sorts of the label of the first action
of `m`; it delivers the default label (`none`) if and only if no rule has the
left-hand side `names(m)`. -/
theorem can_communicate_label_iff (c : comm_entry) (hwf : c.wf) (a : action)
    (rest : action_multiset_t) :
    (∀ lab, (∃ c2, c.can_communicate (a :: rest) = .ok (some lab, c2)) ↔
      ∃ (i : Nat) (rhs : action_name_t), c.m_lhs[i]? = some (names (a :: rest)) ∧
        (∀ j, j < i → c.m_lhs[j]? ≠ some (names (a :: rest))) ∧
        c.m_rhs[i]? = some rhs ∧ rhs ≠ tau ∧ lab = ⟨rhs, a.label.sorts⟩) ∧
      ((∃ c2, c.can_communicate (a :: rest) = .ok (none, c2)) ↔
        ∀ l ∈ c.m_lhs, l ≠ names (a :: rest)) := by
  rw [can_communicate_eq c hwf, can_communicate_result_cons]
  constructor
  · intro lab
    constructor
    · rintro ⟨c2, h⟩
      cases hf : first_rule (names (a :: rest)) c.m_lhs c.m_rhs with
      | none => simp [hf] at h
      | some r =>
        rw [hf] at h
        simp only at h
        by_cases hr : r = tau
        · simp [hr] at h
        · simp only [hr, if_false, Except.ok.injEq, Prod.mk.injEq, Option.some.injEq] at h
          obtain ⟨i, h1, h2, h3⟩ := (first_rule_eq_some _ _ _ _).mp hf
          exact ⟨i, r, h1, h2, h3, hr, h.1.symm⟩
    · rintro ⟨i, rhs, h1, h2, h3, h4, rfl⟩
      have hf := (first_rule_eq_some _ _ _ _).mpr ⟨i, h1, h2, h3⟩
      rw [hf]
      simp [h4]
  · rw [← first_rule_eq_none _ _ _ hwf.1]
    constructor
    · rintro ⟨c2, h⟩
      cases hf : first_rule (names (a :: rest)) c.m_lhs c.m_rhs with
      | none => rfl
      | some r =>
        rw [hf] at h
        simp only at h
        by_cases hr : r = tau <;> simp [hr] at h
    · intro hf
      rw [hf]
      exact ⟨_, rfl⟩

/-- Witness of C4 (amended): the table of `a|b -> c` and the multi-action `a|b`. -/
theorem can_communicate_label_iff_witness :
    (comm_entry.init [⟨[1, 2], 3⟩]).wf ∧
      ∃ c2, (comm_entry.init [⟨[1, 2], 3⟩]).can_communicate
        [⟨⟨1, [7]⟩, [var 0 7]⟩, ⟨⟨2, [7]⟩, [var 1 7]⟩] = .ok (some ⟨3, [7]⟩, c2) :=
  ⟨by decide,
    ((can_communicate_label_iff (comm_entry.init [⟨[1, 2], 3⟩]) (by decide)
      ⟨⟨1, [7]⟩, [var 0 7]⟩ [⟨⟨2, [7]⟩, [var 1 7]⟩]).1 ⟨3, [7]⟩).mpr
      ⟨0, 3, by decide, by decide, by decide, by decide, rfl⟩⟩

/-- C5: `can_communicate m` raises the runtime error if and only if the first
rule, in declared order, whose left-hand side equals `names(m)` has the
right-hand side `tau`; for every other table and multi-action it returns
without an error (for an empty `m`, whose first action the source
dereferences, when no rule has the empty left-hand side). -/
theorem can_communicate_error_iff (c : comm_entry) (hwf : c.wf) (m : action_multiset_t) :
    (c.can_communicate m = .error exn.runtime_error ↔
      ∃ i : Nat, c.m_lhs[i]? = some (names m) ∧
        (∀ j, j < i → c.m_lhs[j]? ≠ some (names m)) ∧ c.m_rhs[i]? = some tau) ∧
      ((m ≠ [] ∨ ∀ l ∈ c.m_lhs, l ≠ []) →
        (¬ ∃ i : Nat, c.m_lhs[i]? = some (names m) ∧
          (∀ j, j < i → c.m_lhs[j]? ≠ some (names m)) ∧ c.m_rhs[i]? = some tau) →
        ∃ r, c.can_communicate m = .ok r) := by
  rw [can_communicate_eq c hwf, ← first_rule_eq_some]
  cases m with
  | nil =>
    unfold can_communicate_result
    cases hf : first_rule (names []) c.m_lhs c.m_rhs with
    | none => simp
    | some r =>
      by_cases hr : r = tau
      · simp [hr]
      · simp only [hr, if_false]
        refine ⟨⟨fun h => by simp at h, fun h => absurd (Option.some.inj h) hr⟩, ?_⟩
        intro hor _
        exfalso
        rcases hor with h | h
        · exact h rfl
        · have hne : first_rule (names []) c.m_lhs c.m_rhs ≠ none := by simp [hf]
          rw [ne_eq, first_rule_eq_none _ _ _ hwf.1] at hne
          push_neg at hne
          obtain ⟨l, hl1, hl2⟩ := hne
          exact h l hl1 (hl2.trans (by simp [names]))
  | cons a rest =>
    rw [can_communicate_result_cons]
    cases hf : first_rule (names (a :: rest)) c.m_lhs c.m_rhs with
    | none => simp
    | some r =>
      by_cases hr : r = tau
      · simp [hr]
      · simp [hr]

/-- Witness of C5: the table of `a|b -> tau` and the multi-action `a|b`. -/
theorem can_communicate_error_iff_witness :
    (comm_entry.init [⟨[1, 2], tau⟩]).wf ∧
      (comm_entry.init [⟨[1, 2], tau⟩]).can_communicate [⟨⟨1, []⟩, []⟩, ⟨⟨2, []⟩, []⟩] =
        .error exn.runtime_error :=
  ⟨by decide,
    (can_communicate_error_iff (comm_entry.init [⟨[1, 2], tau⟩]) (by decide)
      [⟨⟨1, []⟩, []⟩, ⟨⟨2, []⟩, []⟩]).1.mpr ⟨0, by decide, by decide, by decide⟩⟩

/-! ## The query `might_communicate` -/

theorem find_name_eq_none (x : action_name_t) (rest : action_multiset_t) :
    find_name x rest = none ↔ x ∉ names rest := by
  induction rest with
  | nil => simp [find_name, names]
  | cons a rest ih =>
    simp only [find_name, names, List.map_cons, List.mem_cons, not_or]
    by_cases h : x = a.label.name
    · simp [h]
    · simp only [ne_eq, h, not_false_eq_true, if_true, true_and]
      exact ih

theorem find_name_eq_some (x : action_name_t) (rest r : action_multiset_t)
    (h : find_name x rest = some r) :
    ∃ pre a rest2, r = a :: rest2 ∧ rest = pre ++ a :: rest2 ∧ a.label.name = x ∧
      x ∉ names pre := by
  induction rest with
  | nil => simp [find_name] at h
  | cons a rest ih =>
    simp only [find_name] at h
    by_cases hx : x = a.label.name
    · simp only [ne_eq, hx, not_true_eq_false, if_false, Option.some.injEq] at h
      exact ⟨[], a, rest, h.symm, rfl, hx.symm, by simp [names]⟩
    · simp only [ne_eq, hx, not_false_eq_true, if_true] at h
      obtain ⟨pre, b, rest2, h1, h2, h3, h4⟩ := ih h
      refine ⟨a :: pre, b, rest2, h1, by simp [h2], h3, ?_⟩
      simp only [names, List.map_cons, List.mem_cons, not_or]
      exact ⟨hx, h4⟩

theorem cons_sublist_skip (x : Nat) (it pre l : List Nat) (hx : x ∉ pre) :
    List.Sublist (x :: it) (pre ++ x :: l) ↔ List.Sublist it l := by
  induction pre with
  | nil => simp
  | cons y pre ih =>
    simp only [List.mem_cons, not_or] at hx
    rw [List.cons_append, List.sublist_cons_iff]
    constructor
    · rintro (h | ⟨r, h1, h2⟩)
      · exact (ih hx.2).mp h
      · simp only [List.cons.injEq] at h1
        exact absurd h1.1 hx.1
    · intro h
      exact Or.inl ((ih hx.2).mpr h)

theorem complete_isSome_iff (it : action_name_multiset_t) (rest : action_multiset_t) :
    (complete it rest).2.isSome = true ↔ List.Sublist it (names rest) := by
  induction it generalizing rest with
  | nil => simp [complete]
  | cons x it ih =>
    simp only [complete]
    cases hf : find_name x rest with
    | none =>
      have hx := (find_name_eq_none x rest).mp hf
      simp only [Option.isSome_none, Bool.false_eq_true, false_iff]
      intro hs
      exact hx (hs.subset (by simp))
    | some r =>
      obtain ⟨pre, a, rest2, h1, h2, h3, h4⟩ := find_name_eq_some x rest r hf
      subst h1
      simp only
      rw [ih rest2, h2]
      have : names (pre ++ a :: rest2) = names pre ++ x :: names rest2 := by
        simp [names, h3]
      rw [this, cons_sublist_skip x it _ _ h4]

theorem might_communicate_loop_spec (n : action_multiset_t) (nm : action_name_multiset_t)
    (ls its : List action_name_multiset_t) (fs : List Bool) (h : scratch_inv nm ls its fs) :
    ((might_communicate_loop n ls its fs).1 = true ↔
        ∃ l ∈ ls, nm <+: l ∧ List.Sublist (l.drop nm.length) (names n)) ∧
      (might_communicate_loop n ls its fs).2.length = its.length := by
  induction ls generalizing its fs with
  | nil => cases its <;> cases fs <;> simp_all [scratch_inv, might_communicate_loop]
  | cons l ls ih =>
    cases its with
    | nil => cases fs <;> simp [scratch_inv] at h
    | cons it its =>
      cases fs with
      | nil => simp [scratch_inv] at h
      | cons f fs =>
        simp only [scratch_inv] at h
        obtain ⟨ih1, ih2⟩ := ih its fs h.2
        cases f with
        | true =>
          have h1 := h.1
          simp only [if_true] at h1
          simp only [might_communicate_loop, if_true, List.mem_cons, exists_eq_or_imp, h1,
            false_and, false_or, List.length_cons, ih2, and_true]
          exact ih1
        | false =>
          have h1 := h.1
          simp only [Bool.false_eq_true, if_false] at h1
          subst h1
          have hd : (nm ++ it).drop nm.length = it := by simp
          simp only [might_communicate_loop, Bool.false_eq_true, if_false, List.mem_cons,
            exists_eq_or_imp, List.prefix_append, true_and, hd]
          by_cases hc : (complete it n).2.isSome = true
          · simp only [hc, if_true, List.length_cons, and_true, true_iff]
            exact Or.inl ((complete_isSome_iff it n).mp hc)
          · have hns : ¬ List.Sublist it (names n) := fun hs => hc ((complete_isSome_iff it n).mpr hs)
            simp only [hc, Bool.false_eq_true, if_false, hns, false_or, List.length_cons, ih2,
              and_true]
            exact ih1

/-- C7: `might_communicate m n` delivers `true` if and only if there is a rule
`i` such that `names(m)` is a prefix of `lhs[i]` and the remaining suffix of
`lhs[i]`, after the first `|m|` names, is a subsequence (in order, not
necessarily contiguous) of the name sequence of `n`. -/
theorem might_communicate_iff (c : comm_entry) (hwf : c.wf) (m n : action_multiset_t) :
    (c.might_communicate m n).1 = true ↔
      ∃ l ∈ c.m_lhs, names m <+: l ∧ List.Sublist (l.drop m.length) (names n) := by
  obtain ⟨h1, -, h3, h4⟩ := match_multiaction_spec c hwf (names m)
  have hlen : (names m).length = m.length := by simp [names]
  unfold might_communicate
  simp only
  by_cases hm : (c.match_multiaction (names m)).1 = true
  · rw [if_pos hm, h1]
    simp only
    rw [(might_communicate_loop_spec n (names m) _ _ _ h3).1, hlen]
  · rw [if_neg hm]
    simp only [Bool.false_eq_true, false_iff, not_exists, not_and]
    intro l hl hp
    exact absurd (h4.mpr (Or.inr ⟨l, hl, hp⟩)) hm

/-- Witness of C7: with the rule `a|b|c -> d`, the action `a` might communicate
in the range `b|e|c`. -/
theorem might_communicate_iff_witness :
    (comm_entry.init [⟨[1, 2, 3], 4⟩]).wf ∧
      ((comm_entry.init [⟨[1, 2, 3], 4⟩]).might_communicate [⟨⟨1, []⟩, []⟩]
        [⟨⟨2, []⟩, []⟩, ⟨⟨5, []⟩, []⟩, ⟨⟨3, []⟩, []⟩]).1 = true :=
  ⟨by decide,
    (might_communicate_iff (comm_entry.init [⟨[1, 2, 3], 4⟩]) (by decide) [⟨⟨1, []⟩, []⟩]
      [⟨⟨2, []⟩, []⟩, ⟨⟨5, []⟩, []⟩, ⟨⟨3, []⟩, []⟩]).mpr
      ⟨[1, 2, 3], by decide, by decide, by decide⟩⟩

theorem might_communicate_wf (c : comm_entry) (hwf : c.wf) (m n : action_multiset_t) :
    (c.might_communicate m n).2.wf ∧ (c.might_communicate m n).2.m_lhs = c.m_lhs ∧
      (c.might_communicate m n).2.m_rhs = c.m_rhs := by
  obtain ⟨h1, h2, h3, -⟩ := match_multiaction_spec c hwf (names m)
  obtain ⟨w1, w2, w3⟩ := match_multiaction_wf c hwf (names m)
  unfold might_communicate
  simp only
  by_cases hm : (c.match_multiaction (names m)).1 = true
  · rw [if_pos hm]
    refine ⟨⟨w1.1, ?_, ?_⟩, w2, w3⟩
    · simp only
      rw [h1, (might_communicate_loop_spec n (names m) _ _ _ h3).2]
      exact w1.2.1
    · simp only
      rw [h1, (might_communicate_loop_spec n (names m) _ _ _ h3).2]
      exact w1.2.2
  · rw [if_neg hm]
    exact ⟨w1, w2, w3⟩

theorem can_communicate_wf (c : comm_entry) (hwf : c.wf) (m : action_multiset_t)
    (r : Option action_label) (c2 : comm_entry) (h : c.can_communicate m = .ok (r, c2)) :
    c2.wf ∧ c2.m_lhs = c.m_lhs ∧ c2.m_rhs = c.m_rhs := by
  rw [can_communicate_eq c hwf] at h
  cases hr : can_communicate_result c.m_lhs c.m_rhs m with
  | error e => simp [hr] at h
  | ok result =>
    simp only [hr, Except.ok.injEq, Prod.mk.injEq] at h
    rw [← h.2]
    exact match_multiaction_wf c hwf (names m)

/-! ## Coverage and exclusivity on concrete multi-actions -/

/-- C1, evaluated at `a(x)|a(y)|a(z)` with the single rule `a|a|a -> c` and the
identity rewriter: the two alternatives are `c(x)` guarded by
`x = z ∧ x = y` and the unsynchronised multi-action guarded by `¬ (z = y)`.
Under the valuation `x = 1`, `y = z = 0` the arguments of `a(x)` and `a(y)`
differ, so the three actions cannot communicate and the communication
operator yields the multi-action unchanged, and yet no guard of the list is
true. -/
theorem coverage_fails_for_ternary_rule :
    makeMultiActionConditionList
        [⟨⟨1, [5]⟩, [var 0 5]⟩, ⟨⟨1, [5]⟩, [var 1 5]⟩, ⟨⟨1, [5]⟩, [var 2 5]⟩]
        [⟨[1, 1, 1], 3⟩] id =
      .ok ⟨[[⟨⟨3, [5]⟩, [var 0 5]⟩],
            [⟨⟨1, [5]⟩, [var 2 5]⟩, ⟨⟨1, [5]⟩, [var 1 5]⟩, ⟨⟨1, [5]⟩, [var 0 5]⟩]],
          [data_expression.and_ (equal_to (var 0 5) (var 2 5)) (equal_to (var 0 5) (var 1 5)),
            data_expression.not_ (equal_to (var 2 5) (var 1 5))]⟩ ∧
      eval (fun x _ => if x = 0 then 1 else 0) (var 0 5) ≠
        eval (fun x _ => if x = 0 then 1 else 0) (var 1 5) ∧
      ∀ g ∈ [data_expression.and_ (equal_to (var 0 5) (var 2 5)) (equal_to (var 0 5) (var 1 5)),
            data_expression.not_ (equal_to (var 2 5) (var 1 5))],
        ¬ holds (fun x _ => if x = 0 then 1 else 0) g := by
  decide

/-- C2, evaluated at the multi-action `a(x)|b(y)|a(z)`, kept sorted as
`a(x)|a(z)|b(y)`, with the single rule `a|b -> c` and the identity rewriter:
the alternatives `a(z)|c(x)` guarded by `x = y` and `a(x)|c(z)` guarded by
`z = y` both have a true guard under a valuation with `x = y = z`. -/
theorem exclusivity_fails_on_two_partners :
    makeMultiActionConditionList
        [⟨⟨1, [5]⟩, [var 0 5]⟩, ⟨⟨1, [5]⟩, [var 2 5]⟩, ⟨⟨2, [5]⟩, [var 1 5]⟩]
        [⟨[1, 2], 3⟩] id =
      .ok ⟨[[⟨⟨1, [5]⟩, [var 2 5]⟩, ⟨⟨3, [5]⟩, [var 0 5]⟩],
            [⟨⟨1, [5]⟩, [var 0 5]⟩, ⟨⟨3, [5]⟩, [var 2 5]⟩],
            [⟨⟨1, [5]⟩, [var 2 5]⟩, ⟨⟨1, [5]⟩, [var 0 5]⟩, ⟨⟨2, [5]⟩, [var 1 5]⟩]],
          [equal_to (var 0 5) (var 1 5), equal_to (var 2 5) (var 1 5),
            data_expression.not_ (data_expression.or_ (equal_to (var 1 5) (var 2 5))
              (equal_to (var 1 5) (var 0 5)))]⟩ ∧
      holds (fun _ _ => 0) (equal_to (var 0 5) (var 1 5)) ∧
      holds (fun _ _ => 0) (equal_to (var 2 5) (var 1 5)) := by
  decide

/-! ## Frame and error lemmas of the kernel -/

theorem rules_kept_refl (c : comm_entry) (h : c.wf) : rules_kept c c :=
  ⟨h, rfl, rfl⟩

theorem rules_kept_trans (c c1 c2 : comm_entry) (h1 : rules_kept c c1) (h2 : rules_kept c1 c2) :
    rules_kept c c2 :=
  ⟨h2.1, h2.2.1.trans h1.2.1, h2.2.2.trans h1.2.2⟩

theorem might_communicate_kept (c : comm_entry) (hwf : c.wf) (m n : action_multiset_t) :
    rules_kept c (c.might_communicate m n).2 :=
  might_communicate_wf c hwf m n

theorem can_communicate_kept (c : comm_entry) (hwf : c.wf) (m : action_multiset_t)
    (r : Option action_label) (c2 : comm_entry) (h : c.can_communicate m = .ok (r, c2)) :
    rules_kept c c2 :=
  can_communicate_wf c hwf m r c2 h

theorem insert_ne_nil (a : action) (l : action_multiset_t) : insert a l ≠ [] := by
  cases l with
  | nil => simp [insert]
  | cons b l =>
    simp only [insert]
    split_ifs <;> simp

theorem length_insert (a : action) (l : action_multiset_t) :
    (insert a l).length = l.length + 1 := by
  induction l with
  | nil => simp [insert]
  | cons b l ih =>
    simp only [insert]
    split_ifs <;> simp [ih]

theorem mem_insert (a b : action) (l : action_multiset_t) :
    b ∈ insert a l ↔ b = a ∨ b ∈ l := by
  induction l with
  | nil => simp [insert]
  | cons c l ih =>
    simp only [insert]
    split_ifs
    · simp
    · simp only [List.mem_cons, ih]
      tauto

theorem can_communicate_loop_error (m : action_multiset_t) (hm : m ≠ [])
    (ls : List action_name_multiset_t) (rs : List action_name_t)
    (its : List action_name_multiset_t) (fs : List Bool) (e : exn)
    (h : can_communicate_loop m ls rs its fs = .error e) : e = exn.runtime_error := by
  induction ls generalizing rs its fs with
  | nil => cases rs <;> cases its <;> cases fs <;> simp [can_communicate_loop] at h
  | cons l ls ih =>
    cases rs with
    | nil => simp [can_communicate_loop] at h
    | cons r rs =>
      cases its with
      | nil => simp [can_communicate_loop] at h
      | cons it its =>
        cases fs with
        | nil => simp [can_communicate_loop] at h
        | cons f fs =>
          simp only [can_communicate_loop] at h
          split_ifs at h with h1 h2
          · simp only [Except.error.injEq] at h
            exact h.symm
          · cases m with
            | nil => exact absurd rfl hm
            | cons a rest => simp at h
          · exact ih rs its fs h

theorem can_communicate_error (c : comm_entry) (m : action_multiset_t) (hm : m ≠ []) (e : exn)
    (h : c.can_communicate m = .error e) : e = exn.runtime_error := by
  unfold can_communicate at h
  simp only at h
  split_ifs at h
  cases hl : can_communicate_loop m (c.match_multiaction (names m)).2.m_lhs
      (c.match_multiaction (names m)).2.m_rhs (c.match_multiaction (names m)).2.m_lhs_iters
      (c.match_multiaction (names m)).2.m_match_failed with
  | error e2 =>
    rw [hl] at h
    simp only [Except.error.injEq] at h
    subst h
    exact can_communicate_loop_error m hm _ _ _ _ _ hl
  | ok r =>
    rw [hl] at h
    simp at h

theorem xi_error (alpha : action_multiset_t) (halpha : alpha ≠ []) (beta : action_multiset_t)
    (c : comm_entry) (e : exn) (h : xi alpha beta c = .error e) : e = exn.runtime_error := by
  induction beta generalizing c with
  | nil =>
    simp only [xi] at h
    cases hc : c.can_communicate alpha with
    | error e2 =>
      rw [hc] at h
      simp only [Except.error.injEq] at h
      subst h
      exact can_communicate_error c alpha halpha _ hc
    | ok p =>
      rw [hc] at h
      simp at h
  | cons b beta ih =>
    simp only [xi] at h
    cases hc : c.can_communicate (insert b alpha) with
    | error e2 =>
      rw [hc] at h
      simp only [Except.error.injEq] at h
      subst h
      exact can_communicate_error c _ (insert_ne_nil b alpha) _ hc
    | ok p =>
      obtain ⟨cc, t1⟩ := p
      rw [hc] at h
      simp only at h
      split_ifs at h with h1 h2
      · cases hx : xi alpha beta (t1.might_communicate (insert b alpha) beta).2 with
        | error e2 =>
          rw [hx] at h
          simp only [Except.error.injEq] at h
          subst h
          exact ih _ hx
        | ok q =>
          obtain ⟨result, t3⟩ := q
          rw [hx] at h
          simp only at h
          split_ifs at h
          exact ih _ h
      · simp only [Bool.false_eq_true, if_false] at h
        exact ih _ h

theorem xi_kept (alpha beta : action_multiset_t) (c : comm_entry) (hwf : c.wf) (x : Bool)
    (c2 : comm_entry) (h : xi alpha beta c = .ok (x, c2)) : rules_kept c c2 := by
  induction beta generalizing c x c2 with
  | nil =>
    simp only [xi] at h
    cases hc : c.can_communicate alpha with
    | error e2 =>
      rw [hc] at h
      simp at h
    | ok p =>
      obtain ⟨cc, t1⟩ := p
      rw [hc] at h
      simp only [Except.ok.injEq, Prod.mk.injEq] at h
      rw [← h.2]
      exact can_communicate_kept c hwf _ _ _ hc
  | cons b beta ih =>
    simp only [xi] at h
    cases hc : c.can_communicate (insert b alpha) with
    | error e2 =>
      rw [hc] at h
      simp at h
    | ok p =>
      obtain ⟨cc, t1⟩ := p
      have k1 := can_communicate_kept c hwf _ _ _ hc
      have k2 := might_communicate_kept t1 k1.1 (insert b alpha) beta
      rw [hc] at h
      simp only at h
      split_ifs at h with h1 h2
      · simp only [Except.ok.injEq, Prod.mk.injEq] at h
        rw [← h.2]
        exact k1
      · cases hx : xi alpha beta (t1.might_communicate (insert b alpha) beta).2 with
        | error e2 =>
          rw [hx] at h
          simp at h
        | ok q =>
          obtain ⟨result, t3⟩ := q
          have k3 := ih _ k2.1 _ _ hx
          rw [hx] at h
          simp only at h
          split_ifs at h
          · simp only [Except.ok.injEq, Prod.mk.injEq] at h
            rw [← h.2]
            exact rules_kept_trans _ _ _ k1 (rules_kept_trans _ _ _ k2 k3)
          · exact rules_kept_trans _ _ _ k1 (rules_kept_trans _ _ _ k2
              (rules_kept_trans _ _ _ k3 (ih _ k3.1 _ _ h)))
      · simp only [Bool.false_eq_true, if_false] at h
        exact rules_kept_trans _ _ _ k1 (rules_kept_trans _ _ _ k2 (ih _ k2.1 _ _ h))

theorem psi_inner_error (R : rewriter) (a : action) (beta : action_multiset_t)
    (cond : data_expression) (c : comm_entry) (e : exn)
    (h : psi_inner R a beta cond c = .error e) : e = exn.runtime_error := by
  induction beta generalizing cond c with
  | nil => simp [psi_inner] at h
  | cons b beta ih =>
    simp only [psi_inner] at h
    split_ifs at h with h1
    · cases hx : xi (insert a (insert b [])) beta
          (c.might_communicate (insert a (insert b [])) beta).2 with
      | error e2 =>
        rw [hx] at h
        simp only [Except.error.injEq] at h
        subst h
        exact xi_error _ (insert_ne_nil _ _) _ _ _ hx
      | ok q =>
        obtain ⟨x, t2⟩ := q
        rw [hx] at h
        simp only at h
        split_ifs at h
        · exact ih _ _ h
        · exact ih _ _ h
    · exact ih _ _ h

theorem psi_inner_kept (R : rewriter) (a : action) (beta : action_multiset_t)
    (cond : data_expression) (c : comm_entry) (hwf : c.wf) (g : data_expression)
    (c2 : comm_entry) (h : psi_inner R a beta cond c = .ok (g, c2)) : rules_kept c c2 := by
  induction beta generalizing cond c with
  | nil =>
    simp only [psi_inner, Except.ok.injEq, Prod.mk.injEq] at h
    rw [← h.2]
    exact rules_kept_refl c hwf
  | cons b beta ih =>
    have k1 := might_communicate_kept c hwf (insert a (insert b [])) beta
    simp only [psi_inner] at h
    split_ifs at h with h1
    · cases hx : xi (insert a (insert b [])) beta
          (c.might_communicate (insert a (insert b [])) beta).2 with
      | error e2 =>
        rw [hx] at h
        simp at h
      | ok q =>
        obtain ⟨x, t2⟩ := q
        have k2 := xi_kept _ _ _ k1.1 _ _ hx
        rw [hx] at h
        simp only at h
        split_ifs at h
        · exact rules_kept_trans _ _ _ k1 (rules_kept_trans _ _ _ k2 (ih _ _ k2.1 h))
        · exact rules_kept_trans _ _ _ k1 (rules_kept_trans _ _ _ k2 (ih _ _ k2.1 h))
    · exact rules_kept_trans _ _ _ k1 (ih _ _ k1.1 h)

theorem psi_outer_error (R : rewriter) (l : action_multiset_t) (cond : data_expression)
    (c : comm_entry) (e : exn) (h : psi_outer R l cond c = .error e) :
    e = exn.runtime_error := by
  induction l generalizing cond c with
  | nil => simp [psi_outer] at h
  | cons a rest ih =>
    simp only [psi_outer] at h
    cases hi : psi_inner R a rest cond c with
    | error e2 =>
      rw [hi] at h
      simp only [Except.error.injEq] at h
      subst h
      exact psi_inner_error _ _ _ _ _ _ hi
    | ok q =>
      obtain ⟨cond2, t2⟩ := q
      rw [hi] at h
      exact ih _ _ h

theorem psi_outer_kept (R : rewriter) (l : action_multiset_t) (cond : data_expression)
    (c : comm_entry) (hwf : c.wf) (g : data_expression) (c2 : comm_entry)
    (h : psi_outer R l cond c = .ok (g, c2)) : rules_kept c c2 := by
  induction l generalizing cond c with
  | nil =>
    simp only [psi_outer, Except.ok.injEq, Prod.mk.injEq] at h
    rw [← h.2]
    exact rules_kept_refl c hwf
  | cons a rest ih =>
    simp only [psi_outer] at h
    cases hi : psi_inner R a rest cond c with
    | error e2 =>
      rw [hi] at h
      simp at h
    | ok q =>
      obtain ⟨cond2, t2⟩ := q
      have k1 := psi_inner_kept _ _ _ _ _ hwf _ _ hi
      rw [hi] at h
      exact rules_kept_trans _ _ _ k1 (ih _ _ k1.1 h)

theorem psi_error (alpha : action_multiset_t) (c : comm_entry) (R : rewriter) (e : exn)
    (h : psi alpha c R = .error e) : e = exn.runtime_error := by
  unfold psi at h
  cases ho : psi_outer R (reverse alpha) false_ c with
  | error e2 =>
    rw [ho] at h
    simp only [Except.error.injEq] at h
    subst h
    exact psi_outer_error _ _ _ _ _ ho
  | ok q =>
    rw [ho] at h
    simp at h

theorem psi_kept (alpha : action_multiset_t) (c : comm_entry) (hwf : c.wf) (R : rewriter)
    (g : data_expression) (c2 : comm_entry) (h : psi alpha c R = .ok (g, c2)) :
    rules_kept c c2 := by
  unfold psi at h
  cases ho : psi_outer R (reverse alpha) false_ c with
  | error e2 =>
    rw [ho] at h
    simp at h
  | ok q =>
    obtain ⟨cond, t⟩ := q
    rw [ho] at h
    simp only [Except.ok.injEq, Prod.mk.injEq] at h
    rw [← h.2]
    exact psi_outer_kept _ _ _ _ hwf _ _ ho

theorem fuel_for_succ (k : Nat) : fuel_for (k + 1) = fuel_for k + 2 * k + 3 := by
  unfold fuel_for
  ring

theorem fuel_for_pos (k : Nat) : 1 ≤ fuel_for k := by
  unfold fuel_for
  nlinarith

theorem fuel_for_mono (j k : Nat) (h : j ≤ k) : fuel_for j ≤ fuel_for k := by
  unfold fuel_for
  nlinarith

theorem phi_zero (m : action_multiset_t) (d : data_expression_list) (w n r : action_multiset_t)
    (c : comm_entry) (R : rewriter) : phi 0 m d w n r c R = .error exn.out_of_fuel := by
  simp [phi]

theorem phi_succ_nil (fuel : Nat) (m : action_multiset_t) (d : data_expression_list)
    (w r : action_multiset_t) (c : comm_entry) (R : rewriter) :
    phi (fuel + 1) m d w [] r c R =
      if (c.might_communicate m []).1 = false then
        .ok (tuple_list.empty, (c.might_communicate m []).2)
      else
        match (c.might_communicate m []).2.can_communicate m with
        | .error e => .error e
        | .ok (some lab, t1) =>
          match makeMultiActionConditionList_aux fuel w t1 r R with
          | .error e => .error e
          | .ok (T, t2) => .ok (addActionCondition (some ⟨lab, d⟩) true_ T tuple_list.empty, t2)
        | .ok (none, t1) => .ok (tuple_list.empty, t1) := by
  simp only [phi]
  cases (c.might_communicate m []).1 <;> simp

theorem phi_succ_cons (fuel : Nat) (m : action_multiset_t) (d : data_expression_list)
    (w : action_multiset_t) (a : action) (n r : action_multiset_t) (c : comm_entry)
    (R : rewriter) :
    phi (fuel + 1) m d w (a :: n) r c R =
      if (c.might_communicate m (a :: n)).1 = false then
        .ok (tuple_list.empty, (c.might_communicate m (a :: n)).2)
      else if pairwiseMatch d a.arguments R = false_ then
        phi fuel m d (insert a w) n r (c.might_communicate m (a :: n)).2 R
      else
        match phi fuel (insert a m) d w n r (c.might_communicate m (a :: n)).2 R with
        | .error e => .error e
        | .ok (T, t1) =>
          match phi fuel m d (insert a w) n r t1 R with
          | .error e => .error e
          | .ok (result, t2) =>
            .ok (addActionCondition none (pairwiseMatch d a.arguments R) T result, t2) := by
  simp only [phi]
  cases (c.might_communicate m (a :: n)).1 <;> simp

theorem gamma_zero (l : action_multiset_t) (c : comm_entry) (r : action_multiset_t)
    (R : rewriter) : makeMultiActionConditionList_aux 0 l c r R = .error exn.out_of_fuel := by
  simp [makeMultiActionConditionList_aux]

theorem gamma_succ_nil (fuel : Nat) (c : comm_entry) (r : action_multiset_t) (R : rewriter) :
    makeMultiActionConditionList_aux (fuel + 1) [] c r R =
      if r.isEmpty then .ok (⟨[[]], [true_]⟩, c)
      else
        match psi r c R with
        | .error e => .error e
        | .ok (g, t1) => .ok (⟨[[]], [g]⟩, t1) := by
  simp only [makeMultiActionConditionList_aux]

theorem gamma_succ_cons (fuel : Nat) (a : action) (rest : action_multiset_t) (c : comm_entry)
    (r : action_multiset_t) (R : rewriter) :
    makeMultiActionConditionList_aux (fuel + 1) (a :: rest) c r R =
      match phi fuel [a] a.arguments [] rest r c R with
      | .error e => .error e
      | .ok (S, t1) =>
        match makeMultiActionConditionList_aux fuel rest t1 (insert a r) R with
        | .error e => .error e
        | .ok (T, t2) => .ok (addActionCondition (some a) true_ T S, t2) := by
  simp only [makeMultiActionConditionList_aux]

theorem kernel_error (fuel : Nat) :
    (∀ (m : action_multiset_t) (d : data_expression_list) (w n r : action_multiset_t)
        (c : comm_entry) (R : rewriter) (e : exn), m ≠ [] →
        fuel_for (w.length + n.length) + 1 + n.length ≤ fuel →
        phi fuel m d w n r c R = .error e → e = exn.runtime_error) ∧
      (∀ (l : action_multiset_t) (c : comm_entry) (r : action_multiset_t) (R : rewriter)
        (e : exn), fuel_for l.length ≤ fuel →
        makeMultiActionConditionList_aux fuel l c r R = .error e → e = exn.runtime_error) := by
  induction fuel with
  | zero =>
    constructor
    · intro m d w n r c R e _ hb _
      omega
    · intro l c r R e hb _
      have := fuel_for_pos l.length
      omega
  | succ fuel ih =>
    constructor
    · intro m d w n r c R e hm hb h
      cases n with
      | nil =>
        rw [phi_succ_nil] at h
        split_ifs at h
        cases hc : (c.might_communicate m []).2.can_communicate m with
        | error e2 =>
          rw [hc] at h
          simp only [Except.error.injEq] at h
          subst h
          exact can_communicate_error _ m hm _ hc
        | ok p =>
          obtain ⟨lab, t1⟩ := p
          rw [hc] at h
          cases lab with
          | none => simp at h
          | some lab =>
            simp only at h
            cases hg : makeMultiActionConditionList_aux fuel w t1 r R with
            | error e2 =>
              rw [hg] at h
              simp only [Except.error.injEq] at h
              subst h
              refine ih.2 w t1 r R _ ?_ hg
              simp only [List.length_nil, Nat.add_zero] at hb
              omega
            | ok q =>
              rw [hg] at h
              simp at h
      | cons a n =>
        have hm1 := fuel_for_mono (w.length + n.length) (w.length + (n.length + 1)) (by omega)
        simp only [List.length_cons] at hb
        have hb1 : fuel_for ((insert a w).length + n.length) + 1 + n.length ≤ fuel := by
          rw [length_insert]
          have : w.length + 1 + n.length = w.length + (n.length + 1) := by omega
          rw [this]
          omega
        have hb2 : fuel_for (w.length + n.length) + 1 + n.length ≤ fuel := by omega
        rw [phi_succ_cons] at h
        split_ifs at h
        · exact ih.1 m d (insert a w) n r _ R e hm hb1 h
        · cases hp : phi fuel (insert a m) d w n r (c.might_communicate m (a :: n)).2 R with
          | error e2 =>
            rw [hp] at h
            simp only [Except.error.injEq] at h
            subst h
            exact ih.1 _ d w n r _ R _ (insert_ne_nil a m) hb2 hp
          | ok q =>
            obtain ⟨T, t1⟩ := q
            rw [hp] at h
            simp only at h
            cases hp2 : phi fuel m d (insert a w) n r t1 R with
            | error e2 =>
              rw [hp2] at h
              simp only [Except.error.injEq] at h
              subst h
              exact ih.1 m d (insert a w) n r _ R _ hm hb1 hp2
            | ok q2 =>
              rw [hp2] at h
              simp at h
    · intro l c r R e hb h
      cases l with
      | nil =>
        rw [gamma_succ_nil] at h
        split_ifs at h
        cases hp : psi r c R with
        | error e2 =>
          rw [hp] at h
          simp only [Except.error.injEq] at h
          subst h
          exact psi_error _ _ _ _ hp
        | ok q =>
          rw [hp] at h
          simp at h
      | cons a rest =>
        simp only [List.length_cons] at hb
        rw [fuel_for_succ] at hb
        rw [gamma_succ_cons] at h
        cases hp : phi fuel [a] a.arguments [] rest r c R with
        | error e2 =>
          rw [hp] at h
          simp only [Except.error.injEq] at h
          subst h
          refine ih.1 _ _ _ _ _ _ _ _ (by simp) ?_ hp
          simp only [List.length_nil, Nat.zero_add]
          omega
        | ok q =>
          obtain ⟨S, t1⟩ := q
          rw [hp] at h
          simp only at h
          cases hg : makeMultiActionConditionList_aux fuel rest t1 (insert a r) R with
          | error e2 =>
            rw [hg] at h
            simp only [Except.error.injEq] at h
            subst h
            exact ih.2 _ _ _ _ _ (by omega) hg
          | ok q2 =>
            rw [hg] at h
            simp at h

theorem kernel_kept (fuel : Nat) :
    (∀ (m : action_multiset_t) (d : data_expression_list) (w n r : action_multiset_t)
        (c : comm_entry) (R : rewriter) (T : tuple_list) (c2 : comm_entry), c.wf →
        phi fuel m d w n r c R = .ok (T, c2) → rules_kept c c2) ∧
      (∀ (l : action_multiset_t) (c : comm_entry) (r : action_multiset_t) (R : rewriter)
        (T : tuple_list) (c2 : comm_entry), c.wf →
        makeMultiActionConditionList_aux fuel l c r R = .ok (T, c2) → rules_kept c c2) := by
  induction fuel with
  | zero =>
    constructor
    · intro m d w n r c R T c2 _ h
      rw [phi_zero] at h
      simp at h
    · intro l c r R T c2 _ h
      rw [gamma_zero] at h
      simp at h
  | succ fuel ih =>
    constructor
    · intro m d w n r c R T c2 hwf h
      cases n with
      | nil =>
        have k1 := might_communicate_kept c hwf m []
        rw [phi_succ_nil] at h
        split_ifs at h
        · simp only [Except.ok.injEq, Prod.mk.injEq] at h
          rw [← h.2]
          exact k1
        · cases hc : (c.might_communicate m []).2.can_communicate m with
          | error e2 =>
            rw [hc] at h
            simp at h
          | ok p =>
            obtain ⟨lab, t1⟩ := p
            have k2 := can_communicate_kept _ k1.1 _ _ _ hc
            rw [hc] at h
            cases lab with
            | none =>
              simp only [Except.ok.injEq, Prod.mk.injEq] at h
              rw [← h.2]
              exact rules_kept_trans _ _ _ k1 k2
            | some lab =>
              simp only at h
              cases hg : makeMultiActionConditionList_aux fuel w t1 r R with
              | error e2 =>
                rw [hg] at h
                simp at h
              | ok q =>
                obtain ⟨T2, t2⟩ := q
                rw [hg] at h
                simp only [Except.ok.injEq, Prod.mk.injEq] at h
                rw [← h.2]
                exact rules_kept_trans _ _ _ k1
                  (rules_kept_trans _ _ _ k2 (ih.2 _ _ _ _ _ _ k2.1 hg))
      | cons a n =>
        have k1 := might_communicate_kept c hwf m (a :: n)
        rw [phi_succ_cons] at h
        split_ifs at h
        · simp only [Except.ok.injEq, Prod.mk.injEq] at h
          rw [← h.2]
          exact k1
        · exact rules_kept_trans _ _ _ k1 (ih.1 _ _ _ _ _ _ _ _ _ k1.1 h)
        · cases hp : phi fuel (insert a m) d w n r (c.might_communicate m (a :: n)).2 R with
          | error e2 =>
            rw [hp] at h
            simp at h
          | ok q =>
            obtain ⟨T1, t1⟩ := q
            have k2 := ih.1 _ _ _ _ _ _ _ _ _ k1.1 hp
            rw [hp] at h
            simp only at h
            cases hp2 : phi fuel m d (insert a w) n r t1 R with
            | error e2 =>
              rw [hp2] at h
              simp at h
            | ok q2 =>
              obtain ⟨T2, t2⟩ := q2
              rw [hp2] at h
              simp only [Except.ok.injEq, Prod.mk.injEq] at h
              rw [← h.2]
              exact rules_kept_trans _ _ _ k1
                (rules_kept_trans _ _ _ k2 (ih.1 _ _ _ _ _ _ _ _ _ k2.1 hp2))
    · intro l c r R T c2 hwf h
      cases l with
      | nil =>
        rw [gamma_succ_nil] at h
        split_ifs at h
        · simp only [Except.ok.injEq, Prod.mk.injEq] at h
          rw [← h.2]
          exact rules_kept_refl c hwf
        · cases hp : psi r c R with
          | error e2 =>
            rw [hp] at h
            simp at h
          | ok q =>
            obtain ⟨g, t1⟩ := q
            rw [hp] at h
            simp only [Except.ok.injEq, Prod.mk.injEq] at h
            rw [← h.2]
            exact psi_kept _ _ hwf _ _ _ hp
      | cons a rest =>
        rw [gamma_succ_cons] at h
        cases hp : phi fuel [a] a.arguments [] rest r c R with
        | error e2 =>
          rw [hp] at h
          simp at h
        | ok q =>
          obtain ⟨S, t1⟩ := q
          have k1 := ih.1 _ _ _ _ _ _ _ _ _ hwf hp
          rw [hp] at h
          simp only at h
          cases hg : makeMultiActionConditionList_aux fuel rest t1 (insert a r) R with
          | error e2 =>
            rw [hg] at h
            simp at h
          | ok q2 =>
            obtain ⟨T2, t2⟩ := q2
            rw [hg] at h
            simp only [Except.ok.injEq, Prod.mk.injEq] at h
            rw [← h.2]
            exact rules_kept_trans _ _ _ k1 (ih.2 _ _ _ _ _ _ k1.1 hg)

theorem init_wf (communications : communication_expression_list) :
    (comm_entry.init communications).wf := by
  simp [comm_entry.init, comm_entry.wf, init_lhs, init_rhs]

/-! ## A communication that results in `tau` -/

theorem might_communicate_true (c : comm_entry) (hwf : c.wf) (m n : action_multiset_t)
    (l : action_name_multiset_t) (hl : l ∈ c.m_lhs) (hp : names m <+: l)
    (hs : List.Sublist (l.drop m.length) (names n)) : (c.might_communicate m n).1 = true := by
  obtain ⟨h1, -, h3, h4⟩ := match_multiaction_spec c hwf (names m)
  have hlen : (names m).length = m.length := by simp [names]
  have hm : (c.match_multiaction (names m)).1 = true := h4.mpr (Or.inr ⟨l, hl, hp⟩)
  unfold might_communicate
  simp only
  rw [if_pos hm, h1]
  simp only
  rw [(might_communicate_loop_spec n (names m) _ _ _ h3).1]
  exact ⟨l, hl, hp, hlen ▸ hs⟩

theorem can_communicate_tau (c : comm_entry) (hwf : c.wf) (m : action_multiset_t)
    (h : first_rule (names m) c.m_lhs c.m_rhs = some tau) :
    c.can_communicate m = .error exn.runtime_error := by
  rw [can_communicate_eq c hwf]
  simp [can_communicate_result, h]

theorem phi_tau (a b : action) (c0 c : comm_entry) (hk : rules_kept c0 c)
    (hf : first_rule [a.label.name, b.label.name] c0.m_lhs c0.m_rhs = some tau)
    (hmem : [a.label.name, b.label.name] ∈ c0.m_lhs)
    (fuel : Nat) (d : data_expression_list) (w r : action_multiset_t) (R : rewriter) :
    phi (fuel + 1) [a, b] d w [] r c R = .error exn.runtime_error := by
  have hB : (c.might_communicate [a, b] []).1 = true :=
    might_communicate_true c hk.1 [a, b] [] _ (hk.2.1 ▸ hmem) (by simp [names]) (by simp)
  have k1 := might_communicate_kept c hk.1 [a, b] []
  have hA : (c.might_communicate [a, b] []).2.can_communicate [a, b] =
      .error exn.runtime_error := by
    apply can_communicate_tau _ k1.1
    rw [k1.2.1, k1.2.2, hk.2.1, hk.2.2]
    exact hf
  rw [phi_succ_nil, hB, hA]
  simp

theorem gamma_tau (a b : action) (c0 c : comm_entry) (hk : rules_kept c0 c)
    (hf : first_rule [a.label.name, b.label.name] c0.m_lhs c0.m_rhs = some tau)
    (hmem : [a.label.name, b.label.name] ∈ c0.m_lhs)
    (hins : insert b [a] = [a, b]) (fuel : Nat) (R : rewriter) :
    makeMultiActionConditionList_aux (fuel + 1) [] c [a, b] R = .error exn.runtime_error := by
  have hB : (c.might_communicate [a, b] []).1 = true :=
    might_communicate_true c hk.1 [a, b] [] _ (hk.2.1 ▸ hmem) (by simp [names]) (by simp)
  have k1 := might_communicate_kept c hk.1 [a, b] []
  have hA : (c.might_communicate [a, b] []).2.can_communicate [a, b] =
      .error exn.runtime_error := by
    apply can_communicate_tau _ k1.1
    rw [k1.2.1, k1.2.2, hk.2.1, hk.2.2]
    exact hf
  have hins2 : insert b (insert a []) = [a, b] := by
    simpa [insert] using hins
  have hi : psi_inner R b [a] false_ c = .error exn.runtime_error := by
    simp only [psi_inner, hins2, hB, if_true, xi, hA]
  have hp : psi [a, b] c R = .error exn.runtime_error := by
    simp only [psi, reverse, List.reverse_cons, List.reverse_nil, List.nil_append,
      List.singleton_append, psi_outer, hi]
  rw [gamma_succ_nil, hp]
  simp

/-- C6: for every two-action multi-action `a(d)|b(e)` (sorted, so that `b` is
not placed before `a`) whose name sequence equals the left-hand side of a
rule `a|b -> tau`, while no earlier rule has that left-hand side,
`makeMultiActionConditionList` fails with the runtime error of the
unsupported communication, for all argument lists and every rewriter. -/
theorem makeMultiActionConditionList_tau (a b : action)
    (communications : communication_expression_list) (R : rewriter) (i : Nat)
    (hsorted : action_compare b a = false)
    (hrule : communications[i]? = some ⟨[a.label.name, b.label.name], tau⟩)
    (hfirst : ∀ j ce, j < i → communications[j]? = some ce →
      ce.action_name ≠ [a.label.name, b.label.name]) :
    makeMultiActionConditionList [a, b] communications R = .error exn.runtime_error := by
  have hwf := init_wf communications
  have hk0 := rules_kept_refl _ hwf
  have hf : first_rule [a.label.name, b.label.name] (comm_entry.init communications).m_lhs
      (comm_entry.init communications).m_rhs = some tau := by
    rw [first_rule_eq_some]
    refine ⟨i, ?_, ?_, ?_⟩
    · simp [comm_entry.init, init_lhs, hrule]
    · intro j hj hc
      simp only [comm_entry.init, init_lhs, List.getElem?_map, Option.map_eq_some'] at hc
      obtain ⟨ce, h1, h2⟩ := hc
      exact hfirst j ce hj h1 h2
    · simp [comm_entry.init, init_rhs, hrule]
  have hmem : [a.label.name, b.label.name] ∈ (comm_entry.init communications).m_lhs := by
    simp only [comm_entry.init, init_lhs, List.mem_map]
    exact ⟨_, List.getElem?_mem hrule, rfl⟩
  have hins : insert b [a] = [a, b] := by simp [insert, hsorted]
  have hC : ((comm_entry.init communications).might_communicate [a] [b]).1 = true :=
    might_communicate_true _ hwf [a] [b] _ hmem (by simp [names]) (by simp [names])
  have k1 := might_communicate_kept _ hwf [a] [b]
  have hfuel : fuel_for ([a, b] : action_multiset_t).length = 8 + 1 := rfl
  have hgoal : makeMultiActionConditionList_aux (8 + 1) [a, b] (comm_entry.init communications)
      [] R = .error exn.runtime_error := by
    rw [gamma_succ_cons]
    have hphi : ∀ S t1, phi 8 [a] a.arguments [] [b] [] (comm_entry.init communications) R =
        .ok (S, t1) → pairwiseMatch a.arguments b.arguments R = false_ ∧
          rules_kept (comm_entry.init communications) t1 := by
      intro S t1 h
      have hk := (kernel_kept 8).1 _ _ _ _ _ _ _ _ _ hwf h
      refine ⟨?_, hk⟩
      by_contra hne
      rw [phi_succ_cons 7, hC] at h
      simp only [Bool.true_eq_false, if_false, hne, hins] at h
      rw [phi_tau a b _ _ k1 hf hmem 6] at h
      simp at h
    cases hp : phi 8 [a] a.arguments [] [b] [] (comm_entry.init communications) R with
    | error e =>
      have := (kernel_error 8).1 _ _ _ _ _ _ _ _ (by simp) (by simp [fuel_for]) hp
      subst this
      rfl
    | ok q =>
      obtain ⟨S, t1⟩ := q
      obtain ⟨-, hk1⟩ := hphi S t1 hp
      simp only
      rw [gamma_succ_cons 7]
      cases hp2 : phi 7 [b] b.arguments [] [] (insert a []) t1 R with
      | error e =>
        have := (kernel_error 7).1 _ _ _ _ _ _ _ _ (by simp) (by simp [fuel_for]) hp2
        subst this
        rfl
      | ok q2 =>
        obtain ⟨S2, t2⟩ := q2
        have hk2 := rules_kept_trans _ _ _ hk1 ((kernel_kept 7).1 _ _ _ _ _ _ _ _ _ hk1.1 hp2)
        have hins2 : insert b (insert a []) = [a, b] := by simpa [insert] using hins
        simp only
        rw [hins2, gamma_tau a b _ _ hk2 hf hmem hins 6]
  unfold makeMultiActionConditionList
  simp only
  rw [hfuel, hgoal]

/-- Witness of C6: `a(x)|b(y)` with the single rule `a|b -> tau`. -/
theorem makeMultiActionConditionList_tau_witness :
    makeMultiActionConditionList [⟨⟨1, [5]⟩, [var 0 5]⟩, ⟨⟨2, [5]⟩, [var 1 5]⟩]
      [⟨[1, 2], tau⟩] id = .error exn.runtime_error :=
  makeMultiActionConditionList_tau ⟨⟨1, [5]⟩, [var 0 5]⟩ ⟨⟨2, [5]⟩, [var 1 5]⟩
    [⟨[1, 2], tau⟩] id 0 (by decide) (by decide) (by intro j ce hj; omega)

/-! ## Guards that are literally `false` -/

theorem psi_false_source_mono (c0 : comm_entry) (R : rewriter) (U V : action → Prop)
    (huv : ∀ a, U a → V a) (h : psi_false_source c0 R U) : psi_false_source c0 R V := by
  obtain ⟨r, c, c2, h1, h2, h3, h4⟩ := h
  exact ⟨r, c, c2, h1, fun a ha => huv a (h2 a ha), h3, h4⟩

theorem mem_addActionCondition_conditions (firstaction : Option action)
    (condition : data_expression) (L S : tuple_list) (g : data_expression)
    (h : g ∈ (addActionCondition firstaction condition L S).conditions) :
    g ∈ S.conditions ∨ ∃ x ∈ L.conditions, g = lazy.and_ x condition := by
  unfold addActionCondition at h
  split_ifs at h
  · simp only [List.mem_map] at h
    obtain ⟨x, hx, rfl⟩ := h
    exact Or.inr ⟨x, hx, rfl⟩
  · simp only [List.mem_append, List.mem_map] at h
    rcases h with h | ⟨x, hx, rfl⟩
    · exact Or.inl h
    · exact Or.inr ⟨x, hx, rfl⟩

theorem false_of_addActionCondition (firstaction : Option action)
    (condition : data_expression) (hc : condition ≠ false_) (L S : tuple_list)
    (h : false_ ∈ (addActionCondition firstaction condition L S).conditions) :
    false_ ∈ S.conditions ∨ false_ ∈ L.conditions := by
  rcases mem_addActionCondition_conditions _ _ _ _ _ h with h | ⟨x, hx, hxe⟩
  · exact Or.inl h
  · rcases (lazy_and_eq_false_iff x condition).mp hxe.symm with h1 | h1
    · exact Or.inr (h1 ▸ hx)
    · exact absurd h1 hc

theorem kernel_false_guard (c0 : comm_entry) (R : rewriter) (fuel : Nat) :
    (∀ (m : action_multiset_t) (d : data_expression_list) (w n r : action_multiset_t)
        (c : comm_entry) (T : tuple_list) (c2 : comm_entry), rules_kept c0 c →
        phi fuel m d w n r c R = .ok (T, c2) → false_ ∈ T.conditions →
        psi_false_source c0 R (fun a => a ∈ w ∨ a ∈ n ∨ a ∈ r)) ∧
      (∀ (l : action_multiset_t) (c : comm_entry) (r : action_multiset_t)
        (T : tuple_list) (c2 : comm_entry), rules_kept c0 c →
        makeMultiActionConditionList_aux fuel l c r R = .ok (T, c2) → false_ ∈ T.conditions →
        psi_false_source c0 R (fun a => a ∈ l ∨ a ∈ r)) := by
  induction fuel with
  | zero =>
    constructor
    · intro m d w n r c T c2 _ h
      rw [phi_zero] at h
      simp at h
    · intro l c r T c2 _ h
      rw [gamma_zero] at h
      simp at h
  | succ fuel ih =>
    constructor
    · intro m d w n r c T c2 hk h hg
      cases n with
      | nil =>
        have k1 := rules_kept_trans _ _ _ hk (might_communicate_kept c hk.1 m [])
        rw [phi_succ_nil] at h
        split_ifs at h
        · simp only [Except.ok.injEq, Prod.mk.injEq] at h
          rw [← h.1] at hg
          simp [tuple_list.empty] at hg
        · cases hc : (c.might_communicate m []).2.can_communicate m with
          | error e2 =>
            rw [hc] at h
            simp at h
          | ok p =>
            obtain ⟨lab, t1⟩ := p
            have k2 := rules_kept_trans _ _ _ k1 (can_communicate_kept _ k1.1 _ _ _ hc)
            rw [hc] at h
            cases lab with
            | none =>
              simp only [Except.ok.injEq, Prod.mk.injEq] at h
              rw [← h.1] at hg
              simp [tuple_list.empty] at hg
            | some lab =>
              simp only at h
              cases hgm : makeMultiActionConditionList_aux fuel w t1 r R with
              | error e2 =>
                rw [hgm] at h
                simp at h
              | ok q =>
                obtain ⟨T2, t2⟩ := q
                rw [hgm] at h
                simp only [Except.ok.injEq, Prod.mk.injEq] at h
                rw [← h.1] at hg
                rcases false_of_addActionCondition _ _ (by simp) _ _ hg with h1 | h1
                · simp [tuple_list.empty] at h1
                · refine psi_false_source_mono _ _ _ _ ?_ (ih.2 w t1 r T2 t2 k2 hgm h1)
                  intro a ha
                  tauto
      | cons a n =>
        have k1 := rules_kept_trans _ _ _ hk (might_communicate_kept c hk.1 m (a :: n))
        have hsub : ∀ x, (x ∈ insert a w ∨ x ∈ n ∨ x ∈ r) → (x ∈ w ∨ x ∈ a :: n ∨ x ∈ r) := by
          intro x hx
          rw [mem_insert] at hx
          simp only [List.mem_cons]
          tauto
        have hsub2 : ∀ x, (x ∈ w ∨ x ∈ n ∨ x ∈ r) → (x ∈ w ∨ x ∈ a :: n ∨ x ∈ r) := by
          intro x hx
          simp only [List.mem_cons]
          tauto
        rw [phi_succ_cons] at h
        split_ifs at h with h0 hcond
        · simp only [Except.ok.injEq, Prod.mk.injEq] at h
          rw [← h.1] at hg
          simp [tuple_list.empty] at hg
        · exact psi_false_source_mono _ _ _ _ hsub (ih.1 _ _ _ _ _ _ _ _ k1 h hg)
        · cases hp : phi fuel (insert a m) d w n r (c.might_communicate m (a :: n)).2 R with
          | error e2 =>
            rw [hp] at h
            simp at h
          | ok q =>
            obtain ⟨T1, t1⟩ := q
            have k2 := rules_kept_trans _ _ _ k1 ((kernel_kept fuel).1 _ _ _ _ _ _ _ _ _ k1.1 hp)
            rw [hp] at h
            simp only at h
            cases hp2 : phi fuel m d (insert a w) n r t1 R with
            | error e2 =>
              rw [hp2] at h
              simp at h
            | ok q2 =>
              obtain ⟨T2, t2⟩ := q2
              rw [hp2] at h
              simp only [Except.ok.injEq, Prod.mk.injEq] at h
              rw [← h.1] at hg
              rcases false_of_addActionCondition _ _ hcond _ _ hg with h1 | h1
              · exact psi_false_source_mono _ _ _ _ hsub (ih.1 _ _ _ _ _ _ _ _ k2 hp2 h1)
              · exact psi_false_source_mono _ _ _ _ hsub2 (ih.1 _ _ _ _ _ _ _ _ k1 hp h1)
    · intro l c r T c2 hk h hg
      cases l with
      | nil =>
        rw [gamma_succ_nil] at h
        split_ifs at h with hr
        · simp only [Except.ok.injEq, Prod.mk.injEq] at h
          rw [← h.1] at hg
          simp at hg
        · cases hp : psi r c R with
          | error e2 =>
            rw [hp] at h
            simp at h
          | ok q =>
            obtain ⟨g, t1⟩ := q
            rw [hp] at h
            simp only [Except.ok.injEq, Prod.mk.injEq] at h
            rw [← h.1] at hg
            simp only [List.mem_singleton] at hg
            subst hg
            refine ⟨r, c, t1, ?_, fun a ha => Or.inr ha, hk, hp⟩
            intro hrn
            exact hr (by simp [hrn])
      | cons a rest =>
        rw [gamma_succ_cons] at h
        cases hp : phi fuel [a] a.arguments [] rest r c R with
        | error e2 =>
          rw [hp] at h
          simp at h
        | ok q =>
          obtain ⟨S, t1⟩ := q
          have k1 := rules_kept_trans _ _ _ hk ((kernel_kept fuel).1 _ _ _ _ _ _ _ _ _ hk.1 hp)
          rw [hp] at h
          simp only at h
          cases hgm : makeMultiActionConditionList_aux fuel rest t1 (insert a r) R with
          | error e2 =>
            rw [hgm] at h
            simp at h
          | ok q2 =>
            obtain ⟨T2, t2⟩ := q2
            rw [hgm] at h
            simp only [Except.ok.injEq, Prod.mk.injEq] at h
            rw [← h.1] at hg
            rcases false_of_addActionCondition _ _ (by simp) _ _ hg with h1 | h1
            · refine psi_false_source_mono _ _ _ _ ?_ (ih.1 _ _ _ _ _ _ _ _ hk hp h1)
              intro x hx
              simp only [List.not_mem_nil, false_or] at hx
              simp only [List.mem_cons]
              tauto
            · refine psi_false_source_mono _ _ _ _ ?_ (ih.2 _ _ _ _ _ k1 hgm h1)
              intro x hx
              rw [mem_insert] at hx
              simp only [List.mem_cons]
              tauto

/-- C3, counterexample: for `a|b` without arguments and the rule `a|b -> c` the
tuple list holds the alternative `(a|b, false)`: `psi` delivers the literal
`false` because the two empty argument lists match literally. -/
theorem guard_false_counterexample :
    makeMultiActionConditionList [⟨⟨1, []⟩, []⟩, ⟨⟨2, []⟩, []⟩] [⟨[1, 2], 3⟩] id =
      .ok ⟨[[⟨⟨3, []⟩, []⟩], [⟨⟨1, []⟩, []⟩, ⟨⟨2, []⟩, []⟩]], [true_, false_]⟩ := by
  decide

/-- C3, amended: no guard is made the literal `false` by strengthening (the
conditions passed to `addActionCondition` are never the literal `false`, a
join with a literally false matching condition is not created): if an
alternative returned by `makeMultiActionConditionList` has the literal `false`
as its guard, then `psi` delivers the literal `false` for some non-empty
context `r` of actions of the multi-action on the table of the rules. -/
theorem guard_false_only_from_psi (multiaction : action_multiset_t)
    (communications : communication_expression_list) (R : rewriter) (T : tuple_list)
    (h : makeMultiActionConditionList multiaction communications R = .ok T)
    (g : data_expression) (hg : g ∈ T.conditions) (hf : g = false_) :
    psi_false_source (comm_entry.init communications) R (fun a => a ∈ multiaction) := by
  subst hf
  unfold makeMultiActionConditionList at h
  simp only at h
  cases hgm : makeMultiActionConditionList_aux (fuel_for multiaction.length) multiaction
      (comm_entry.init communications) [] R with
  | error e =>
    rw [hgm] at h
    simp at h
  | ok q =>
    obtain ⟨T2, t2⟩ := q
    rw [hgm] at h
    simp only [Except.ok.injEq] at h
    subst h
    refine psi_false_source_mono _ _ _ _ ?_
      ((kernel_false_guard (comm_entry.init communications) R _).2 _ _ _ _ _
        (rules_kept_refl _ (init_wf communications)) hgm hg)
    intro a ha
    simpa using ha

/-- Witness of C3 (amended): `a|b` without arguments and the rule `a|b -> c`. -/
theorem guard_false_only_from_psi_witness :
    psi_false_source (comm_entry.init [⟨[1, 2], 3⟩]) id
      (fun a => a ∈ [(⟨⟨1, []⟩, []⟩ : action), ⟨⟨2, []⟩, []⟩]) :=
  guard_false_only_from_psi [⟨⟨1, []⟩, []⟩, ⟨⟨2, []⟩, []⟩] [⟨[1, 2], 3⟩] id
    ⟨[[⟨⟨3, []⟩, []⟩], [⟨⟨1, []⟩, []⟩, ⟨⟨2, []⟩, []⟩]], [true_, false_]⟩ (by decide)
    false_ (by decide) rfl

/-! ## Multi-actions in which no communication can take place -/

theorem lazy_and_true_right (p : data_expression) : lazy.and_ p true_ = p := by
  unfold lazy.and_
  by_cases h1 : p = false_
  · simp [h1]
  · by_cases h2 : p = true_
    · simp [h2]
    · simp [h1, h2]

theorem lazy_or_false_left (q : data_expression) : lazy.or_ false_ q = q := by
  unfold lazy.or_
  by_cases h : q = true_
  · simp [h]
  · simp [h]

theorem lazy_not_false : lazy.not_ false_ = true_ := by
  simp [lazy.not_]

theorem perm_insert (a : action) (l : action_multiset_t) : List.Perm (insert a l) (a :: l) := by
  induction l with
  | nil => simp [insert]
  | cons b l ih =>
    simp only [insert]
    split_ifs
    · exact List.Perm.refl _
    · exact (List.Perm.cons b ih).trans (List.Perm.swap a b l)

theorem perm_foldr_insert (l : action_multiset_t) : List.Perm (l.foldr insert []) l := by
  induction l with
  | nil => simp
  | cons a l ih =>
    simp only [List.foldr_cons]
    exact (perm_insert a _).trans (List.Perm.cons a ih)

theorem names_perm (l1 l2 : action_multiset_t) (h : List.Perm l1 l2) :
    List.Perm (names l1) (names l2) :=
  List.Perm.map _ h

theorem might_communicate_sublist (c : comm_entry) (hwf : c.wf) (m n : action_multiset_t)
    (h : (c.might_communicate m n).1 = true) :
    ∃ l ∈ c.m_lhs, names m <+: l ∧ List.Sublist l (names (m ++ n)) := by
  obtain ⟨h1, -, h3, h4⟩ := match_multiaction_spec c hwf (names m)
  unfold might_communicate at h
  simp only at h
  by_cases hm : (c.match_multiaction (names m)).1 = true
  · rw [if_pos hm, h1] at h
    simp only at h
    rw [(might_communicate_loop_spec n (names m) _ _ _ h3).1] at h
    obtain ⟨l, hl, hp, hs⟩ := h
    refine ⟨l, hl, hp, ?_⟩
    obtain ⟨t, rfl⟩ := hp
    simp only [List.drop_left] at hs
    simp only [names, List.map_append]
    exact List.Sublist.append (List.Sublist.refl _) hs
  · rw [if_neg hm] at h
    simp at h

theorem might_communicate_none (c : comm_entry) (hwf : c.wf) (m n : action_multiset_t)
    (h : ∀ l ∈ c.m_lhs, ¬ List.Subperm l (names (m ++ n))) :
    (c.might_communicate m n).1 = false := by
  by_contra hne
  simp only [Bool.not_eq_false] at hne
  obtain ⟨l, hl, -, hs⟩ := might_communicate_sublist c hwf m n hne
  exact h l hl hs.subperm

theorem psi_inner_none (R : rewriter) (a : action) (beta : action_multiset_t)
    (cond : data_expression) (c : comm_entry) (hwf : c.wf)
    (h : ∀ l ∈ c.m_lhs, ¬ List.Subperm l (names (a :: beta))) :
    ∃ c2, psi_inner R a beta cond c = .ok (cond, c2) ∧ rules_kept c c2 := by
  induction beta generalizing c with
  | nil => exact ⟨c, by simp [psi_inner], rules_kept_refl c hwf⟩
  | cons b beta ih =>
    have k1 := might_communicate_kept c hwf (insert a (insert b [])) beta
    have hperm : List.Perm (names (insert a (insert b []) ++ beta)) (names (a :: b :: beta)) := by
      apply names_perm
      have h1 : List.Perm (insert a (insert b [])) [a, b] := by
        refine (perm_insert a _).trans ?_
        simp [insert]
      exact h1.append_right beta
    have hmc : (c.might_communicate (insert a (insert b [])) beta).1 = false := by
      apply might_communicate_none c hwf
      intro l hl hs
      exact h l hl ((List.Perm.subperm_left hperm).mp hs)
    have hrest : ∀ l ∈ (c.might_communicate (insert a (insert b [])) beta).2.m_lhs,
        ¬ List.Subperm l (names (a :: beta)) := by
      intro l hl hs
      rw [k1.2.1] at hl
      refine h l hl (hs.trans (List.Sublist.subperm ?_))
      simp only [names, List.map_cons]
      exact List.Sublist.cons₂ _ (List.sublist_cons_self _ _)
    obtain ⟨c2, h2, k2⟩ := ih _ k1.1 hrest
    refine ⟨c2, ?_, rules_kept_trans _ _ _ k1 k2⟩
    simp only [psi_inner, hmc, Bool.false_eq_true, if_false]
    exact h2

theorem psi_outer_none (R : rewriter) (l : action_multiset_t) (cond : data_expression)
    (c : comm_entry) (hwf : c.wf) (h : ∀ lhs ∈ c.m_lhs, ¬ List.Subperm lhs (names l)) :
    ∃ c2, psi_outer R l cond c = .ok (cond, c2) ∧ rules_kept c c2 := by
  induction l generalizing c with
  | nil => exact ⟨c, by simp [psi_outer], rules_kept_refl c hwf⟩
  | cons a rest ih =>
    obtain ⟨c1, h1, k1⟩ := psi_inner_none R a rest cond c hwf h
    have hrest : ∀ lhs ∈ c1.m_lhs, ¬ List.Subperm lhs (names rest) := by
      intro lhs hl hs
      rw [k1.2.1] at hl
      refine h lhs hl (hs.trans (List.Sublist.subperm ?_))
      simp only [names, List.map_cons]
      exact List.sublist_cons_self _ _
    obtain ⟨c2, h2, k2⟩ := ih c1 k1.1 hrest
    refine ⟨c2, ?_, rules_kept_trans _ _ _ k1 k2⟩
    simp only [psi_outer, h1]
    exact h2

theorem psi_none (alpha : action_multiset_t) (c : comm_entry) (hwf : c.wf) (R : rewriter)
    (h : ∀ lhs ∈ c.m_lhs, ¬ List.Subperm lhs (names alpha)) :
    ∃ c2, psi alpha c R = .ok (true_, c2) ∧ rules_kept c c2 := by
  have hrev : ∀ lhs ∈ c.m_lhs, ¬ List.Subperm lhs (names (reverse alpha)) := by
    intro lhs hl hs
    refine h lhs hl ((List.Perm.subperm_left ?_).mp hs)
    exact names_perm _ _ (List.reverse_perm alpha)
  obtain ⟨c2, h2, k2⟩ := psi_outer_none R (reverse alpha) false_ c hwf hrev
  exact ⟨c2, by simp [psi, h2, lazy_not_false], k2⟩

theorem phi_none (fuel : Nat) (m : action_multiset_t) (d : data_expression_list)
    (w n r : action_multiset_t) (c : comm_entry) (hwf : c.wf) (R : rewriter)
    (h : ∀ l ∈ c.m_lhs, ¬ List.Subperm l (names (m ++ n))) :
    phi (fuel + 1) m d w n r c R = .ok (tuple_list.empty, (c.might_communicate m n).2) := by
  have hmc := might_communicate_none c hwf m n h
  cases n with
  | nil => rw [phi_succ_nil, if_pos hmc]
  | cons a n => rw [phi_succ_cons, if_pos hmc]

theorem gamma_none (R : rewriter) (l : action_multiset_t) (fuel : Nat) (c : comm_entry)
    (r : action_multiset_t) (hwf : c.wf) (hfuel : fuel_for l.length ≤ fuel)
    (h : ∀ lhs ∈ c.m_lhs, ¬ List.Subperm lhs (names (l ++ r))) :
    ∃ c2, makeMultiActionConditionList_aux fuel l c r R =
        .ok (⟨[l.foldr insert []], [true_]⟩, c2) ∧ rules_kept c c2 := by
  induction l generalizing fuel c r with
  | nil =>
    obtain ⟨f, rfl⟩ : ∃ f, fuel = f + 1 := ⟨fuel - 1, by have := fuel_for_pos 0; simp at hfuel; omega⟩
    rw [gamma_succ_nil]
    by_cases hr : r.isEmpty = true
    · exact ⟨c, by simp [hr], rules_kept_refl c hwf⟩
    · obtain ⟨c2, h2, k2⟩ := psi_none r c hwf R (by simpa using h)
      exact ⟨c2, by simp [hr, h2], k2⟩
  | cons a rest ih =>
    simp only [List.length_cons] at hfuel
    rw [fuel_for_succ] at hfuel
    obtain ⟨f, rfl⟩ : ∃ f, fuel = f + 1 := ⟨fuel - 1, by omega⟩
    obtain ⟨f2, rfl⟩ : ∃ f2, f = f2 + 1 := ⟨f - 1, by omega⟩
    have hphi : ∀ lhs ∈ c.m_lhs, ¬ List.Subperm lhs (names ([a] ++ rest)) := by
      intro lhs hl hs
      refine h lhs hl (hs.trans (List.Sublist.subperm ?_))
      simp only [names, List.singleton_append, List.cons_append, List.map_cons, List.map_append]
      exact List.Sublist.cons₂ _ (List.sublist_append_left _ _)
    have k1 := might_communicate_kept c hwf [a] rest
    have hrest : ∀ lhs ∈ (c.might_communicate [a] rest).2.m_lhs,
        ¬ List.Subperm lhs (names (rest ++ insert a r)) := by
      intro lhs hl hs
      rw [k1.2.1] at hl
      refine h lhs hl ((List.Perm.subperm_left ?_).mp hs)
      apply names_perm
      refine (List.Perm.append_left rest (perm_insert a r)).trans ?_
      exact List.perm_middle
    obtain ⟨c2, h2, k2⟩ := ih (f2 + 1) _ (insert a r) k1.1 (by omega) hrest
    refine ⟨c2, ?_, rules_kept_trans _ _ _ k1 k2⟩
    rw [gamma_succ_cons, phi_none f2 _ _ _ _ _ c hwf R hphi]
    simp only [h2]
    simp [addActionCondition, tuple_list.empty, tuple_list.size, lazy_and_true_right]

theorem foldr_insert_of_chain (alpha : action_multiset_t)
    (h : List.Chain' (fun a b => action_compare a b = true) alpha) :
    alpha.foldr insert [] = alpha := by
  induction alpha with
  | nil => rfl
  | cons a rest ih =>
    rw [List.foldr_cons, ih h.tail]
    cases rest with
    | nil => rfl
    | cons b rest2 =>
      have hab : action_compare a b = true := (List.chain'_cons.mp h).1
      simp [insert, hab]

theorem makeMultiActionConditionList_none (alpha : action_multiset_t)
    (communications : communication_expression_list) (R : rewriter)
    (h : ∀ ce ∈ communications, ¬ List.Subperm ce.action_name (names alpha)) :
    makeMultiActionConditionList alpha communications R =
      .ok ⟨[alpha.foldr insert []], [true_]⟩ := by
  have hl : ∀ lhs ∈ (comm_entry.init communications).m_lhs,
      ¬ List.Subperm lhs (names (alpha ++ [])) := by
    intro lhs hl
    simp only [comm_entry.init, init_lhs, List.mem_map] at hl
    obtain ⟨ce, hce, rfl⟩ := hl
    simpa using h ce hce
  obtain ⟨c2, h2, -⟩ := gamma_none R alpha (fuel_for alpha.length)
    (comm_entry.init communications) [] (init_wf communications) (le_refl _) hl
  unfold makeMultiActionConditionList
  simp only [h2]

/-- C11, counterexample: with the empty rule list the multi-action `a(x)|a(y)`
of two actions with the same label is delivered as `a(y)|a(x)`: every action
is inserted behind the actions with an equal label. -/
theorem empty_rules_counterexample :
    makeMultiActionConditionList [⟨⟨1, [5]⟩, [var 0 5]⟩, ⟨⟨1, [5]⟩, [var 1 5]⟩] [] id =
        .ok ⟨[[⟨⟨1, [5]⟩, [var 1 5]⟩, ⟨⟨1, [5]⟩, [var 0 5]⟩]], [true_]⟩ ∧
      makeMultiActionConditionList [⟨⟨1, [5]⟩, [var 0 5]⟩, ⟨⟨1, [5]⟩, [var 1 5]⟩] [] id ≠
        .ok ⟨[[⟨⟨1, [5]⟩, [var 0 5]⟩, ⟨⟨1, [5]⟩, [var 1 5]⟩]], [true_]⟩ := by
  decide

/-- C11, amended: for every multi-action `alpha` (including the empty one) and
every rewriter, `makeMultiActionConditionList` with the empty rule list is the
one-element tuple list of the literal `true` and `alpha` rebuilt by `insert`
from its last action to its first; this multi-action is `alpha` itself when
`alpha` is sorted and no two neighbouring actions have the same label. -/
theorem empty_rules_idempotent (alpha : action_multiset_t) (R : rewriter) :
    makeMultiActionConditionList alpha [] R = .ok ⟨[alpha.foldr insert []], [true_]⟩ ∧
      (List.Chain' (fun a b => action_compare a b = true) alpha →
        makeMultiActionConditionList alpha [] R = .ok ⟨[alpha], [true_]⟩) := by
  have h := makeMultiActionConditionList_none alpha [] R (by simp)
  refine ⟨h, ?_⟩
  intro hs
  rw [h, foldr_insert_of_chain alpha hs]

/-- C12, counterexample: no left-hand side of the rule list `a|b -> c` is a
sub-multiset of the names of `a(x)|a(y)`, and the result is not the
multi-action itself with the condition `true` but `a(y)|a(x)`. -/
theorem no_communication_counterexample :
    (∀ ce ∈ [(⟨[1, 2], 3⟩ : communication_expression)],
        ¬ List.Subperm ce.action_name
          (names [⟨⟨1, [5]⟩, [var 0 5]⟩, ⟨⟨1, [5]⟩, [var 1 5]⟩])) ∧
      makeMultiActionConditionList [⟨⟨1, [5]⟩, [var 0 5]⟩, ⟨⟨1, [5]⟩, [var 1 5]⟩]
          [⟨[1, 2], 3⟩] id =
        .ok ⟨[[⟨⟨1, [5]⟩, [var 1 5]⟩, ⟨⟨1, [5]⟩, [var 0 5]⟩]], [true_]⟩ ∧
      makeMultiActionConditionList [⟨⟨1, [5]⟩, [var 0 5]⟩, ⟨⟨1, [5]⟩, [var 1 5]⟩]
          [⟨[1, 2], 3⟩] id ≠
        .ok ⟨[[⟨⟨1, [5]⟩, [var 0 5]⟩, ⟨⟨1, [5]⟩, [var 1 5]⟩]], [true_]⟩ := by
  decide

/-- C12, amended: if no left-hand side of a rule is a sub-multiset of
`names(alpha)`, then `makeMultiActionConditionList` delivers exactly one
alternative, with the condition `true` and the multi-action `alpha` rebuilt by
`insert` from its last action to its first, which is `alpha` itself when
`alpha` is sorted and no two neighbouring actions have the same label. -/
theorem no_communication_original (alpha : action_multiset_t)
    (communications : communication_expression_list) (R : rewriter)
    (h : ∀ ce ∈ communications, ¬ List.Subperm ce.action_name (names alpha)) :
    makeMultiActionConditionList alpha communications R =
        .ok ⟨[alpha.foldr insert []], [true_]⟩ ∧
      (List.Chain' (fun a b => action_compare a b = true) alpha →
        makeMultiActionConditionList alpha communications R = .ok ⟨[alpha], [true_]⟩) := by
  have h2 := makeMultiActionConditionList_none alpha communications R h
  refine ⟨h2, ?_⟩
  intro hs
  rw [h2, foldr_insert_of_chain alpha hs]

/-- Witness of C12 (amended): `a(x)` alone with the rule `a|b -> c`. -/
theorem no_communication_original_witness :
    makeMultiActionConditionList [⟨⟨1, [5]⟩, [var 0 5]⟩] [⟨[1, 2], 3⟩] id =
      .ok ⟨[[⟨⟨1, [5]⟩, [var 0 5]⟩]], [true_]⟩ :=
  (no_communication_original [⟨⟨1, [5]⟩, [var 0 5]⟩] [⟨[1, 2], 3⟩] id (by decide)).1

/-- C18, counterexample: the last alternative of `a(x)|b(y)` with the rule
`a|b -> c` has the multi-action `a(x)|b(y)` itself, and running the
enumeration on it synchronises again. -/
theorem rerun_counterexample :
    makeMultiActionConditionList [⟨⟨1, [5]⟩, [var 0 5]⟩, ⟨⟨2, [5]⟩, [var 1 5]⟩]
        [⟨[1, 2], 3⟩] id =
      .ok ⟨[[⟨⟨3, [5]⟩, [var 0 5]⟩], [⟨⟨1, [5]⟩, [var 0 5]⟩, ⟨⟨2, [5]⟩, [var 1 5]⟩]],
        [equal_to (var 0 5) (var 1 5), data_expression.not_ (equal_to (var 1 5) (var 0 5))]⟩ ∧
      makeMultiActionConditionList [⟨⟨1, [5]⟩, [var 0 5]⟩, ⟨⟨2, [5]⟩, [var 1 5]⟩]
        [⟨[1, 2], 3⟩] id ≠
      .ok ⟨[[⟨⟨1, [5]⟩, [var 0 5]⟩, ⟨⟨2, [5]⟩, [var 1 5]⟩]], [true_]⟩ := by
  decide

/-- C18, amended: for every alternative `(M, g)` of
`makeMultiActionConditionList alpha` such that no left-hand side of a rule is
a sub-multiset of `names(M)`, running the enumeration again on `M` with the
same rules yields no synchronisation and only the guard `true`: the single
alternative of `M` rebuilt by `insert`. -/
theorem rerun_without_communication (alpha : action_multiset_t)
    (communications : communication_expression_list) (R : rewriter) (T : tuple_list)
    (_h : makeMultiActionConditionList alpha communications R = .ok T)
    (M : action_multiset_t) (_hM : M ∈ T.actions)
    (hnone : ∀ ce ∈ communications, ¬ List.Subperm ce.action_name (names M)) :
    makeMultiActionConditionList M communications R = .ok ⟨[M.foldr insert []], [true_]⟩ := by
  have hl : ∀ lhs ∈ (comm_entry.init communications).m_lhs,
      ¬ List.Subperm lhs (names (M ++ [])) := by
    intro lhs hl
    simp only [comm_entry.init, init_lhs, List.mem_map] at hl
    obtain ⟨ce, hce, rfl⟩ := hl
    simpa using hnone ce hce
  obtain ⟨c2, h2, -⟩ := gamma_none R M (fuel_for M.length)
    (comm_entry.init communications) [] (init_wf communications) (le_refl _) hl
  unfold makeMultiActionConditionList
  simp only [h2]

/-- Witness of C18 (amended): the alternative `c(x)` of `a(x)|b(y)`. -/
theorem rerun_without_communication_witness :
    makeMultiActionConditionList [⟨⟨3, [5]⟩, [var 0 5]⟩] [⟨[1, 2], 3⟩] id =
      .ok ⟨[[⟨⟨3, [5]⟩, [var 0 5]⟩]], [true_]⟩ :=
  rerun_without_communication [⟨⟨1, [5]⟩, [var 0 5]⟩, ⟨⟨2, [5]⟩, [var 1 5]⟩] [⟨[1, 2], 3⟩] id
    ⟨[[⟨⟨3, [5]⟩, [var 0 5]⟩], [⟨⟨1, [5]⟩, [var 0 5]⟩, ⟨⟨2, [5]⟩, [var 1 5]⟩]],
      [equal_to (var 0 5) (var 1 5), data_expression.not_ (equal_to (var 1 5) (var 0 5))]⟩
    (by decide) [⟨⟨3, [5]⟩, [var 0 5]⟩] (by decide) (by decide)

/-! ## Two actions and a single rule -/

theorem can_communicate_some (c : comm_entry) (hwf : c.wf) (a : action)
    (rest : action_multiset_t) (rhs : action_name_t) (hr : rhs ≠ tau)
    (h : first_rule (names (a :: rest)) c.m_lhs c.m_rhs = some rhs) :
    c.can_communicate (a :: rest) =
      .ok (some ⟨rhs, a.label.sorts⟩, (c.match_multiaction (names (a :: rest))).2) := by
  rw [can_communicate_eq c hwf, can_communicate_result_cons, h]
  simp [hr]

theorem pairwiseMatch_singleton (x y : data_expression) (R : rewriter)
    (hs : x.sort = y.sort) : pairwiseMatch [x] [y] R = R (equal_to x y) := by
  simp only [pairwiseMatch, List.length_singleton, ne_eq, not_true_eq_false, if_false,
    pairwiseMatch_loop, hs]
  unfold lazy.and_
  by_cases h : R (equal_to x y) = false_
  · simp [h]
  · simp [h]

theorem two_actions_single_rule (a b : action) (cn : action_name_t) (R : rewriter)
    (hc : cn ≠ tau) (hsorted : action_compare b a = false) :
    makeMultiActionConditionList [a, b] [⟨[a.label.name, b.label.name], cn⟩] R =
      .ok (if pairwiseMatch a.arguments b.arguments R = false_ then
          ⟨[insert a [b]], [lazy.not_ (pairwiseMatch b.arguments a.arguments R)]⟩
        else
          ⟨[[⟨⟨cn, a.label.sorts⟩, a.arguments⟩], insert a [b]],
            [pairwiseMatch a.arguments b.arguments R,
              lazy.not_ (pairwiseMatch b.arguments a.arguments R)]⟩) := by
  have hwf := init_wf [⟨[a.label.name, b.label.name], cn⟩]
  have hlhs : (comm_entry.init [⟨[a.label.name, b.label.name], cn⟩]).m_lhs =
      [[a.label.name, b.label.name]] := rfl
  have hrhs : (comm_entry.init [⟨[a.label.name, b.label.name], cn⟩]).m_rhs = [cn] := rfl
  have hins : insert b [a] = [a, b] := by simp [insert, hsorted]
  have hins2 : insert b (insert a []) = [a, b] := by simpa [insert] using hins
  have hib : insert b ([] : action_multiset_t) = [b] := rfl
  -- facts that hold in every state of the table
  have hAB : ∀ c, rules_kept (comm_entry.init [⟨[a.label.name, b.label.name], cn⟩]) c →
      (c.might_communicate [a, b] []).1 = true := by
    intro c hk
    exact might_communicate_true c hk.1 [a, b] [] [a.label.name, b.label.name]
      (by rw [hk.2.1, hlhs]; simp) (by simp [names]) (by simp)
  have hA : ∀ c n, rules_kept (comm_entry.init [⟨[a.label.name, b.label.name], cn⟩]) c →
      n = [] ∨ n = [b] → (c.might_communicate [a] n).1 = (decide (n = [b])) := by
    intro c n hk hn
    rcases hn with rfl | rfl
    · rw [might_communicate_none c hk.1 [a] []]
      · simp
      · intro l hl hs
        rw [hk.2.1, hlhs] at hl
        simp only [List.mem_singleton] at hl
        subst hl
        have := hs.length_le
        simp [names] at this
    · rw [might_communicate_true c hk.1 [a] [b] [a.label.name, b.label.name]
        (by rw [hk.2.1, hlhs]; simp) (by simp [names]) (by simp [names])]
      simp
  have hB : ∀ c, rules_kept (comm_entry.init [⟨[a.label.name, b.label.name], cn⟩]) c →
      (c.might_communicate [b] []).1 = false := by
    intro c hk
    apply might_communicate_none c hk.1 [b] []
    intro l hl hs
    rw [hk.2.1, hlhs] at hl
    simp only [List.mem_singleton] at hl
    subst hl
    have := hs.length_le
    simp [names] at this
  have hcan : ∀ c, rules_kept (comm_entry.init [⟨[a.label.name, b.label.name], cn⟩]) c →
      c.can_communicate [a, b] =
        .ok (some ⟨cn, a.label.sorts⟩, (c.match_multiaction (names [a, b])).2) := by
    intro c hk
    apply can_communicate_some c hk.1 a [b] cn hc
    rw [hk.2.1, hk.2.2, hlhs, hrhs]
    simp [first_rule, names]
  have hkm : ∀ c nm, rules_kept (comm_entry.init [⟨[a.label.name, b.label.name], cn⟩]) c →
      rules_kept (comm_entry.init [⟨[a.label.name, b.label.name], cn⟩])
        (c.match_multiaction nm).2 := by
    intro c nm hk
    exact rules_kept_trans _ _ _ hk (match_multiaction_wf c hk.1 nm)
  have hkc : ∀ c m n, rules_kept (comm_entry.init [⟨[a.label.name, b.label.name], cn⟩]) c →
      rules_kept (comm_entry.init [⟨[a.label.name, b.label.name], cn⟩])
        (c.might_communicate m n).2 := by
    intro c m n hk
    exact rules_kept_trans _ _ _ hk (might_communicate_kept c hk.1 m n)
  -- the guard of the alternative without communication
  have hpsi : ∀ c, rules_kept (comm_entry.init [⟨[a.label.name, b.label.name], cn⟩]) c →
      psi [a, b] c R = .ok (lazy.not_ (pairwiseMatch b.arguments a.arguments R),
        ((c.might_communicate [a, b] []).2.match_multiaction (names [a, b])).2) := by
    intro c hk
    simp only [psi, reverse, List.reverse_cons, List.reverse_nil, List.nil_append,
      List.singleton_append, psi_outer, psi_inner, hins2, hAB c hk, if_true, xi,
      hcan _ (hkc c _ _ hk), Option.isSome_some, lazy_or_false_left]
  -- the alternatives in which `a` is left alone
  have hrest : ∀ c fuel, rules_kept (comm_entry.init [⟨[a.label.name, b.label.name], cn⟩]) c →
      ∃ c2, makeMultiActionConditionList_aux (fuel + 3) [b] c (insert a []) R =
        .ok (⟨[[b]], [lazy.not_ (pairwiseMatch b.arguments a.arguments R)]⟩, c2) := by
    intro c fuel hk
    have hk1 := hkc c [b] [] hk
    rw [gamma_succ_cons, phi_succ_nil, if_pos (hB c hk)]
    simp only
    rw [gamma_succ_nil, hins2, hpsi _ hk1]
    refine ⟨(((c.might_communicate [b] []).2.might_communicate [a, b] []).2.match_multiaction
      (names [a, b])).2, ?_⟩
    simp [addActionCondition, tuple_list.empty, tuple_list.size, insert, lazy_and_true_right]
  have hfuel : fuel_for ([a, b] : action_multiset_t).length = 5 + 4 := rfl
  unfold makeMultiActionConditionList
  simp only
  rw [hfuel, gamma_succ_cons, phi_succ_cons, hA _ [b] (rules_kept_refl _ hwf) (Or.inr rfl)]
  simp only [decide_True, Bool.true_eq_false, if_false]
  have hk1 := hkc _ [a] [b] (rules_kept_refl _ hwf)
  by_cases hcond : pairwiseMatch a.arguments b.arguments R = false_
  · rw [if_pos hcond, if_pos hcond, hib]
    rw [phi_succ_nil, hA _ [] hk1 (Or.inl rfl)]
    simp only [List.nil_eq, reduceCtorEq, decide_False, if_true]
    obtain ⟨c2, h2⟩ := hrest _ 5 (hkc _ [a] [] hk1)
    rw [h2]
    simp [addActionCondition, tuple_list.empty, tuple_list.size, lazy_and_true_right]
  · rw [if_neg hcond, if_neg hcond, hins, phi_succ_nil, hAB _ hk1]
    simp only [Bool.true_eq_false, if_false]
    rw [hcan _ (hkc _ _ _ hk1)]
    simp only
    rw [gamma_succ_nil]
    simp only [List.isEmpty_nil, if_true]
    have hk2 := hkm _ (names [a, b]) (hkc _ [a, b] [] hk1)
    rw [phi_succ_nil, hA _ [] hk2 (Or.inl rfl)]
    simp only [List.nil_eq, reduceCtorEq, decide_False, if_true]
    obtain ⟨c2, h2⟩ := hrest _ 5 (hkc _ [a] [] hk2)
    rw [h2]
    have hand : lazy.and_ true_ (pairwiseMatch a.arguments b.arguments R) =
        pairwiseMatch a.arguments b.arguments R := by
      unfold lazy.and_
      simp [hcond]
    simp [addActionCondition, tuple_list.empty, tuple_list.size, lazy_and_true_right,
      lazy_and_true_true, hand, insert]

theorem eval_lazy_not (sigma : Nat → sort_expression → Nat) (p : data_expression) :
    eval sigma (lazy.not_ p) = if eval sigma p = 0 then 1 else 0 := by
  unfold lazy.not_
  by_cases h1 : p = true_
  · simp [h1, eval]
  · by_cases h2 : p = false_
    · simp [h2, eval]
    · simp [h1, h2, eval]

/-- C14, counterexample: for `a(x)|b(y)` with the rule `a|b -> c` and the
identity rewriter, the unsynchronised alternative is guarded by `¬ (y = x)`,
which is not the negation of the guard `x = y` of `c(x)`. -/
theorem symbolic_equality_counterexample :
    makeMultiActionConditionList [⟨⟨1, [5]⟩, [var 0 5]⟩, ⟨⟨2, [5]⟩, [var 1 5]⟩]
        [⟨[1, 2], 3⟩] id =
      .ok ⟨[[⟨⟨3, [5]⟩, [var 0 5]⟩], [⟨⟨1, [5]⟩, [var 0 5]⟩, ⟨⟨2, [5]⟩, [var 1 5]⟩]],
        [equal_to (var 0 5) (var 1 5), data_expression.not_ (equal_to (var 1 5) (var 0 5))]⟩ ∧
      data_expression.not_ (equal_to (var 1 5) (var 0 5)) ≠
        lazy.not_ (id (equal_to (var 0 5) (var 1 5))) := by
  decide

/-- C14, amended: for `a(x)|b(y)` (sorted) with `x` and `y` of the same sort,
the single rule `a|b -> c` and a rewriter that does not rewrite `x = y` to the
literal `false`, the result holds exactly two alternatives: `c(x)` guarded by
`g = R(x = y)`, and the unsynchronised multi-action guarded by the lazy
negation of `R(y = x)`, the equality with its sides swapped; under every
valuation that `R` preserves, this guard is true exactly when `g` is not. -/
theorem symbolic_equality_alternatives (an bn cn : action_name_t) (s : sort_expression)
    (x y : data_expression) (R : rewriter) (hc : cn ≠ tau)
    (hsorted : action_compare ⟨⟨bn, [s]⟩, [y]⟩ ⟨⟨an, [s]⟩, [x]⟩ = false)
    (hs : x.sort = y.sort) (hfalse : R (equal_to x y) ≠ false_) :
    makeMultiActionConditionList [⟨⟨an, [s]⟩, [x]⟩, ⟨⟨bn, [s]⟩, [y]⟩] [⟨[an, bn], cn⟩] R =
        .ok ⟨[[⟨⟨cn, [s]⟩, [x]⟩], insert ⟨⟨an, [s]⟩, [x]⟩ [⟨⟨bn, [s]⟩, [y]⟩]],
          [R (equal_to x y), lazy.not_ (R (equal_to y x))]⟩ ∧
      ∀ sigma : Nat → sort_expression → Nat, (∀ e, eval sigma (R e) = eval sigma e) →
        (holds sigma (lazy.not_ (R (equal_to y x))) ↔ ¬ holds sigma (R (equal_to x y))) := by
  constructor
  · have h := two_actions_single_rule ⟨⟨an, [s]⟩, [x]⟩ ⟨⟨bn, [s]⟩, [y]⟩ cn R hc hsorted
    simp only [pairwiseMatch_singleton x y R hs, pairwiseMatch_singleton y x R hs.symm,
      hfalse, if_false] at h
    exact h
  · intro sigma hR
    simp only [holds, eval_lazy_not, hR, eval]
    by_cases hxy : eval sigma x = eval sigma y
    · simp [hxy]
    · have hyx : ¬ eval sigma y = eval sigma x := fun h => hxy h.symm
      simp [hxy, hyx]

/-- Witness of C14 (amended): `a(x)|b(y)` with the identity rewriter. -/
theorem symbolic_equality_alternatives_witness :
    makeMultiActionConditionList [⟨⟨1, [5]⟩, [var 0 5]⟩, ⟨⟨2, [5]⟩, [var 1 5]⟩]
        [⟨[1, 2], 3⟩] id =
      .ok ⟨[[⟨⟨3, [5]⟩, [var 0 5]⟩],
            insert ⟨⟨1, [5]⟩, [var 0 5]⟩ [⟨⟨2, [5]⟩, [var 1 5]⟩]],
          [id (equal_to (var 0 5) (var 1 5)), lazy.not_ (id (equal_to (var 1 5) (var 0 5)))]⟩ :=
  (symbolic_equality_alternatives 1 2 3 5 (var 0 5) (var 1 5) id (by decide) (by decide)
    (by decide) (by decide)).1

/-! ## Shape of the tuple lists -/

theorem addActionCondition_nonempty (firstaction : Option action) (condition : data_expression)
    (L S : tuple_list) (h : L.actions ≠ [] ∧ L.conditions ≠ []) :
    (addActionCondition firstaction condition L S).actions ≠ [] ∧
      (addActionCondition firstaction condition L S).conditions ≠ [] := by
  unfold addActionCondition
  split_ifs
  · cases firstaction <;> simp [h.1, h.2]
  · cases firstaction <;> simp [h.1, h.2]

theorem gamma_nonempty (fuel : Nat) (l : action_multiset_t) (c : comm_entry)
    (r : action_multiset_t) (R : rewriter) (T : tuple_list) (c2 : comm_entry)
    (h : makeMultiActionConditionList_aux fuel l c r R = .ok (T, c2)) :
    T.actions ≠ [] ∧ T.conditions ≠ [] := by
  induction fuel generalizing l c r T c2 with
  | zero =>
    rw [gamma_zero] at h
    simp at h
  | succ fuel ih =>
    cases l with
    | nil =>
      rw [gamma_succ_nil] at h
      split_ifs at h
      · simp only [Except.ok.injEq, Prod.mk.injEq] at h
        rw [← h.1]
        simp
      · cases hp : psi r c R with
        | error e =>
          rw [hp] at h
          simp at h
        | ok q =>
          rw [hp] at h
          simp only [Except.ok.injEq, Prod.mk.injEq] at h
          rw [← h.1]
          simp
    | cons a rest =>
      rw [gamma_succ_cons] at h
      cases hp : phi fuel [a] a.arguments [] rest r c R with
      | error e =>
        rw [hp] at h
        simp at h
      | ok q =>
        obtain ⟨S, t1⟩ := q
        rw [hp] at h
        simp only at h
        cases hg : makeMultiActionConditionList_aux fuel rest t1 (insert a r) R with
        | error e =>
          rw [hg] at h
          simp at h
        | ok q2 =>
          obtain ⟨T2, t2⟩ := q2
          rw [hg] at h
          simp only [Except.ok.injEq, Prod.mk.injEq] at h
          rw [← h.1]
          exact addActionCondition_nonempty _ _ _ _ (ih _ _ _ _ _ hg)

/-- C15: the list of alternatives is never empty: whenever
`makeMultiActionConditionList` returns without an error, the tuple list that
it returns contains at least one alternative. -/
theorem makeMultiActionConditionList_nonempty (alpha : action_multiset_t)
    (communications : communication_expression_list) (R : rewriter) (T : tuple_list)
    (h : makeMultiActionConditionList alpha communications R = .ok T) :
    1 ≤ T.size ∧ T.actions ≠ [] ∧ T.conditions ≠ [] := by
  unfold makeMultiActionConditionList at h
  simp only at h
  cases hg : makeMultiActionConditionList_aux (fuel_for alpha.length) alpha
      (comm_entry.init communications) [] R with
  | error e =>
    rw [hg] at h
    simp at h
  | ok q =>
    obtain ⟨T2, t2⟩ := q
    rw [hg] at h
    simp only [Except.ok.injEq] at h
    subst h
    have hne := gamma_nonempty _ _ _ _ _ _ _ hg
    refine ⟨?_, hne.1, hne.2⟩
    unfold tuple_list.size
    exact List.length_pos.mpr hne.1

/-- Witness of C15: the empty multi-action with the rule `a|b -> c`. -/
theorem makeMultiActionConditionList_nonempty_witness :
    1 ≤ (⟨[[]], [true_]⟩ : tuple_list).size :=
  (makeMultiActionConditionList_nonempty [] [⟨[1, 2], 3⟩] id ⟨[[]], [true_]⟩ (by decide)).1

/-- C16: for every action `a` (or the default action, `none`), every condition
different from the literal `false` and all tuple lists `L` and `S`: after
`addActionCondition a c L S` the list `S` is the old `S` followed by `L` in
which `a` is inserted into every multi-action (none is changed for the default
action) and every condition is conjoined lazily with `c`, in the order of `L`;
the fast path for an empty `S` delivers the same list as the general path. -/
theorem addActionCondition_append (firstaction : Option action) (condition : data_expression)
    (_hc : condition ≠ false_) (L S : tuple_list)
    (hS : S.actions.length = S.conditions.length) :
    addActionCondition firstaction condition L S =
      ⟨S.actions ++ L.actions.map (fun m =>
          match firstaction with
          | some a => insert a m
          | none => m),
        S.conditions ++ L.conditions.map (fun x => lazy.and_ x condition)⟩ := by
  unfold addActionCondition tuple_list.size
  by_cases h : S.actions.length = 0
  · have h1 : S.actions = [] := List.length_eq_zero.mp h
    have h2 : S.conditions = [] := List.length_eq_zero.mp (hS ▸ h)
    cases firstaction <;> simp [h, h1, h2]
  · cases firstaction <;> simp [h]

/-- Witness of C16: an empty `S`, the fast path. -/
theorem addActionCondition_append_witness :
    addActionCondition (some ⟨⟨1, []⟩, []⟩) true_ ⟨[[]], [true_]⟩ tuple_list.empty =
      ⟨[[⟨⟨1, []⟩, []⟩]], [true_]⟩ :=
  (addActionCondition_append (some ⟨⟨1, []⟩, []⟩) true_ (by decide) ⟨[[]], [true_]⟩
    tuple_list.empty rfl).trans (by decide)

/-! ## The order of the actions in a multi-action -/

theorem sort_list_compare_irrefl (l : List sort_expression) : sort_list_compare l l = false := by
  induction l with
  | nil => rfl
  | cons s l ih => simp [sort_list_compare, ih]

theorem sort_list_compare_trans (l1 l2 l3 : List sort_expression)
    (h12 : sort_list_compare l1 l2 = true) (h23 : sort_list_compare l2 l3 = true) :
    sort_list_compare l1 l3 = true := by
  induction l1 generalizing l2 l3 with
  | nil =>
    cases l2 with
    | nil => simp [sort_list_compare] at h12
    | cons s2 l2 =>
      cases l3 with
      | nil => simp [sort_list_compare] at h23
      | cons s3 l3 => simp [sort_list_compare]
  | cons s1 l1 ih =>
    cases l2 with
    | nil => simp [sort_list_compare] at h12
    | cons s2 l2 =>
      cases l3 with
      | nil => simp [sort_list_compare] at h23
      | cons s3 l3 =>
        simp only [sort_list_compare, Bool.or_eq_true, decide_eq_true_eq, Bool.and_eq_true]
          at h12 h23 ⊢
        rcases h12 with h12 | ⟨e12, h12⟩
        · rcases h23 with h23 | ⟨e23, h23⟩
          · exact Or.inl (Nat.lt_trans h12 h23)
          · exact Or.inl (e23 ▸ h12)
        · rcases h23 with h23 | ⟨e23, h23⟩
          · exact Or.inl (e12 ▸ h23)
          · exact Or.inr ⟨e12.trans e23, ih l2 l3 h12 h23⟩

theorem action_compare_irrefl (a : action) : action_compare a a = false := by
  simp [action_compare, action_label_compare, sort_list_compare_irrefl]

theorem action_compare_trans (a b c : action) (hab : action_compare a b = true)
    (hbc : action_compare b c = true) : action_compare a c = true := by
  unfold action_compare action_label_compare at *
  by_cases h1 : a.label.name = b.label.name
  · by_cases h2 : b.label.name = c.label.name
    · have h3 : a.label.name = c.label.name := h1.trans h2
      simp only [h1, h2, h3, ne_eq, not_true_eq_false, if_false] at hab hbc ⊢
      exact sort_list_compare_trans _ _ _ hab hbc
    · have h3 : ¬ a.label.name = c.label.name := fun h => h2 (h1.symm.trans h)
      simp only [h1, h2, h3, ne_eq, not_false_eq_true, if_true, decide_eq_true_eq] at hbc ⊢
      exact hbc
  · by_cases h2 : b.label.name = c.label.name
    · have h3 : ¬ a.label.name = c.label.name := fun h => h1 (h.trans h2.symm)
      simp only [h1, h3, ne_eq, not_false_eq_true, if_true, decide_eq_true_eq] at hab ⊢
      exact h2 ▸ hab
    · simp only [h1, h2, ne_eq, not_false_eq_true, if_true, decide_eq_true_eq] at hab hbc
      have h3 : ¬ a.label.name = c.label.name := Nat.ne_of_lt (Nat.lt_trans hab hbc)
      simp only [h3, ne_eq, not_false_eq_true, if_true, decide_eq_true_eq]
      exact Nat.lt_trans hab hbc

theorem action_compare_asymm (a b : action) (hab : action_compare a b = true) :
    action_compare b a = false := by
  by_contra h
  simp only [Bool.not_eq_false] at h
  have := action_compare_trans a b a hab h
  rw [action_compare_irrefl] at this
  exact absurd this (by simp)

theorem pairwise_insert (a : action) (l : action_multiset_t)
    (hl : l.Pairwise (fun x y => action_compare x y = true))
    (hc : ∀ b ∈ l, action_compare a b = true ∨ action_compare b a = true) :
    (insert a l).Pairwise (fun x y => action_compare x y = true) := by
  induction l with
  | nil => simp [insert]
  | cons b l ih =>
    rw [List.pairwise_cons] at hl
    simp only [insert]
    by_cases hab : action_compare a b = true
    · rw [if_pos hab, List.pairwise_cons, List.pairwise_cons]
      refine ⟨?_, hl⟩
      intro x hx
      rcases List.mem_cons.mp hx with rfl | hx
      · exact hab
      · exact action_compare_trans _ _ _ hab (hl.1 x hx)
    · rw [if_neg hab, List.pairwise_cons]
      have hba : action_compare b a = true := by
        rcases hc b (by simp) with h | h
        · exact absurd h hab
        · exact h
      refine ⟨?_, ih hl.2 (fun x hx => hc x (by simp [hx]))⟩
      intro x hx
      rcases (mem_insert a x l).mp hx with rfl | hx
      · exact hba
      · exact hl.1 x hx

theorem pairwise_foldr_insert (l : action_multiset_t)
    (hc : l.Pairwise (fun x y => action_compare x y = true ∨ action_compare y x = true)) :
    (l.foldr insert []).Pairwise (fun x y => action_compare x y = true) := by
  induction l with
  | nil => simp
  | cons a l ih =>
    rw [List.pairwise_cons] at hc
    rw [List.foldr_cons]
    apply pairwise_insert a _ (ih hc.2)
    intro b hb
    exact hc.1 b ((perm_foldr_insert l).mem_iff.mp hb)

theorem foldr_insert_of_perm (alpha pi : action_multiset_t)
    (hs : alpha.Pairwise (fun a b => action_compare a b = true)) (hp : List.Perm pi alpha) :
    pi.foldr insert [] = alpha := by
  have hc : pi.Pairwise (fun x y => action_compare x y = true ∨ action_compare y x = true) := by
    rw [List.Perm.pairwise_iff (fun h => h.symm) hp]
    exact hs.imp (fun h => Or.inl h)
  refine List.Perm.eq_of_sorted ?_ (pairwise_foldr_insert pi hc) hs
    ((perm_foldr_insert pi).trans hp)
  intro a b _ _ hab hba
  rw [action_compare_asymm a b hab] at hba
  exact absurd hba (by simp)

/-! ## The summand driver: conditions and order of the output -/

theorem summand_loop_not_false (ext : collaborators) (smmnd : stochastic_action_summand)
    (allowlist : action_name_multiset_list) (is_allow is_block : Bool)
    (terminationAction : action) (nosumelm : Bool) (R : rewriter)
    (actions : List action_multiset_t) (conditions : List data_expression)
    (acc : List stochastic_action_summand) (hacc : ∀ s ∈ acc, s.condition ≠ false_) :
    ∀ s ∈ summand_loop ext smmnd allowlist is_allow is_block terminationAction nosumelm R
      actions conditions acc, s.condition ≠ false_ := by
  induction actions generalizing conditions acc with
  | nil => simpa [summand_loop] using hacc
  | cons m actions ih =>
    cases conditions with
    | nil => simpa [summand_loop] using hacc
    | cons c conditions =>
      simp only [summand_loop]
      split_ifs with h1 h2 h3
      · exact ih conditions acc hacc
      · exact ih conditions acc hacc
      · apply ih
        intro s hs
        rcases List.mem_append.mp hs with hs | hs
        · exact hacc s hs
        · simp only [List.mem_singleton] at hs
          rw [hs]
          exact h3
      · exact ih conditions acc hacc

theorem composition_loop_not_false (ext : collaborators)
    (communications : communication_expression_list) (allowlist : action_name_multiset_list)
    (is_allow is_block : Bool) (terminationAction : action) (nosumelm : Bool) (R : rewriter)
    (summands acc : List stochastic_action_summand) (dacc : List deadlock_summand)
    (ras : List stochastic_action_summand) (rds : List deadlock_summand)
    (hacc : ∀ s ∈ acc, s.condition ≠ false_)
    (h : composition_loop ext communications allowlist is_allow is_block terminationAction
      nosumelm R summands acc dacc = .ok (ras, rds)) :
    ∀ s ∈ ras, s.condition ≠ false_ := by
  induction summands generalizing acc dacc with
  | nil =>
    simp only [composition_loop, Except.ok.injEq, Prod.mk.injEq] at h
    rw [← h.1]
    exact hacc
  | cons smmnd rest ih =>
    simp only [composition_loop] at h
    cases hm : makeMultiActionConditionList smmnd.multi_action.actions communications R with
    | error e =>
      rw [hm] at h
      simp at h
    | ok T =>
      rw [hm] at h
      exact ih _ _ (summand_loop_not_false _ _ _ _ _ _ _ _ _ _ _ hacc) h

/-- C19: summands with false conditions are dropped: for every input of
`communicationcomposition`, all flags, every rewriter and whatever the
collaborators (`sumelm` among them) deliver, no action summand of the
resulting list has the literal `false` as its condition. -/
theorem communicationcomposition_not_false (ext : collaborators)
    (communications : communication_expression_list) (allowlist : action_name_multiset_list)
    (is_allow is_block : Bool) (action_summands : List stochastic_action_summand)
    (deadlock_summands : List deadlock_summand) (terminationAction : action)
    (nosumelm nodeltaelimination ignore_time : Bool) (R : rewriter)
    (ras : List stochastic_action_summand) (rds : List deadlock_summand)
    (h : communicationcomposition ext communications allowlist is_allow is_block action_summands
      deadlock_summands terminationAction nosumelm nodeltaelimination ignore_time R =
        .ok (ras, rds)) :
    ∀ s ∈ ras, s.condition ≠ false_ := by
  unfold communicationcomposition at h
  simp only at h
  cases hl : composition_loop ext (ext.sort_communications communications)
      (if is_allow = true then ext.sort_multi_action_labels allowlist else allowlist)
      is_allow is_block terminationAction nosumelm R action_summands [] deadlock_summands with
  | error e =>
    rw [hl] at h
    simp at h
  | ok q =>
    obtain ⟨ras2, rds2⟩ := q
    rw [hl] at h
    simp only at h
    have hras : ras2 = ras := by
      split_ifs at h <;> simp only [Except.ok.injEq, Prod.mk.injEq] at h <;> exact h.1
    rw [← hras]
    exact composition_loop_not_false _ _ _ _ _ _ _ _ _ _ _ _ _ (by simp) hl

/-- Witness of C19: the summand `a|b` with condition `true` and the rule
`a|b -> c`; the alternative `(a|b, false)` is dropped. -/
theorem communicationcomposition_not_false_witness :
    communicationcomposition plain_collaborators [⟨[1, 2], 3⟩] [] false false
        [⟨[], true_, ⟨[⟨⟨1, []⟩, []⟩, ⟨⟨2, []⟩, []⟩], none⟩, [], ⟨[], none⟩⟩] [] ⟨⟨9, []⟩, []⟩
        true false true id =
      .ok ([⟨[], true_, ⟨[⟨⟨3, []⟩, []⟩], none⟩, [], ⟨[], none⟩⟩], [⟨[], true_, ⟨none⟩⟩]) ∧
    ∀ s ∈ [(⟨[], true_, ⟨[⟨⟨3, []⟩, []⟩], none⟩, [], ⟨[], none⟩⟩ : stochastic_action_summand)],
      s.condition ≠ false_ :=
  ⟨by decide,
    communicationcomposition_not_false plain_collaborators [⟨[1, 2], 3⟩] [] false false
      [⟨[], true_, ⟨[⟨⟨1, []⟩, []⟩, ⟨⟨2, []⟩, []⟩], none⟩, [], ⟨[], none⟩⟩] [] ⟨⟨9, []⟩, []⟩
      true false true id [⟨[], true_, ⟨[⟨⟨3, []⟩, []⟩], none⟩, [], ⟨[], none⟩⟩]
      [⟨[], true_, ⟨none⟩⟩] (by decide)⟩

theorem summand_loop_eq (ext : collaborators) (smmnd : stochastic_action_summand)
    (allowlist : action_name_multiset_list) (is_allow is_block : Bool)
    (terminationAction : action) (nosumelm : Bool) (R : rewriter) (i j : Nat)
    (actions : List action_multiset_t) (conditions : List data_expression)
    (acc : List stochastic_action_summand) :
    summand_loop ext smmnd allowlist is_allow is_block terminationAction nosumelm R
        actions conditions acc =
      acc ++ (tagged_alternatives ext smmnd allowlist is_allow is_block terminationAction
        nosumelm R i j actions conditions).map (fun p => p.2.2) := by
  induction actions generalizing conditions acc j with
  | nil => simp [summand_loop, tagged_alternatives]
  | cons m actions ih =>
    cases conditions with
    | nil => simp [summand_loop, tagged_alternatives]
    | cons c conditions =>
      simp only [summand_loop, tagged_alternatives, summand_of_alternative]
      split_ifs with h1 h2 h3
      · exact ih (j + 1) conditions acc
      · exact ih (j + 1) conditions acc
      · rw [ih (j + 1) conditions]
        simp
      · exact ih (j + 1) conditions acc

theorem composition_loop_eq (ext : collaborators)
    (communications : communication_expression_list) (allowlist : action_name_multiset_list)
    (is_allow is_block : Bool) (terminationAction : action) (nosumelm : Bool) (R : rewriter)
    (i : Nat) (summands acc : List stochastic_action_summand) (dacc : List deadlock_summand) :
    (composition_loop ext communications allowlist is_allow is_block terminationAction
        nosumelm R summands acc dacc).map (fun p => p.1) =
      (tagged_summands ext communications allowlist is_allow is_block terminationAction
        nosumelm R i summands).map (fun l => acc ++ l.map (fun p => p.2.2)) := by
  induction summands generalizing acc dacc i with
  | nil => simp [composition_loop, tagged_summands, Except.map]
  | cons smmnd rest ih =>
    simp only [composition_loop, tagged_summands]
    cases hm : makeMultiActionConditionList smmnd.multi_action.actions communications R with
    | error e => simp [Except.map]
    | ok T =>
      simp only
      rw [ih (i + 1), summand_loop_eq ext smmnd allowlist is_allow is_block terminationAction
        nosumelm R i 0]
      cases tagged_summands ext communications allowlist is_allow is_block terminationAction
          nosumelm R (i + 1) rest with
      | error e => simp [Except.map]
      | ok l => simp [Except.map]

theorem tagged_alternatives_spec (ext : collaborators) (smmnd : stochastic_action_summand)
    (allowlist : action_name_multiset_list) (is_allow is_block : Bool)
    (terminationAction : action) (nosumelm : Bool) (R : rewriter) (i j : Nat)
    (actions : List action_multiset_t) (conditions : List data_expression) :
    (∀ p ∈ tagged_alternatives ext smmnd allowlist is_allow is_block terminationAction
        nosumelm R i j actions conditions,
      p.1 = i ∧ j ≤ p.2.1 ∧ ∃ m c, actions[p.2.1 - j]? = some m ∧
        conditions[p.2.1 - j]? = some c ∧
        summand_of_alternative ext smmnd allowlist is_allow is_block terminationAction
          nosumelm R m c = some p.2.2) ∧
      (tagged_alternatives ext smmnd allowlist is_allow is_block terminationAction
        nosumelm R i j actions conditions).Pairwise
        (fun p q => p.1 < q.1 ∨ (p.1 = q.1 ∧ p.2.1 < q.2.1)) := by
  induction actions generalizing conditions j with
  | nil => simp [tagged_alternatives]
  | cons m actions ih =>
    cases conditions with
    | nil => simp [tagged_alternatives]
    | cons c conditions =>
      obtain ⟨ih1, ih2⟩ := ih (j + 1) conditions
      have hrest : ∀ p ∈ tagged_alternatives ext smmnd allowlist is_allow is_block
          terminationAction nosumelm R i (j + 1) actions conditions,
          p.1 = i ∧ j ≤ p.2.1 ∧ ∃ m2 c2, (m :: actions)[p.2.1 - j]? = some m2 ∧
            (c :: conditions)[p.2.1 - j]? = some c2 ∧
            summand_of_alternative ext smmnd allowlist is_allow is_block terminationAction
              nosumelm R m2 c2 = some p.2.2 := by
        intro p hp
        obtain ⟨h1, h2, m2, c2, h3, h4, h5⟩ := ih1 p hp
        have hsub : p.2.1 - j = (p.2.1 - (j + 1)) + 1 := by omega
        refine ⟨h1, by omega, m2, c2, ?_, ?_, h5⟩
        · rw [hsub, List.getElem?_cons_succ]
          exact h3
        · rw [hsub, List.getElem?_cons_succ]
          exact h4
      simp only [tagged_alternatives]
      cases hs : summand_of_alternative ext smmnd allowlist is_allow is_block terminationAction
          nosumelm R m c with
      | none => exact ⟨hrest, ih2⟩
      | some s =>
        simp only
        constructor
        · intro p hp
          rcases List.mem_cons.mp hp with rfl | hp
          · exact ⟨rfl, le_refl _, m, c, by simp, by simp, hs⟩
          · exact hrest p hp
        · rw [List.pairwise_cons]
          refine ⟨?_, ih2⟩
          intro p hp
          obtain ⟨h1, h2, -⟩ := ih1 p hp
          exact Or.inr ⟨h1.symm, by simp only; omega⟩

theorem tagged_summands_spec (ext : collaborators)
    (communications : communication_expression_list) (allowlist : action_name_multiset_list)
    (is_allow is_block : Bool) (terminationAction : action) (nosumelm : Bool) (R : rewriter)
    (i : Nat) (summands : List stochastic_action_summand)
    (l : List (Nat × Nat × stochastic_action_summand))
    (h : tagged_summands ext communications allowlist is_allow is_block terminationAction
      nosumelm R i summands = .ok l) :
    (∀ p ∈ l, i ≤ p.1 ∧ ∃ smmnd T m c, summands[p.1 - i]? = some smmnd ∧
        makeMultiActionConditionList smmnd.multi_action.actions communications R = .ok T ∧
        T.actions[p.2.1]? = some m ∧ T.conditions[p.2.1]? = some c ∧
        summand_of_alternative ext smmnd allowlist is_allow is_block terminationAction
          nosumelm R m c = some p.2.2) ∧
      l.Pairwise (fun p q => p.1 < q.1 ∨ (p.1 = q.1 ∧ p.2.1 < q.2.1)) := by
  induction summands generalizing i l with
  | nil =>
    simp only [tagged_summands, Except.ok.injEq] at h
    subst h
    simp
  | cons smmnd rest ih =>
    simp only [tagged_summands] at h
    cases hm : makeMultiActionConditionList smmnd.multi_action.actions communications R with
    | error e =>
      rw [hm] at h
      simp at h
    | ok T =>
      rw [hm] at h
      simp only at h
      cases hr : tagged_summands ext communications allowlist is_allow is_block
          terminationAction nosumelm R (i + 1) rest with
      | error e =>
        rw [hr] at h
        simp at h
      | ok l2 =>
        rw [hr] at h
        simp only [Except.ok.injEq] at h
        subst h
        obtain ⟨ih1, ih2⟩ := ih (i + 1) l2 hr
        obtain ⟨a1, a2⟩ := tagged_alternatives_spec ext smmnd allowlist is_allow is_block
          terminationAction nosumelm R i 0 T.actions T.conditions
        constructor
        · intro p hp
          rcases List.mem_append.mp hp with hp | hp
          · obtain ⟨h1, -, m, c, h3, h4, h5⟩ := a1 p hp
            refine ⟨by omega, smmnd, T, m, c, ?_, hm, by simpa using h3, by simpa using h4, h5⟩
            simp [h1]
          · obtain ⟨h1, smmnd2, T2, m, c, h2, h3, h4, h5, h6⟩ := ih1 p hp
            refine ⟨by omega, smmnd2, T2, m, c, ?_, h3, h4, h5, h6⟩
            have hsub : p.1 - i = (p.1 - (i + 1)) + 1 := by omega
            rw [hsub, List.getElem?_cons_succ]
            exact h2
        · rw [List.pairwise_append]
          refine ⟨a2, ih2, ?_⟩
          intro p hp q hq
          have h1 := (a1 p hp).1
          have h2 := (ih1 q hq).1
          exact Or.inl (by omega)

/-- C20: the action summands that `communicationcomposition` delivers are the
concatenation, over the input summands in input order, of the summands built
from the alternatives of each in the order in which
`makeMultiActionConditionList` enumerates them, the discarded alternatives
(disallowed, blocked, false condition) omitted; every output summand stems
from the alternative of the input summand that its pair of indices names, and
the pairs increase lexicographically along the output. -/
theorem communicationcomposition_order (ext : collaborators)
    (communications : communication_expression_list) (allowlist : action_name_multiset_list)
    (is_allow is_block : Bool) (action_summands : List stochastic_action_summand)
    (deadlock_summands : List deadlock_summand) (terminationAction : action)
    (nosumelm nodeltaelimination ignore_time : Bool) (R : rewriter) :
    (communicationcomposition ext communications allowlist is_allow is_block action_summands
        deadlock_summands terminationAction nosumelm nodeltaelimination ignore_time R).map
        (fun p => p.1) =
      (tagged_summands ext (ext.sort_communications communications)
        (if is_allow then ext.sort_multi_action_labels allowlist else allowlist)
        is_allow is_block terminationAction nosumelm R 0 action_summands).map
        (fun l => l.map (fun p => p.2.2)) ∧
      ∀ l, tagged_summands ext (ext.sort_communications communications)
          (if is_allow then ext.sort_multi_action_labels allowlist else allowlist)
          is_allow is_block terminationAction nosumelm R 0 action_summands = .ok l →
        (∀ p ∈ l, ∃ smmnd T m c, action_summands[p.1]? = some smmnd ∧
          makeMultiActionConditionList smmnd.multi_action.actions
            (ext.sort_communications communications) R = .ok T ∧
          T.actions[p.2.1]? = some m ∧ T.conditions[p.2.1]? = some c ∧
          summand_of_alternative ext smmnd
            (if is_allow then ext.sort_multi_action_labels allowlist else allowlist)
            is_allow is_block terminationAction nosumelm R m c = some p.2.2) ∧
        l.Pairwise (fun p q => p.1 < q.1 ∨ (p.1 = q.1 ∧ p.2.1 < q.2.1)) := by
  constructor
  · have hl := composition_loop_eq ext (ext.sort_communications communications)
      (if is_allow then ext.sort_multi_action_labels allowlist else allowlist)
      is_allow is_block terminationAction nosumelm R 0 action_summands [] deadlock_summands
    simp only [List.nil_append] at hl
    rw [← hl]
    unfold communicationcomposition
    simp only
    cases composition_loop ext (ext.sort_communications communications)
        (if is_allow = true then ext.sort_multi_action_labels allowlist else allowlist)
        is_allow is_block terminationAction nosumelm R action_summands [] deadlock_summands with
    | error e => rfl
    | ok q =>
      simp only
      split_ifs <;> rfl
  · intro l hl
    obtain ⟨h1, h2⟩ := tagged_summands_spec _ _ _ _ _ _ _ _ _ _ _ hl
    refine ⟨?_, h2⟩
    intro p hp
    obtain ⟨-, smmnd, T, m, c, h3⟩ := h1 p hp
    exact ⟨smmnd, T, m, c, by simpa using h3⟩

/-! ## Queries and the leftover temporary data -/

theorem reset_loop_eq (ls its : List action_name_multiset_t) (fs : List Bool)
    (h1 : ls.length = its.length) (h2 : its.length = fs.length) :
    reset_loop ls its fs = (ls, List.replicate ls.length false) := by
  induction ls generalizing its fs with
  | nil =>
    cases its with
    | nil =>
      cases fs with
      | nil => simp [reset_loop]
      | cons _ _ => simp at h2
    | cons _ _ => simp at h1
  | cons l ls ih =>
    cases its with
    | nil => simp at h1
    | cons it its =>
      cases fs with
      | nil => simp at h2
      | cons f fs =>
        simp only [reset_loop, ih its fs (by simpa using h1) (by simpa using h2),
          List.length_cons, List.replicate_succ]

theorem reset_temporary_data_eq (c1 c2 : comm_entry) (h1 : c1.wf) (h2 : c2.wf)
    (hl : c1.m_lhs = c2.m_lhs) (hr : c1.m_rhs = c2.m_rhs) :
    c1.reset_temporary_data = c2.reset_temporary_data := by
  unfold reset_temporary_data
  rw [reset_loop_eq _ _ _ (h1.1.trans h1.2.1) h1.2.2,
    reset_loop_eq _ _ _ (h2.1.trans h2.2.1) h2.2.2]
  cases c1
  cases c2
  simp only at hl hr
  subst hl hr
  rfl

theorem match_multiaction_scratch (c1 c2 : comm_entry) (h1 : c1.wf) (h2 : c2.wf)
    (hl : c1.m_lhs = c2.m_lhs) (hr : c1.m_rhs = c2.m_rhs) (nm : action_name_multiset_t) :
    c1.match_multiaction nm = c2.match_multiaction nm := by
  unfold match_multiaction
  rw [reset_temporary_data_eq c1 c2 h1 h2 hl hr]

theorem can_communicate_scratch (c1 c2 : comm_entry) (h1 : c1.wf) (h2 : c2.wf)
    (hl : c1.m_lhs = c2.m_lhs) (hr : c1.m_rhs = c2.m_rhs) (m : action_multiset_t) :
    c1.can_communicate m = c2.can_communicate m := by
  unfold can_communicate
  rw [match_multiaction_scratch c1 c2 h1 h2 hl hr]

theorem might_communicate_scratch (c1 c2 : comm_entry) (h1 : c1.wf) (h2 : c2.wf)
    (hl : c1.m_lhs = c2.m_lhs) (hr : c1.m_rhs = c2.m_rhs) (m n : action_multiset_t) :
    c1.might_communicate m n = c2.might_communicate m n := by
  unfold might_communicate
  rw [match_multiaction_scratch c1 c2 h1 h2 hl hr]

/-- C30: queries do not depend on leftover scratch: for two states of a table
that hold the same rules and arbitrary values in `m_lhs_iters` and
`m_match_failed`, the queries `match_multiaction`, `can_communicate` and
`might_communicate` deliver the same result on the same arguments (and leave
the same table behind), because each begins by resetting the scratch. -/
theorem queries_ignore_scratch (c1 c2 : comm_entry) (h1 : c1.wf) (h2 : c2.wf)
    (hl : c1.m_lhs = c2.m_lhs) (hr : c1.m_rhs = c2.m_rhs) (nm : action_name_multiset_t)
    (m n : action_multiset_t) :
    c1.match_multiaction nm = c2.match_multiaction nm ∧
      c1.can_communicate m = c2.can_communicate m ∧
      c1.might_communicate m n = c2.might_communicate m n := by
  have hreset : c1.reset_temporary_data = c2.reset_temporary_data :=
    reset_temporary_data_eq c1 c2 h1 h2 hl hr
  refine ⟨?_, ?_, ?_⟩
  · unfold match_multiaction
    rw [hreset]
  · unfold can_communicate match_multiaction
    rw [hreset]
  · unfold might_communicate match_multiaction
    rw [hreset]

/-- Witness of C30: the table of `a|b -> c`, fresh and with a scratch in which
the rule has failed. -/
theorem queries_ignore_scratch_witness :
    (comm_entry.init [⟨[1, 2], 3⟩]).can_communicate [⟨⟨1, []⟩, []⟩, ⟨⟨2, []⟩, []⟩] =
      (⟨[[1, 2]], [3], [[7]], [true]⟩ : comm_entry).can_communicate
        [⟨⟨1, []⟩, []⟩, ⟨⟨2, []⟩, []⟩] :=
  (queries_ignore_scratch (comm_entry.init [⟨[1, 2], 3⟩]) ⟨[[1, 2]], [3], [[7]], [true]⟩
    (by decide) (by decide) rfl rfl [] [⟨⟨1, []⟩, []⟩, ⟨⟨2, []⟩, []⟩] []).2.1

theorem xi_scratch (alpha beta : action_multiset_t) (c1 c2 : comm_entry) (h1 : c1.wf)
    (h2 : c2.wf) (hl : c1.m_lhs = c2.m_lhs) (hr : c1.m_rhs = c2.m_rhs) :
    xi alpha beta c1 = xi alpha beta c2 := by
  cases beta with
  | nil => simp only [xi, can_communicate_scratch c1 c2 h1 h2 hl hr]
  | cons b beta => simp only [xi, can_communicate_scratch c1 c2 h1 h2 hl hr]

theorem xi_cons_eq (alpha : action_multiset_t) (b : action) (beta : action_multiset_t)
    (c : comm_entry) (hwf : c.wf) :
    xi alpha (b :: beta) c =
      match c.can_communicate (insert b alpha) with
      | .error e => .error e
      | .ok (lab, t1) => if lab.isSome then .ok (true, t1) else xi alpha beta t1 := by
  rw [xi]
  cases hc : c.can_communicate (insert b alpha) with
  | error e => rfl
  | ok p =>
    obtain ⟨lab, t1⟩ := p
    have k1 := can_communicate_kept c hwf _ _ _ hc
    have k2 := might_communicate_kept t1 k1.1 (insert b alpha) beta
    simp only
    by_cases hlab : lab.isSome = true
    · simp [hlab]
    · simp only [hlab, Bool.false_eq_true, if_false]
      have hsame : xi alpha beta (t1.might_communicate (insert b alpha) beta).2 =
          xi alpha beta t1 :=
        xi_scratch alpha beta _ _ k2.1 k1.1 k2.2.1 k2.2.2
      by_cases hmc : (t1.might_communicate (insert b alpha) beta).1 = true
      · simp only [hmc, if_true, hsame]
        cases hx : xi alpha beta t1 with
        | error e => rfl
        | ok q =>
          obtain ⟨result, t3⟩ := q
          simp only
          cases result with
          | true => simp
          | false =>
            simp only [Bool.false_eq_true, if_false]
            have k3 := xi_kept alpha beta t1 k1.1 _ _ hx
            rw [xi_scratch alpha beta t3 t1 k3.1 k1.1 k3.2.1 k3.2.2, hx]
      · simp only [hmc, Bool.false_eq_true, if_false]
        exact hsame

/-- C29: the double recursion in `xi` is redundant: for every table, `alpha`
and `beta`, `xi` delivers the same Boolean, raises in exactly the same cases
(and leaves the same table behind) as the simplified function `xi_simplified`,
which drops the first recursive call, the one guarded by `might_communicate`. -/
theorem xi_eq_simplified (alpha beta : action_multiset_t) (c : comm_entry) (hwf : c.wf) :
    xi alpha beta c = xi_simplified alpha beta c := by
  induction beta generalizing c with
  | nil => simp only [xi, xi_simplified]
  | cons b beta ih =>
    rw [xi_cons_eq alpha b beta c hwf, xi_simplified]
    cases hc : c.can_communicate (insert b alpha) with
    | error e => rfl
    | ok p =>
      obtain ⟨lab, t1⟩ := p
      have k1 := can_communicate_kept c hwf _ _ _ hc
      simp only
      rw [ih t1 k1.1]

/-- Witness of C29: `xi` for `a` and the range `b|c` with the rule `a|c -> d`. -/
theorem xi_eq_simplified_witness :
    xi [⟨⟨1, []⟩, []⟩] [⟨⟨2, []⟩, []⟩, ⟨⟨3, []⟩, []⟩] (comm_entry.init [⟨[1, 3], 4⟩]) =
      xi_simplified [⟨⟨1, []⟩, []⟩] [⟨⟨2, []⟩, []⟩, ⟨⟨3, []⟩, []⟩]
        (comm_entry.init [⟨[1, 3], 4⟩]) :=
  xi_eq_simplified [⟨⟨1, []⟩, []⟩] [⟨⟨2, []⟩, []⟩, ⟨⟨3, []⟩, []⟩]
    (comm_entry.init [⟨[1, 3], 4⟩]) (by decide)

/-! ## What `might_communicate`, `xi` and `psi` decide -/

theorem might_communicate_rule (c : comm_entry) (hwf : c.wf) (m n : action_multiset_t)
    (h : (c.might_communicate m n).1 = true) :
    ∃ l ∈ c.m_lhs, names m <+: l ∧ List.Sublist (l.drop m.length) (names n) := by
  obtain ⟨l, hl, hp, hs⟩ := might_communicate_sublist c hwf m n h
  refine ⟨l, hl, hp, ?_⟩
  obtain ⟨t, rfl⟩ := hp
  have hlen : (names m).length = m.length := by simp [names]
  rw [← hlen, List.drop_left]
  simp only [names, List.map_append] at hs
  exact List.append_sublist_append_left _ |>.mp hs

theorem might_communicate_mono (c : comm_entry) (hwf : c.wf) (m n u : action_multiset_t)
    (hu : List.Sublist n u) (h : (c.might_communicate m n).1 = true) :
    (c.might_communicate m u).1 = true := by
  obtain ⟨l, hl, hp, hs⟩ := might_communicate_rule c hwf m n h
  exact might_communicate_true c hwf m u l hl hp (hs.trans (List.Sublist.map _ hu))

theorem sublist_insert (a : action) (l : action_multiset_t) : List.Sublist l (insert a l) := by
  induction l with
  | nil => simp
  | cons b l ih =>
    simp only [insert]
    split_ifs
    · exact List.sublist_cons_self _ _
    · exact List.Sublist.cons₂ _ ih

theorem sublist_foldr_insert (n w : action_multiset_t) : List.Sublist n (w.foldr insert n) := by
  induction w with
  | nil => simp
  | cons a w ih => exact ih.trans (sublist_insert a _)

/-- C25, evaluated at the table of `a|b|c -> d`, `m = b|c` and the range
`n = a`, as `psi` passes them for the multi-action `a|b|c`: `m` is a sub-bag
of the left-hand side, and the sub-bag `a` of `n` completes it to `a|b|c`, for
which `can_communicate` yields the label `d`; and yet `might_communicate(m, n)`
is `false`, because `b|c` is no initial part of `a|b|c`.  The same happens
for the table of `a|b -> c` with `m = b` and `n = a`. -/
theorem might_communicate_misses_subbag :
    ((comm_entry.init [⟨[1, 2, 3], 4⟩]).might_communicate
        [⟨⟨2, []⟩, []⟩, ⟨⟨3, []⟩, []⟩] [⟨⟨1, []⟩, []⟩]).1 = false ∧
      List.Subperm (names [⟨⟨2, []⟩, []⟩, ⟨⟨3, []⟩, []⟩]) [1, 2, 3] ∧
      insert ⟨⟨1, []⟩, []⟩ [⟨⟨2, []⟩, []⟩, ⟨⟨3, []⟩, []⟩] =
        [⟨⟨1, []⟩, []⟩, ⟨⟨2, []⟩, []⟩, ⟨⟨3, []⟩, []⟩] ∧
      ((comm_entry.init [⟨[1, 2, 3], 4⟩]).can_communicate
        [⟨⟨1, []⟩, []⟩, ⟨⟨2, []⟩, []⟩, ⟨⟨3, []⟩, []⟩]).map (fun p => p.1) =
          .ok (some ⟨4, []⟩) ∧
      ((comm_entry.init [⟨[1, 2], 3⟩]).might_communicate [⟨⟨2, []⟩, []⟩]
        [⟨⟨1, []⟩, []⟩]).1 = false ∧
      List.Subperm (names [⟨⟨2, []⟩, []⟩]) [1, 2] ∧
      ((comm_entry.init [⟨[1, 2], 3⟩]).can_communicate
        (insert ⟨⟨2, []⟩, []⟩ [⟨⟨1, []⟩, []⟩])).map (fun p => p.1) = .ok (some ⟨3, []⟩) := by
  decide

/-- C26, evaluated at the sorted multi-action `a(x)|b(y)|c(z)` with the single
rule `a|b|c -> d` and the identity rewriter: all three actions have the names
of the left-hand side, under a valuation with `x = y = z` their arguments are
pairwise equal, and yet `psi` delivers the literal `true`. -/
theorem psi_true_for_ternary_rule :
    (psi [⟨⟨1, [5]⟩, [var 0 5]⟩, ⟨⟨2, [5]⟩, [var 1 5]⟩, ⟨⟨3, [5]⟩, [var 2 5]⟩]
        (comm_entry.init [⟨[1, 2, 3], 4⟩]) id).map (fun p => p.1) = .ok true_ ∧
      names [⟨⟨1, [5]⟩, [var 0 5]⟩, ⟨⟨2, [5]⟩, [var 1 5]⟩, ⟨⟨3, [5]⟩, [var 2 5]⟩] =
        [1, 2, 3] ∧
      eval (fun _ _ => 0) (var 0 5) = eval (fun _ _ => 0) (var 1 5) ∧
      eval (fun _ _ => 0) (var 1 5) = eval (fun _ _ => 0) (var 2 5) ∧
      holds (fun _ _ => 0) true_ := by
  decide

/-- C27, evaluated at `alpha = a|b`, `beta = c|d` and the single rule
`a|b|c|d -> e`: the part `c|d` of `beta` extends `alpha` to `a|b|c|d`, for
which `can_communicate` yields the label `e`, and yet `xi` delivers `false`:
it only tries `alpha` with one action of `beta` at a time. -/
theorem xi_misses_two_partners :
    (xi [⟨⟨1, []⟩, []⟩, ⟨⟨2, []⟩, []⟩] [⟨⟨3, []⟩, []⟩, ⟨⟨4, []⟩, []⟩]
        (comm_entry.init [⟨[1, 2, 3, 4], 5⟩])).map (fun p => p.1) = .ok false ∧
      insert ⟨⟨4, []⟩, []⟩ (insert ⟨⟨3, []⟩, []⟩ [⟨⟨1, []⟩, []⟩, ⟨⟨2, []⟩, []⟩]) =
        [⟨⟨1, []⟩, []⟩, ⟨⟨2, []⟩, []⟩, ⟨⟨3, []⟩, []⟩, ⟨⟨4, []⟩, []⟩] ∧
      ((comm_entry.init [⟨[1, 2, 3, 4], 5⟩]).can_communicate
        [⟨⟨1, []⟩, []⟩, ⟨⟨2, []⟩, []⟩, ⟨⟨3, []⟩, []⟩, ⟨⟨4, []⟩, []⟩]).map (fun p => p.1) =
        .ok (some ⟨5, []⟩) := by
  decide

/-- C28: if `might_communicate(m, n ∪ w)` is false, where `n ∪ w` is `n` with
the actions of `w` inserted in sorted position (or any range of which `n` is a
part), then `phi(m, d, w, n, r)` returns the empty tuple list. -/
theorem phi_empty_of_not_might (c : comm_entry) (hwf : c.wf) (fuel : Nat)
    (m : action_multiset_t) (d : data_expression_list) (w n r : action_multiset_t)
    (R : rewriter) :
    ((c.might_communicate m (w.foldr insert n)).1 = false →
        phi (fuel + 1) m d w n r c R = .ok (tuple_list.empty, (c.might_communicate m n).2)) ∧
      ∀ u, List.Sublist n u → (c.might_communicate m u).1 = false →
        phi (fuel + 1) m d w n r c R = .ok (tuple_list.empty, (c.might_communicate m n).2) := by
  have hgen : ∀ u, List.Sublist n u → (c.might_communicate m u).1 = false →
      phi (fuel + 1) m d w n r c R = .ok (tuple_list.empty, (c.might_communicate m n).2) := by
    intro u hu h
    have hn : (c.might_communicate m n).1 = false := by
      by_contra hne
      simp only [Bool.not_eq_false] at hne
      rw [might_communicate_mono c hwf m n u hu hne] at h
      exact absurd h (by simp)
    cases n with
    | nil => rw [phi_succ_nil, if_pos hn]
    | cons a n => rw [phi_succ_cons, if_pos hn]
  exact ⟨hgen _ (sublist_foldr_insert n w), hgen⟩

/-- Witness of C28: with the rule `a|b -> c`, the action `a` cannot communicate
in `d|e`, and `phi` returns the empty list. -/
theorem phi_empty_of_not_might_witness :
    (comm_entry.init [⟨[1, 2], 3⟩]).wf ∧
      ((((comm_entry.init [⟨[1, 2], 3⟩]).might_communicate [⟨⟨1, []⟩, []⟩]
          ([(⟨⟨5, []⟩, []⟩ : action)].foldr insert [⟨⟨4, []⟩, []⟩])).1 = false →
        phi (6 + 1) [⟨⟨1, []⟩, []⟩] [] [⟨⟨5, []⟩, []⟩] [⟨⟨4, []⟩, []⟩] []
            (comm_entry.init [⟨[1, 2], 3⟩]) id =
          .ok (tuple_list.empty,
            ((comm_entry.init [⟨[1, 2], 3⟩]).might_communicate [⟨⟨1, []⟩, []⟩]
              [⟨⟨4, []⟩, []⟩]).2))) :=
  ⟨by decide,
    (phi_empty_of_not_might (comm_entry.init [⟨[1, 2], 3⟩]) (by decide) 6 [⟨⟨1, []⟩, []⟩] []
      [⟨⟨5, []⟩, []⟩] [⟨⟨4, []⟩, []⟩] [] id).1⟩

/-! ## The summands and the deadlock summands of the driver -/

theorem composition_loop_deadlocks (ext : collaborators)
    (communications : communication_expression_list) (allowlist : action_name_multiset_list)
    (is_allow is_block : Bool) (terminationAction : action) (nosumelm : Bool) (R : rewriter)
    (summands acc : List stochastic_action_summand) (dacc : List deadlock_summand)
    (hok : ∀ s ∈ summands, ∃ T,
      makeMultiActionConditionList s.multi_action.actions communications R = .ok T) :
    ∃ ras, composition_loop ext communications allowlist is_allow is_block terminationAction
        nosumelm R summands acc dacc =
      .ok (ras, dacc ++ (if is_allow = false ∧ is_block = false then
        summands.map shadow_deadlock_summand else [])) := by
  induction summands generalizing acc dacc with
  | nil => exact ⟨acc, by simp [composition_loop]⟩
  | cons smmnd rest ih =>
    obtain ⟨T, hT⟩ := hok smmnd (List.mem_cons_self _ _)
    simp only [composition_loop, hT]
    obtain ⟨ras, hras⟩ := ih
      (summand_loop ext smmnd allowlist is_allow is_block terminationAction nosumelm R
        T.actions T.conditions acc)
      (if (!(is_allow || is_block)) = true then dacc ++ [shadow_deadlock_summand smmnd]
        else dacc)
      (fun s hs => hok s (List.mem_cons_of_mem _ hs))
    refine ⟨ras, ?_⟩
    rw [hras]
    cases is_allow <;> cases is_block <;> simp

theorem communicationcomposition_summands (ext : collaborators)
    (communications : communication_expression_list) (allowlist : action_name_multiset_list)
    (is_allow is_block : Bool) (action_summands : List stochastic_action_summand)
    (deadlock_summands : List deadlock_summand) (terminationAction : action)
    (nosumelm nodeltaelimination ignore_time : Bool) (R : rewriter)
    (ras : List stochastic_action_summand) (rds : List deadlock_summand)
    (h : communicationcomposition ext communications allowlist is_allow is_block action_summands
      deadlock_summands terminationAction nosumelm nodeltaelimination ignore_time R =
        .ok (ras, rds)) :
    ∃ l, tagged_summands ext (ext.sort_communications communications)
        (if is_allow then ext.sort_multi_action_labels allowlist else allowlist)
        is_allow is_block terminationAction nosumelm R 0 action_summands = .ok l ∧
      ras = l.map (fun p => p.2.2) := by
  have hl := composition_loop_eq ext (ext.sort_communications communications)
    (if is_allow then ext.sort_multi_action_labels allowlist else allowlist)
    is_allow is_block terminationAction nosumelm R 0 action_summands [] deadlock_summands
  simp only [List.nil_append] at hl
  unfold communicationcomposition at h
  simp only at h
  cases hc : composition_loop ext (ext.sort_communications communications)
      (if is_allow = true then ext.sort_multi_action_labels allowlist else allowlist)
      is_allow is_block terminationAction nosumelm R action_summands [] deadlock_summands with
  | error e =>
    rw [hc] at h
    simp at h
  | ok q =>
    obtain ⟨ras2, rds2⟩ := q
    rw [hc] at h hl
    simp only at h
    have hras : ras2 = ras := by
      split_ifs at h <;> simp only [Except.ok.injEq, Prod.mk.injEq] at h <;> exact h.1
    cases ht : tagged_summands ext (ext.sort_communications communications)
        (if is_allow = true then ext.sort_multi_action_labels allowlist else allowlist)
        is_allow is_block terminationAction nosumelm R 0 action_summands with
    | error e =>
      rw [ht] at hl
      simp [Except.map] at hl
    | ok l =>
      rw [ht] at hl
      simp only [Except.map, Except.ok.injEq] at hl
      exact ⟨l, rfl, by rw [← hras, hl]⟩

theorem summand_of_alternative_eq_some (ext : collaborators) (smmnd : stochastic_action_summand)
    (allowlist : action_name_multiset_list) (is_allow is_block : Bool)
    (terminationAction : action) (nosumelm : Bool) (R : rewriter)
    (multiaction : action_multiset_t) (c : data_expression) (s : stochastic_action_summand) :
    summand_of_alternative ext smmnd allowlist is_allow is_block terminationAction nosumelm R
        multiaction c = some s ↔
      (is_allow = true → ext.allow_ allowlist multiaction terminationAction = true) ∧
        (is_block = true → ext.encap allowlist multiaction = false) ∧
        (new_summand ext smmnd nosumelm R multiaction c).condition ≠ false_ ∧
        s = new_summand ext smmnd nosumelm R multiaction c := by
  unfold summand_of_alternative
  cases is_allow <;> cases is_block <;>
    cases ext.allow_ allowlist multiaction terminationAction <;>
    cases ext.encap allowlist multiaction <;>
    by_cases hc : (new_summand ext smmnd nosumelm R multiaction c).condition = false_ <;>
    simp [hc, eq_comm]

theorem new_summand_nosumelm (ext : collaborators) (smmnd : stochastic_action_summand)
    (R : rewriter) (multiaction : action_multiset_t) (c : data_expression) :
    new_summand ext smmnd true R multiaction c =
      ⟨smmnd.summation_variables, R (lazy.and_ smmnd.condition (R c)),
        ⟨multiaction, smmnd.multi_action.time⟩, smmnd.assignments, smmnd.distribution⟩ := by
  unfold new_summand
  cases h : smmnd.multi_action.time <;> simp

theorem tagged_alternatives_complete (ext : collaborators) (smmnd : stochastic_action_summand)
    (allowlist : action_name_multiset_list) (is_allow is_block : Bool)
    (terminationAction : action) (nosumelm : Bool) (R : rewriter) (i j k : Nat)
    (actions : List action_multiset_t) (conditions : List data_expression)
    (m : action_multiset_t) (c : data_expression) (s : stochastic_action_summand)
    (hm : actions[k]? = some m) (hc : conditions[k]? = some c)
    (hs : summand_of_alternative ext smmnd allowlist is_allow is_block terminationAction
      nosumelm R m c = some s) :
    (i, j + k, s) ∈ tagged_alternatives ext smmnd allowlist is_allow is_block terminationAction
      nosumelm R i j actions conditions := by
  induction actions generalizing conditions j k with
  | nil => simp at hm
  | cons m0 actions ih =>
    cases conditions with
    | nil => simp at hc
    | cons c0 conditions =>
      cases k with
      | zero =>
        simp only [List.getElem?_cons_zero, Option.some.injEq] at hm hc
        subst hm
        subst hc
        simp [tagged_alternatives, hs]
      | succ k =>
        simp only [List.getElem?_cons_succ] at hm hc
        have hrec := ih (j + 1) k conditions hm hc
        have hidx : j + (k + 1) = j + 1 + k := by omega
        rw [hidx]
        simp only [tagged_alternatives]
        cases summand_of_alternative ext smmnd allowlist is_allow is_block terminationAction
            nosumelm R m0 c0 with
        | none => exact hrec
        | some s0 => exact List.mem_cons_of_mem _ hrec

theorem tagged_summands_complete (ext : collaborators)
    (communications : communication_expression_list) (allowlist : action_name_multiset_list)
    (is_allow is_block : Bool) (terminationAction : action) (nosumelm : Bool) (R : rewriter)
    (i k j : Nat) (summands : List stochastic_action_summand)
    (l : List (Nat × Nat × stochastic_action_summand))
    (h : tagged_summands ext communications allowlist is_allow is_block terminationAction
      nosumelm R i summands = .ok l)
    (smmnd : stochastic_action_summand) (T : tuple_list) (m : action_multiset_t)
    (c : data_expression) (s : stochastic_action_summand)
    (hk : summands[k]? = some smmnd)
    (hT : makeMultiActionConditionList smmnd.multi_action.actions communications R = .ok T)
    (hm : T.actions[j]? = some m) (hc : T.conditions[j]? = some c)
    (hs : summand_of_alternative ext smmnd allowlist is_allow is_block terminationAction
      nosumelm R m c = some s) :
    (i + k, j, s) ∈ l := by
  induction summands generalizing i k l with
  | nil => simp at hk
  | cons s0 rest ih =>
    simp only [tagged_summands] at h
    cases hm0 : makeMultiActionConditionList s0.multi_action.actions communications R with
    | error e =>
      rw [hm0] at h
      simp at h
    | ok T0 =>
      rw [hm0] at h
      simp only at h
      cases hr : tagged_summands ext communications allowlist is_allow is_block
          terminationAction nosumelm R (i + 1) rest with
      | error e =>
        rw [hr] at h
        simp at h
      | ok l2 =>
        rw [hr] at h
        simp only [Except.ok.injEq] at h
        subst h
        cases k with
        | zero =>
          simp only [List.getElem?_cons_zero, Option.some.injEq] at hk
          subst hk
          rw [hT] at hm0
          simp only [Except.ok.injEq] at hm0
          subst hm0
          apply List.mem_append_left
          have := tagged_alternatives_complete ext s0 allowlist is_allow is_block
            terminationAction nosumelm R i 0 j T.actions T.conditions m c s hm hc hs
          simpa using this
        | succ k =>
          simp only [List.getElem?_cons_succ] at hk
          apply List.mem_append_right
          have := ih (i + 1) k l2 hr hk
          have hidx : i + (k + 1) = i + 1 + k := by omega
          rw [hidx]
          exact this


theorem example_summand_ok :
    ∀ s ∈ [example_summand], ∃ T,
      makeMultiActionConditionList s.multi_action.actions
        (plain_collaborators.sort_communications [⟨[1, 2], 3⟩]) id = .ok T := by
  intro s hs
  rw [List.mem_singleton] at hs
  subst hs
  exact ⟨⟨[[⟨⟨3, []⟩, []⟩], [⟨⟨1, []⟩, []⟩, ⟨⟨2, []⟩, []⟩]], [true_, false_]⟩, by decide⟩

/-- C21: for every input on which `makeMultiActionConditionList` raises no
error, and all flags, the loop of `communicationcomposition` delivers in
`resulting_deadlock_summands` the deadlock summands passed in, followed by one
recalled deadlock summand for each input action summand, in input order, when
`is_allow` and `is_block` are both false, and by nothing when one of them is
set.  The recalled summands reach the deadlock summands that are delivered
only through `insert_timed_delta_summand`, and only when `nodeltaelimination`
is off. -/
theorem shadow_deadlock_summands_iff (ext : collaborators)
    (communications : communication_expression_list) (allowlist : action_name_multiset_list)
    (is_allow is_block : Bool) (action_summands : List stochastic_action_summand)
    (deadlock_summands : List deadlock_summand) (terminationAction : action)
    (nosumelm nodeltaelimination ignore_time : Bool) (R : rewriter)
    (hok : ∀ s ∈ action_summands, ∃ T,
      makeMultiActionConditionList s.multi_action.actions
        (ext.sort_communications communications) R = .ok T) :
    ∃ ras,
      composition_loop ext (ext.sort_communications communications)
          (if is_allow then ext.sort_multi_action_labels allowlist else allowlist)
          is_allow is_block terminationAction nosumelm R action_summands [] deadlock_summands =
        .ok (ras, deadlock_summands ++ (if is_allow = false ∧ is_block = false then
          action_summands.map shadow_deadlock_summand else [])) ∧
      communicationcomposition ext communications allowlist is_allow is_block action_summands
          deadlock_summands terminationAction nosumelm nodeltaelimination ignore_time R =
        .ok (ras,
          if is_allow = false ∧ is_block = false then
            (if nodeltaelimination then []
              else (deadlock_summands ++ action_summands.map shadow_deadlock_summand).foldl
                (fun deadlocks summand =>
                  ext.insert_timed_delta_summand ras deadlocks summand ignore_time) [])
          else [⟨[], true_, ⟨none⟩⟩]) := by
  obtain ⟨ras, hras⟩ := composition_loop_deadlocks ext (ext.sort_communications communications)
    (if is_allow then ext.sort_multi_action_labels allowlist else allowlist)
    is_allow is_block terminationAction nosumelm R action_summands [] deadlock_summands hok
  refine ⟨ras, hras, ?_⟩
  unfold communicationcomposition
  simp only
  rw [hras]
  cases is_allow <;> cases is_block <;> cases nodeltaelimination <;> simp

/-- Witness of C21: for `example_summand` and the rule `a|b -> c`, without
inline filter, the deadlock summand `example_deadlock` is recalled. -/
theorem shadow_deadlock_summands_iff_witness :
    composition_loop plain_collaborators [⟨[1, 2], 3⟩] [] false false ⟨⟨9, []⟩, []⟩ true id
        [example_summand] [] [] = .ok ([example_result], [example_deadlock]) ∧
      ∃ ras,
        composition_loop plain_collaborators
            (plain_collaborators.sort_communications [⟨[1, 2], 3⟩])
            (if false then plain_collaborators.sort_multi_action_labels [] else [])
            false false ⟨⟨9, []⟩, []⟩ true id [example_summand] [] [] =
          .ok (ras, [] ++ (if false = false ∧ false = false then
            [example_summand].map shadow_deadlock_summand else [])) :=
  ⟨by decide,
    (shadow_deadlock_summands_iff plain_collaborators [⟨[1, 2], 3⟩] [] false false
      [example_summand] [] ⟨⟨9, []⟩, []⟩ true false true id example_summand_ok).imp
      (fun _ h => h.1)⟩

/-- C22: with `nosumelm` set, the action summands that
`communicationcomposition` delivers are, in order, the summands of the pairs
`(i, j)` of an input summand `(V, c, alpha, t?, sigma, d)` and an alternative
`(M, g)` of its multi-action that are not discarded, and the summand of such a
pair has the summation variables `V`, the condition `R(lazy_and(c, R(g)))`,
the multi-action `M` with the time stamp of the input multi-action (none when
that has none), the assignments `sigma` and the distribution `d`. -/
theorem nosumelm_summand_shape (ext : collaborators)
    (communications : communication_expression_list) (allowlist : action_name_multiset_list)
    (is_allow is_block : Bool) (action_summands : List stochastic_action_summand)
    (deadlock_summands : List deadlock_summand) (terminationAction : action)
    (nodeltaelimination ignore_time : Bool) (R : rewriter)
    (ras : List stochastic_action_summand) (rds : List deadlock_summand)
    (h : communicationcomposition ext communications allowlist is_allow is_block action_summands
      deadlock_summands terminationAction true nodeltaelimination ignore_time R =
        .ok (ras, rds)) :
    ∃ l, tagged_summands ext (ext.sort_communications communications)
        (if is_allow then ext.sort_multi_action_labels allowlist else allowlist)
        is_allow is_block terminationAction true R 0 action_summands = .ok l ∧
      ras = l.map (fun p => p.2.2) ∧
      ∀ p ∈ l, ∃ smmnd T M g, action_summands[p.1]? = some smmnd ∧
        makeMultiActionConditionList smmnd.multi_action.actions
          (ext.sort_communications communications) R = .ok T ∧
        T.actions[p.2.1]? = some M ∧ T.conditions[p.2.1]? = some g ∧
        p.2.2 = ⟨smmnd.summation_variables, R (lazy.and_ smmnd.condition (R g)),
          ⟨M, smmnd.multi_action.time⟩, smmnd.assignments, smmnd.distribution⟩ := by
  obtain ⟨l, hl, hras⟩ := communicationcomposition_summands _ _ _ _ _ _ _ _ _ _ _ _ _ _ h
  refine ⟨l, hl, hras, ?_⟩
  intro p hp
  obtain ⟨-, smmnd, T, M, g, h1, h2, h3, h4, h5⟩ :=
    (tagged_summands_spec _ _ _ _ _ _ _ _ _ _ _ hl).1 p hp
  refine ⟨smmnd, T, M, g, by simpa using h1, h2, h3, h4, ?_⟩
  rw [summand_of_alternative_eq_some] at h5
  rw [h5.2.2.2, new_summand_nosumelm]

/-- Witness of C22: `example_summand` with the rule `a|b -> c`. -/
theorem nosumelm_summand_shape_witness :
    communicationcomposition plain_collaborators [⟨[1, 2], 3⟩] [] false false
        [example_summand] [] ⟨⟨9, []⟩, []⟩ true false true id =
      .ok ([example_result], [example_deadlock]) ∧
    ∃ l, tagged_summands plain_collaborators
        (plain_collaborators.sort_communications [⟨[1, 2], 3⟩])
        (if false then plain_collaborators.sort_multi_action_labels [] else [])
        false false ⟨⟨9, []⟩, []⟩ true id 0 [example_summand] = .ok l ∧
      [example_result] = l.map (fun p => p.2.2) :=
  ⟨by decide,
    (nosumelm_summand_shape plain_collaborators [⟨[1, 2], 3⟩] [] false false
      [example_summand] [] ⟨⟨9, []⟩, []⟩ false true id [example_result] [example_deadlock]
      (by decide)).imp (fun _ h => ⟨h.1, h.2.1⟩)⟩

/-- C23: the action summands that `communicationcomposition` delivers are, in
order, the summands of the pairs `(i, j)` of an input summand and an
alternative `(M, g)` of its multi-action that are not discarded.  A pair that
is not discarded has passed the filters: when `is_allow` is set,
`allow_(sorted allow list, M, terminationAction)` holds, and when `is_block`
is set, `encap(block list, M)` is false.  Conversely every alternative that
passes the filters of the flags that are set, and whose summand has a
condition other than the literal `false`, is delivered; so with neither flag
set every alternative is delivered unless the condition of its summand is
`false`. -/
theorem inline_filtering (ext : collaborators)
    (communications : communication_expression_list) (allowlist : action_name_multiset_list)
    (is_allow is_block : Bool) (action_summands : List stochastic_action_summand)
    (deadlock_summands : List deadlock_summand) (terminationAction : action)
    (nosumelm nodeltaelimination ignore_time : Bool) (R : rewriter)
    (ras : List stochastic_action_summand) (rds : List deadlock_summand)
    (h : communicationcomposition ext communications allowlist is_allow is_block action_summands
      deadlock_summands terminationAction nosumelm nodeltaelimination ignore_time R =
        .ok (ras, rds)) :
    ∃ l, tagged_summands ext (ext.sort_communications communications)
        (if is_allow then ext.sort_multi_action_labels allowlist else allowlist)
        is_allow is_block terminationAction nosumelm R 0 action_summands = .ok l ∧
      ras = l.map (fun p => p.2.2) ∧
      (∀ p ∈ l, ∃ smmnd T M g, action_summands[p.1]? = some smmnd ∧
        makeMultiActionConditionList smmnd.multi_action.actions
          (ext.sort_communications communications) R = .ok T ∧
        T.actions[p.2.1]? = some M ∧ T.conditions[p.2.1]? = some g ∧
        p.2.2 = new_summand ext smmnd nosumelm R M g ∧
        (is_allow = true →
          ext.allow_ (ext.sort_multi_action_labels allowlist) M terminationAction = true) ∧
        (is_block = true →
          ext.encap (if is_allow then ext.sort_multi_action_labels allowlist else allowlist)
            M = false)) ∧
      (∀ (i j : Nat) smmnd T M g, action_summands[i]? = some smmnd →
        makeMultiActionConditionList smmnd.multi_action.actions
          (ext.sort_communications communications) R = .ok T →
        T.actions[j]? = some M → T.conditions[j]? = some g →
        (is_allow = true →
          ext.allow_ (ext.sort_multi_action_labels allowlist) M terminationAction = true) →
        (is_block = true →
          ext.encap (if is_allow then ext.sort_multi_action_labels allowlist else allowlist)
            M = false) →
        (new_summand ext smmnd nosumelm R M g).condition ≠ false_ →
        (i, j, new_summand ext smmnd nosumelm R M g) ∈ l) ∧
      (is_allow = false → is_block = false →
        ∀ (i j : Nat) smmnd T M g, action_summands[i]? = some smmnd →
          makeMultiActionConditionList smmnd.multi_action.actions
            (ext.sort_communications communications) R = .ok T →
          T.actions[j]? = some M → T.conditions[j]? = some g →
          (new_summand ext smmnd nosumelm R M g).condition ≠ false_ →
          new_summand ext smmnd nosumelm R M g ∈ ras) := by
  obtain ⟨l, hl, hras⟩ := communicationcomposition_summands _ _ _ _ _ _ _ _ _ _ _ _ _ _ h
  have hcomplete : ∀ (i j : Nat) smmnd T M g, action_summands[i]? = some smmnd →
      makeMultiActionConditionList smmnd.multi_action.actions
        (ext.sort_communications communications) R = .ok T →
      T.actions[j]? = some M → T.conditions[j]? = some g →
      (is_allow = true →
        ext.allow_ (ext.sort_multi_action_labels allowlist) M terminationAction = true) →
      (is_block = true →
        ext.encap (if is_allow then ext.sort_multi_action_labels allowlist else allowlist)
          M = false) →
      (new_summand ext smmnd nosumelm R M g).condition ≠ false_ →
      (i, j, new_summand ext smmnd nosumelm R M g) ∈ l := by
    intro i j smmnd T M g h1 h2 h3 h4 ha hb hc
    have hs : summand_of_alternative ext smmnd
        (if is_allow then ext.sort_multi_action_labels allowlist else allowlist)
        is_allow is_block terminationAction nosumelm R M g =
          some (new_summand ext smmnd nosumelm R M g) := by
      rw [summand_of_alternative_eq_some]
      refine ⟨?_, hb, hc, rfl⟩
      intro hal
      rw [if_pos hal]
      exact ha hal
    have := tagged_summands_complete _ _ _ _ _ _ _ _ 0 i j _ _ hl smmnd T M g _ h1 h2 h3 h4 hs
    simpa using this
  refine ⟨l, hl, hras, ?_, hcomplete, ?_⟩
  · intro p hp
    obtain ⟨-, smmnd, T, M, g, h1, h2, h3, h4, h5⟩ :=
      (tagged_summands_spec _ _ _ _ _ _ _ _ _ _ _ hl).1 p hp
    rw [summand_of_alternative_eq_some] at h5
    refine ⟨smmnd, T, M, g, by simpa using h1, h2, h3, h4, h5.2.2.2, ?_, h5.2.1⟩
    intro hal
    have := h5.1 hal
    rwa [if_pos hal] at this
  · intro ha hb i j smmnd T M g h1 h2 h3 h4 hc
    have hmem := hcomplete i j smmnd T M g h1 h2 h3 h4 (by simp [ha]) (by simp [hb]) hc
    rw [hras]
    exact List.mem_map.mpr ⟨_, hmem, rfl⟩

/-- Witness of C23: `example_summand` with the rule `a|b -> c` and the allow
filter set; the collaborators of the examples allow everything. -/
theorem inline_filtering_witness :
    communicationcomposition plain_collaborators [⟨[1, 2], 3⟩] [] true false
        [example_summand] [] ⟨⟨9, []⟩, []⟩ true false true id =
      .ok ([example_result], [⟨[], true_, ⟨none⟩⟩]) ∧
    ∃ l, tagged_summands plain_collaborators
        (plain_collaborators.sort_communications [⟨[1, 2], 3⟩])
        (if true then plain_collaborators.sort_multi_action_labels [] else [])
        true false ⟨⟨9, []⟩, []⟩ true id 0 [example_summand] = .ok l ∧
      [example_result] = l.map (fun p => p.2.2) :=
  ⟨by decide,
    (inline_filtering plain_collaborators [⟨[1, 2], 3⟩] [] true false
      [example_summand] [] ⟨⟨9, []⟩, []⟩ true false true id [example_result]
      [⟨[], true_, ⟨none⟩⟩] (by decide)).imp (fun _ h => ⟨h.1, h.2.1⟩)⟩

/-- C24: for every input on which `makeMultiActionConditionList` raises no
error, processed with no inline filter, the loop of `communicationcomposition`
puts behind the deadlock summands passed in, for the input action summand
`(V, c, alpha, t)` with index `i`, at index `i` a deadlock summand with the
condition `c`, the deadlock `delta(t)`, and summation variables `V1` that are
a sublist of `V` and consist of exactly the variables of `V` that occur in `c`
or in `t`, each as often as in `V`. -/
theorem shadow_deadlock_summand_shape (ext : collaborators)
    (communications : communication_expression_list) (allowlist : action_name_multiset_list)
    (action_summands : List stochastic_action_summand)
    (deadlock_summands : List deadlock_summand) (terminationAction : action)
    (nosumelm : Bool) (R : rewriter)
    (hok : ∀ s ∈ action_summands, ∃ T,
      makeMultiActionConditionList s.multi_action.actions
        (ext.sort_communications communications) R = .ok T) :
    ∃ ras rds,
      composition_loop ext (ext.sort_communications communications) allowlist false false
          terminationAction nosumelm R action_summands [] deadlock_summands = .ok (ras, rds) ∧
      rds.length = deadlock_summands.length + action_summands.length ∧
      ∀ i smmnd, action_summands[i]? = some smmnd →
        ∃ d, rds[deadlock_summands.length + i]? = some d ∧
          d.condition = smmnd.condition ∧
          d.deadlock = ⟨smmnd.multi_action.time⟩ ∧
          List.Sublist d.summation_variables smmnd.summation_variables ∧
          (∀ v, v ∈ d.summation_variables ↔
            v ∈ smmnd.summation_variables ∧
              (occursinterm smmnd.condition v = true ∨
                ∃ t, smmnd.multi_action.time = some t ∧ occursinterm t v = true)) ∧
          ∀ v ∈ d.summation_variables,
            d.summation_variables.count v = smmnd.summation_variables.count v := by
  obtain ⟨ras, hras⟩ := composition_loop_deadlocks ext (ext.sort_communications communications)
    allowlist false false terminationAction nosumelm R action_summands [] deadlock_summands hok
  simp only [and_self, if_true] at hras
  refine ⟨ras, _, hras, by simp, ?_⟩
  intro i smmnd hi
  refine ⟨shadow_deadlock_summand smmnd, ?_, rfl, rfl, ?_, ?_, ?_⟩
  · rw [List.getElem?_append_right (Nat.le_add_right _ _), Nat.add_sub_cancel_left,
      List.getElem?_map, hi]
    rfl
  · exact List.filter_sublist _
  · intro v
    simp only [shadow_deadlock_summand, List.mem_filter, Bool.or_eq_true]
    cases smmnd.multi_action.time <;> simp
  · intro v hv
    simp only [shadow_deadlock_summand, List.mem_filter] at hv
    simp only [shadow_deadlock_summand]
    exact List.count_filter hv.2

/-- Witness of C24: for `example_summand` the recalled deadlock summand keeps
`v0`, which occurs in the condition, and `v2`, which occurs in the time, and
drops `v1`. -/
theorem shadow_deadlock_summand_shape_witness :
    shadow_deadlock_summand example_summand = example_deadlock ∧
      ∃ ras rds,
        composition_loop plain_collaborators
            (plain_collaborators.sort_communications [⟨[1, 2], 3⟩]) [] false false
            ⟨⟨9, []⟩, []⟩ true id [example_summand] [] [] = .ok (ras, rds) ∧
        rds.length = ([] : List deadlock_summand).length + [example_summand].length :=
  ⟨by decide,
    (shadow_deadlock_summand_shape plain_collaborators [⟨[1, 2], 3⟩] [] [example_summand] []
      ⟨⟨9, []⟩, []⟩ true id example_summand_ok).imp
      (fun _ h => h.imp (fun _ h2 => ⟨h2.1, h2.2.1⟩))⟩

/-! ## The shape of the tuple lists -/

theorem addActionCondition_lengths (firstaction : Option action) (condition : data_expression)
    (L S : tuple_list) (hL : L.actions.length = L.conditions.length)
    (hS : S.actions.length = S.conditions.length) :
    (addActionCondition firstaction condition L S).actions.length =
      (addActionCondition firstaction condition L S).conditions.length := by
  unfold addActionCondition
  split_ifs <;> cases firstaction <;> simp [hL, hS]

theorem mem_addActionCondition_actions (firstaction : Option action)
    (condition : data_expression) (L S : tuple_list) (M : action_multiset_t)
    (h : M ∈ (addActionCondition firstaction condition L S).actions) :
    M ∈ S.actions ∨ ∃ M2 ∈ L.actions, M = firstaction.elim M2 (fun a => insert a M2) := by
  unfold addActionCondition at h
  split_ifs at h <;> cases firstaction <;> simp only [List.mem_append, List.mem_map] at h
  · exact Or.inr ⟨M, h, rfl⟩
  · obtain ⟨M2, h1, h2⟩ := h
    exact Or.inr ⟨M2, h1, h2.symm⟩
  · rcases h with h | h
    · exact Or.inl h
    · exact Or.inr ⟨M, h, rfl⟩
  · rcases h with h | ⟨M2, h1, h2⟩
    · exact Or.inl h
    · exact Or.inr ⟨M2, h1, h2.symm⟩

theorem kernel_lengths (fuel : Nat) :
    (∀ (m : action_multiset_t) (d : data_expression_list) (w n r : action_multiset_t)
        (c : comm_entry) (R : rewriter) (T : tuple_list) (c2 : comm_entry),
        phi fuel m d w n r c R = .ok (T, c2) → T.actions.length = T.conditions.length) ∧
      (∀ (l : action_multiset_t) (c : comm_entry) (r : action_multiset_t) (R : rewriter)
        (T : tuple_list) (c2 : comm_entry),
        makeMultiActionConditionList_aux fuel l c r R = .ok (T, c2) →
        T.actions.length = T.conditions.length) := by
  induction fuel with
  | zero =>
    constructor
    · intro m d w n r c R T c2 h
      rw [phi_zero] at h
      simp at h
    · intro l c r R T c2 h
      rw [gamma_zero] at h
      simp at h
  | succ fuel ih =>
    constructor
    · intro m d w n r c R T c2 h
      cases n with
      | nil =>
        rw [phi_succ_nil] at h
        split_ifs at h
        · simp only [Except.ok.injEq, Prod.mk.injEq] at h
          rw [← h.1]
          rfl
        · cases hc : (c.might_communicate m []).2.can_communicate m with
          | error e2 =>
            rw [hc] at h
            simp at h
          | ok p =>
            obtain ⟨lab, t1⟩ := p
            rw [hc] at h
            cases lab with
            | none =>
              simp only [Except.ok.injEq, Prod.mk.injEq] at h
              rw [← h.1]
              rfl
            | some lab =>
              simp only at h
              cases hg : makeMultiActionConditionList_aux fuel w t1 r R with
              | error e2 =>
                rw [hg] at h
                simp at h
              | ok q =>
                obtain ⟨T2, t2⟩ := q
                rw [hg] at h
                simp only [Except.ok.injEq, Prod.mk.injEq] at h
                rw [← h.1]
                exact addActionCondition_lengths _ _ _ _ (ih.2 _ _ _ _ _ _ hg) rfl
      | cons a n =>
        rw [phi_succ_cons] at h
        split_ifs at h
        · simp only [Except.ok.injEq, Prod.mk.injEq] at h
          rw [← h.1]
          rfl
        · exact ih.1 _ _ _ _ _ _ _ _ _ h
        · cases hp : phi fuel (insert a m) d w n r (c.might_communicate m (a :: n)).2 R with
          | error e2 =>
            rw [hp] at h
            simp at h
          | ok q =>
            obtain ⟨T1, t1⟩ := q
            rw [hp] at h
            simp only at h
            cases hp2 : phi fuel m d (insert a w) n r t1 R with
            | error e2 =>
              rw [hp2] at h
              simp at h
            | ok q2 =>
              obtain ⟨T2, t2⟩ := q2
              rw [hp2] at h
              simp only [Except.ok.injEq, Prod.mk.injEq] at h
              rw [← h.1]
              exact addActionCondition_lengths _ _ _ _ (ih.1 _ _ _ _ _ _ _ _ _ hp)
                (ih.1 _ _ _ _ _ _ _ _ _ hp2)
    · intro l c r R T c2 h
      cases l with
      | nil =>
        rw [gamma_succ_nil] at h
        split_ifs at h
        · simp only [Except.ok.injEq, Prod.mk.injEq] at h
          rw [← h.1]
          rfl
        · cases hp : psi r c R with
          | error e2 =>
            rw [hp] at h
            simp at h
          | ok q =>
            obtain ⟨g, t1⟩ := q
            rw [hp] at h
            simp only [Except.ok.injEq, Prod.mk.injEq] at h
            rw [← h.1]
            rfl
      | cons a rest =>
        rw [gamma_succ_cons] at h
        cases hp : phi fuel [a] a.arguments [] rest r c R with
        | error e2 =>
          rw [hp] at h
          simp at h
        | ok q =>
          obtain ⟨S, t1⟩ := q
          rw [hp] at h
          simp only at h
          cases hg : makeMultiActionConditionList_aux fuel rest t1 (insert a r) R with
          | error e2 =>
            rw [hg] at h
            simp at h
          | ok q2 =>
            obtain ⟨T2, t2⟩ := q2
            rw [hg] at h
            simp only [Except.ok.injEq, Prod.mk.injEq] at h
            rw [← h.1]
            exact addActionCondition_lengths _ _ _ _ (ih.2 _ _ _ _ _ _ hg)
              (ih.1 _ _ _ _ _ _ _ _ _ hp)

theorem makeMultiActionConditionList_ok (alpha : action_multiset_t)
    (communications : communication_expression_list) (R : rewriter) (T : tuple_list)
    (h : makeMultiActionConditionList alpha communications R = .ok T) :
    ∃ c2, makeMultiActionConditionList_aux (fuel_for alpha.length) alpha
      (comm_entry.init communications) [] R = .ok (T, c2) := by
  unfold makeMultiActionConditionList at h
  simp only at h
  cases hg : makeMultiActionConditionList_aux (fuel_for alpha.length) alpha
      (comm_entry.init communications) [] R with
  | error e =>
    rw [hg] at h
    simp at h
  | ok q =>
    obtain ⟨T2, t2⟩ := q
    rw [hg] at h
    simp only [Except.ok.injEq] at h
    exact ⟨t2, by rw [h]⟩

/-- C38: every tuple list that `phi`, `makeMultiActionConditionList_aux` and
`makeMultiActionConditionList` return has as many multi-actions as conditions,
and `addActionCondition` delivers such a list whenever `L` and `S` are such
lists. -/
theorem tuple_list_well_formed :
    (∀ (fuel : Nat) (m : action_multiset_t) (d : data_expression_list)
        (w n r : action_multiset_t) (c : comm_entry) (R : rewriter) (T : tuple_list)
        (c2 : comm_entry),
        phi fuel m d w n r c R = .ok (T, c2) → T.actions.length = T.conditions.length) ∧
      (∀ (fuel : Nat) (l : action_multiset_t) (c : comm_entry) (r : action_multiset_t)
        (R : rewriter) (T : tuple_list) (c2 : comm_entry),
        makeMultiActionConditionList_aux fuel l c r R = .ok (T, c2) →
        T.actions.length = T.conditions.length) ∧
      (∀ (alpha : action_multiset_t) (communications : communication_expression_list)
        (R : rewriter) (T : tuple_list),
        makeMultiActionConditionList alpha communications R = .ok T →
        T.actions.length = T.conditions.length) ∧
      (∀ (firstaction : Option action) (condition : data_expression) (L S : tuple_list),
        L.actions.length = L.conditions.length → S.actions.length = S.conditions.length →
        (addActionCondition firstaction condition L S).actions.length =
          (addActionCondition firstaction condition L S).conditions.length) := by
  refine ⟨fun fuel => (kernel_lengths fuel).1, fun fuel => (kernel_lengths fuel).2, ?_,
    addActionCondition_lengths⟩
  intro alpha communications R T h
  obtain ⟨c2, hg⟩ := makeMultiActionConditionList_ok alpha communications R T h
  exact (kernel_lengths _).2 _ _ _ _ _ _ hg

/-! ## What `match_multiaction` answers -/

/-- C37, evaluated at the empty name sequence and the table with no rules:
`match_multiaction` returns `true`, although there is no left-hand side that
could contain the names.  On every other input, for a table that satisfies
the assertion of `size()`, it answers as documented: `true` exactly when the
names are an initial part of the left-hand side of some rule.  At the failing
input `can_communicate` delivers the default label and `might_communicate`
answers `false`. -/
theorem match_multiaction_true_without_rules :
    ((comm_entry.init []).match_multiaction []).1 = true ∧
      (¬ ∃ l ∈ (comm_entry.init []).m_lhs, ([] : action_name_multiset_t) <+: l) ∧
      (∀ (c : comm_entry) (nm : action_name_multiset_t), c.wf → (nm ≠ [] ∨ c.m_lhs ≠ []) →
        ((c.match_multiaction nm).1 = true ↔ ∃ l ∈ c.m_lhs, nm <+: l)) ∧
      ((comm_entry.init []).can_communicate []).map (fun p => p.1) = .ok none ∧
      ((comm_entry.init []).might_communicate [] []).1 = false := by
  refine ⟨by decide, by simp [comm_entry.init, init_lhs], ?_, by decide, by decide⟩
  intro c nm hwf hne
  rw [(match_multiaction_spec c hwf nm).2.2.2]
  constructor
  · rintro (hnil | hex)
    · rcases hne with hne | hne
      · exact absurd hnil hne
      · obtain ⟨l, hl⟩ := List.exists_mem_of_ne_nil _ hne
        exact ⟨l, hl, by rw [hnil]; exact List.nil_prefix⟩
    · exact hex
  · exact Or.inr

/-! ## The deadlock summands that are delivered -/

theorem composition_loop_deadlocks_eq (ext : collaborators)
    (communications : communication_expression_list) (allowlist : action_name_multiset_list)
    (is_allow is_block : Bool) (terminationAction : action) (nosumelm : Bool) (R : rewriter)
    (summands acc : List stochastic_action_summand) (dacc : List deadlock_summand)
    (ras : List stochastic_action_summand) (rds : List deadlock_summand)
    (h : composition_loop ext communications allowlist is_allow is_block terminationAction
      nosumelm R summands acc dacc = .ok (ras, rds)) :
    rds = dacc ++ (if is_allow = false ∧ is_block = false then
      summands.map shadow_deadlock_summand else []) := by
  induction summands generalizing acc dacc with
  | nil =>
    simp only [composition_loop, Except.ok.injEq, Prod.mk.injEq] at h
    simp [h.2]
  | cons smmnd rest ih =>
    simp only [composition_loop] at h
    cases hm : makeMultiActionConditionList smmnd.multi_action.actions communications R with
    | error e =>
      rw [hm] at h
      simp at h
    | ok T =>
      rw [hm] at h
      simp only at h
      rw [ih _ _ h]
      cases is_allow <;> cases is_block <;> simp

/-- C36: whenever `communicationcomposition` delivers a result: with
`is_allow` or `is_block` set the deadlock summands delivered are exactly the
one summand `delta` with condition `true` and no summation variables; with
neither set and `nodeltaelimination` set they are none; and with neither set
and `nodeltaelimination` off they are what `insert_timed_delta_summand` builds,
starting from no summand, from the deadlock summands passed in followed by the
recalled ones, one call for each in this order.  In the first two cases the
deadlock summands passed in play no part. -/
theorem deadlock_summands_fate (ext : collaborators)
    (communications : communication_expression_list) (allowlist : action_name_multiset_list)
    (is_allow is_block : Bool) (action_summands : List stochastic_action_summand)
    (deadlock_summands : List deadlock_summand) (terminationAction : action)
    (nosumelm nodeltaelimination ignore_time : Bool) (R : rewriter)
    (ras : List stochastic_action_summand) (rds : List deadlock_summand)
    (h : communicationcomposition ext communications allowlist is_allow is_block action_summands
      deadlock_summands terminationAction nosumelm nodeltaelimination ignore_time R =
        .ok (ras, rds)) :
    ((is_allow = true ∨ is_block = true) → rds = [⟨[], true_, ⟨none⟩⟩]) ∧
      (is_allow = false → is_block = false → nodeltaelimination = true → rds = []) ∧
      (is_allow = false → is_block = false → nodeltaelimination = false →
        rds = (deadlock_summands ++ action_summands.map shadow_deadlock_summand).foldl
          (fun deadlocks summand =>
            ext.insert_timed_delta_summand ras deadlocks summand ignore_time) []) ∧
      ∀ other : List deadlock_summand,
        (is_allow = true ∨ is_block = true ∨ nodeltaelimination = true) →
        communicationcomposition ext communications allowlist is_allow is_block action_summands
          other terminationAction nosumelm nodeltaelimination ignore_time R = .ok (ras, rds) := by
  unfold communicationcomposition at h
  simp only at h
  cases hl : composition_loop ext (ext.sort_communications communications)
      (if is_allow = true then ext.sort_multi_action_labels allowlist else allowlist)
      is_allow is_block terminationAction nosumelm R action_summands [] deadlock_summands with
  | error e =>
    rw [hl] at h
    simp at h
  | ok q =>
    obtain ⟨ras2, rds2⟩ := q
    rw [hl] at h
    simp only at h
    have hrds := composition_loop_deadlocks_eq _ _ _ _ _ _ _ _ _ _ _ _ _ hl
    have hras : ras2 = ras := by
      split_ifs at h <;> simp only [Except.ok.injEq, Prod.mk.injEq] at h <;> exact h.1
    subst hras
    have hother : ∀ other : List deadlock_summand, ∃ rds3,
        composition_loop ext (ext.sort_communications communications)
          (if is_allow = true then ext.sort_multi_action_labels allowlist else allowlist)
          is_allow is_block terminationAction nosumelm R action_summands [] other =
            .ok (ras2, rds3) := by
      intro other
      have e1 := composition_loop_eq ext (ext.sort_communications communications)
        (if is_allow = true then ext.sort_multi_action_labels allowlist else allowlist)
        is_allow is_block terminationAction nosumelm R 0 action_summands [] deadlock_summands
      have e2 := composition_loop_eq ext (ext.sort_communications communications)
        (if is_allow = true then ext.sort_multi_action_labels allowlist else allowlist)
        is_allow is_block terminationAction nosumelm R 0 action_summands [] other
      rw [← e1, hl] at e2
      cases ho : composition_loop ext (ext.sort_communications communications)
          (if is_allow = true then ext.sort_multi_action_labels allowlist else allowlist)
          is_allow is_block terminationAction nosumelm R action_summands [] other with
      | error e =>
        rw [ho] at e2
        simp [Except.map] at e2
      | ok q3 =>
        obtain ⟨ras3, rds3⟩ := q3
        rw [ho] at e2
        simp only [Except.map, Except.ok.injEq] at e2
        exact ⟨rds3, by rw [e2]⟩
    refine ⟨?_, ?_, ?_, ?_⟩
    · intro hf
      have hi : (is_allow || is_block) = true := by
        rcases hf with hf | hf <;> simp [hf]
      simp only [hi, Bool.not_true, Bool.false_and, Bool.false_eq_true, if_false, if_true,
        Except.ok.injEq, Prod.mk.injEq, true_and] at h
      exact h.symm
    · intro ha hb hn
      simp only [ha, hb, hn, Bool.or_self, Bool.not_false, Bool.not_true, Bool.and_false,
        Bool.false_eq_true, if_false, Except.ok.injEq, Prod.mk.injEq, true_and] at h
      exact h.symm
    · intro ha hb hn
      simp only [ha, hb, hn, Bool.or_self, Bool.not_false, Bool.and_self, if_true,
        Bool.false_eq_true, if_false, Except.ok.injEq, Prod.mk.injEq, true_and] at h
      rw [← h, hrds]
      simp [ha, hb]
    · intro other hf
      obtain ⟨rds3, h3⟩ := hother other
      have hcond : (!(is_allow || is_block) && !nodeltaelimination) = false := by
        rcases hf with hf | hf | hf <;> simp [hf]
      simp only [hcond, Bool.false_eq_true, if_false, Except.ok.injEq, Prod.mk.injEq,
        true_and] at h
      unfold communicationcomposition
      simp only [h3, hcond, Bool.false_eq_true, if_false, Except.ok.injEq, Prod.mk.injEq,
        true_and]
      exact h

/-- Witness of C36: for `example_summand`, no inline filter and
`nodeltaelimination` off, the recalled deadlock summand is delivered by
`insert_timed_delta_summand`, which for the collaborators of the examples puts
it at the back of the empty list. -/
theorem deadlock_summands_fate_witness :
    communicationcomposition plain_collaborators [⟨[1, 2], 3⟩] [] false false
        [example_summand] [] ⟨⟨9, []⟩, []⟩ true false true id =
      .ok ([example_result], [example_deadlock]) ∧
    [example_deadlock] =
      (([] : List deadlock_summand) ++ [example_summand].map shadow_deadlock_summand).foldl
        (fun deadlocks summand =>
          plain_collaborators.insert_timed_delta_summand [example_result] deadlocks summand
            true) [] :=
  ⟨by decide,
    (deadlock_summands_fate plain_collaborators [⟨[1, 2], 3⟩] [] false false
      [example_summand] [] ⟨⟨9, []⟩, []⟩ true false true id [example_result]
      [example_deadlock] (by decide)).2.2.1 rfl rfl rfl⟩

/-! ## Termination of the kernel -/

theorem can_communicate_loop_fuel (m : action_multiset_t)
    (ls : List action_name_multiset_t) (rs : List action_name_t)
    (its : List action_name_multiset_t) (fs : List Bool) :
    can_communicate_loop m ls rs its fs ≠ .error exn.out_of_fuel := by
  induction ls generalizing rs its fs with
  | nil => cases rs <;> cases its <;> cases fs <;> simp [can_communicate_loop]
  | cons l ls ih =>
    cases rs with
    | nil => simp [can_communicate_loop]
    | cons r rs =>
      cases its with
      | nil => simp [can_communicate_loop]
      | cons it its =>
        cases fs with
        | nil => simp [can_communicate_loop]
        | cons f fs =>
          simp only [can_communicate_loop]
          split_ifs
          · simp
          · cases m <;> simp
          · exact ih rs its fs

theorem can_communicate_fuel (c : comm_entry) (m : action_multiset_t) :
    c.can_communicate m ≠ .error exn.out_of_fuel := by
  unfold can_communicate
  simp only
  split_ifs
  · have := can_communicate_loop_fuel m (c.match_multiaction (names m)).2.m_lhs
      (c.match_multiaction (names m)).2.m_rhs (c.match_multiaction (names m)).2.m_lhs_iters
      (c.match_multiaction (names m)).2.m_match_failed
    cases hl : can_communicate_loop m (c.match_multiaction (names m)).2.m_lhs
        (c.match_multiaction (names m)).2.m_rhs (c.match_multiaction (names m)).2.m_lhs_iters
        (c.match_multiaction (names m)).2.m_match_failed with
    | error e =>
      rw [hl] at this
      simpa using this
    | ok q => simp
  · simp

theorem xi_fuel (alpha beta : action_multiset_t) (c : comm_entry) :
    xi alpha beta c ≠ .error exn.out_of_fuel := by
  induction beta generalizing c with
  | nil =>
    simp only [xi]
    have := can_communicate_fuel c alpha
    cases hc : c.can_communicate alpha with
    | error e =>
      rw [hc] at this
      simpa using this
    | ok q => simp
  | cons b beta ih =>
    simp only [xi]
    have := can_communicate_fuel c (insert b alpha)
    cases hc : c.can_communicate (insert b alpha) with
    | error e =>
      rw [hc] at this
      simpa using this
    | ok q =>
      obtain ⟨lab, t1⟩ := q
      simp only
      split_ifs with h1 h2
      · simp
      · have h3 := ih (t1.might_communicate (insert b alpha) beta).2
        cases hx : xi alpha beta (t1.might_communicate (insert b alpha) beta).2 with
        | error e =>
          rw [hx] at h3
          simpa using h3
        | ok q2 =>
          obtain ⟨res, t3⟩ := q2
          simp only
          split_ifs
          · simp
          · exact ih t3
      · simp only [Bool.false_eq_true, if_false]
        exact ih _

theorem kernel_fuel_enough (fuel : Nat) :
    (∀ (m : action_multiset_t) (d : data_expression_list) (w n r : action_multiset_t)
        (c : comm_entry) (R : rewriter),
        fuel_for (w.length + n.length) + 1 + n.length ≤ fuel →
        phi fuel m d w n r c R ≠ .error exn.out_of_fuel) ∧
      (∀ (l : action_multiset_t) (c : comm_entry) (r : action_multiset_t) (R : rewriter),
        fuel_for l.length ≤ fuel →
        makeMultiActionConditionList_aux fuel l c r R ≠ .error exn.out_of_fuel) := by
  induction fuel with
  | zero =>
    constructor
    · intro m d w n r c R hb
      omega
    · intro l c r R hb
      have := fuel_for_pos l.length
      omega
  | succ fuel ih =>
    constructor
    · intro m d w n r c R hb h
      cases n with
      | nil =>
        rw [phi_succ_nil] at h
        split_ifs at h
        cases hc : (c.might_communicate m []).2.can_communicate m with
        | error e2 =>
          rw [hc] at h
          simp only [Except.error.injEq] at h
          subst h
          exact can_communicate_fuel _ _ hc
        | ok p =>
          obtain ⟨lab, t1⟩ := p
          rw [hc] at h
          cases lab with
          | none => simp at h
          | some lab =>
            simp only at h
            cases hg : makeMultiActionConditionList_aux fuel w t1 r R with
            | error e2 =>
              rw [hg] at h
              simp only [Except.error.injEq] at h
              subst h
              refine ih.2 w t1 r R ?_ hg
              simp only [List.length_nil, Nat.add_zero] at hb
              omega
            | ok q =>
              rw [hg] at h
              simp at h
      | cons a n =>
        have hm1 := fuel_for_mono (w.length + n.length) (w.length + (n.length + 1)) (by omega)
        simp only [List.length_cons] at hb
        have hb1 : fuel_for ((insert a w).length + n.length) + 1 + n.length ≤ fuel := by
          rw [length_insert]
          have : w.length + 1 + n.length = w.length + (n.length + 1) := by omega
          rw [this]
          omega
        have hb2 : fuel_for (w.length + n.length) + 1 + n.length ≤ fuel := by omega
        rw [phi_succ_cons] at h
        split_ifs at h
        · exact ih.1 m d (insert a w) n r _ R hb1 h
        · cases hp : phi fuel (insert a m) d w n r (c.might_communicate m (a :: n)).2 R with
          | error e2 =>
            rw [hp] at h
            simp only [Except.error.injEq] at h
            subst h
            exact ih.1 _ d w n r _ R hb2 hp
          | ok q =>
            obtain ⟨T, t1⟩ := q
            rw [hp] at h
            simp only at h
            cases hp2 : phi fuel m d (insert a w) n r t1 R with
            | error e2 =>
              rw [hp2] at h
              simp only [Except.error.injEq] at h
              subst h
              exact ih.1 m d (insert a w) n r _ R hb1 hp2
            | ok q2 =>
              rw [hp2] at h
              simp at h
    · intro l c r R hb h
      cases l with
      | nil =>
        rw [gamma_succ_nil] at h
        split_ifs at h
        cases hp : psi r c R with
        | error e2 =>
          rw [hp] at h
          simp only [Except.error.injEq] at h
          subst h
          have := psi_error _ _ _ _ hp
          simp at this
        | ok q =>
          rw [hp] at h
          simp at h
      | cons a rest =>
        simp only [List.length_cons] at hb
        rw [fuel_for_succ] at hb
        rw [gamma_succ_cons] at h
        cases hp : phi fuel [a] a.arguments [] rest r c R with
        | error e2 =>
          rw [hp] at h
          simp only [Except.error.injEq] at h
          subst h
          refine ih.1 _ _ _ _ _ _ _ ?_ hp
          simp only [List.length_nil, Nat.zero_add]
          omega
        | ok q =>
          obtain ⟨S, t1⟩ := q
          rw [hp] at h
          simp only at h
          cases hg : makeMultiActionConditionList_aux fuel rest t1 (insert a r) R with
          | error e2 =>
            rw [hg] at h
            simp only [Except.error.injEq] at h
            subst h
            exact ih.2 _ _ _ _ (by omega) hg
          | ok q2 =>
            rw [hg] at h
            simp at h

theorem kernel_fuel_succ (fuel : Nat) :
    (∀ (m : action_multiset_t) (d : data_expression_list) (w n r : action_multiset_t)
        (c : comm_entry) (R : rewriter),
        phi fuel m d w n r c R ≠ .error exn.out_of_fuel →
        phi (fuel + 1) m d w n r c R = phi fuel m d w n r c R) ∧
      (∀ (l : action_multiset_t) (c : comm_entry) (r : action_multiset_t) (R : rewriter),
        makeMultiActionConditionList_aux fuel l c r R ≠ .error exn.out_of_fuel →
        makeMultiActionConditionList_aux (fuel + 1) l c r R =
          makeMultiActionConditionList_aux fuel l c r R) := by
  induction fuel with
  | zero =>
    constructor
    · intro m d w n r c R h
      rw [phi_zero] at h
      exact absurd rfl h
    · intro l c r R h
      rw [gamma_zero] at h
      exact absurd rfl h
  | succ fuel ih =>
    constructor
    · intro m d w n r c R h
      cases n with
      | nil =>
        rw [phi_succ_nil] at h
        rw [phi_succ_nil, phi_succ_nil]
        by_cases h1 : (c.might_communicate m []).1 = false
        · simp only [h1, if_true]
        · simp only [h1, if_false] at h ⊢
          cases hc : (c.might_communicate m []).2.can_communicate m with
          | error e2 => rfl
          | ok p =>
            obtain ⟨lab, t1⟩ := p
            rw [hc] at h
            cases lab with
            | none => rfl
            | some lab =>
              simp only at h ⊢
              have hne : makeMultiActionConditionList_aux fuel w t1 r R ≠
                  .error exn.out_of_fuel := by
                intro hx
                rw [hx] at h
                exact h rfl
              rw [ih.2 _ _ _ _ hne]
      | cons a n =>
        rw [phi_succ_cons] at h
        rw [phi_succ_cons, phi_succ_cons]
        by_cases h1 : (c.might_communicate m (a :: n)).1 = false
        · simp only [h1, if_true]
        · simp only [h1, if_false] at h ⊢
          by_cases h2 : pairwiseMatch d a.arguments R = false_
          · simp only [h2, if_true] at h ⊢
            exact ih.1 _ _ _ _ _ _ _ h
          · simp only [h2, if_false] at h ⊢
            have hne1 : phi fuel (insert a m) d w n r (c.might_communicate m (a :: n)).2 R ≠
                .error exn.out_of_fuel := by
              intro hx
              rw [hx] at h
              exact h rfl
            rw [ih.1 _ _ _ _ _ _ _ hne1]
            cases hp : phi fuel (insert a m) d w n r (c.might_communicate m (a :: n)).2 R with
            | error e2 => rfl
            | ok q =>
              obtain ⟨T, t1⟩ := q
              rw [hp] at h
              simp only at h ⊢
              have hne2 : phi fuel m d (insert a w) n r t1 R ≠ .error exn.out_of_fuel := by
                intro hx
                rw [hx] at h
                exact h rfl
              rw [ih.1 _ _ _ _ _ _ _ hne2]
    · intro l c r R h
      cases l with
      | nil => rw [gamma_succ_nil, gamma_succ_nil]
      | cons a rest =>
        rw [gamma_succ_cons] at h
        rw [gamma_succ_cons, gamma_succ_cons]
        have hne1 : phi fuel [a] a.arguments [] rest r c R ≠ .error exn.out_of_fuel := by
          intro hx
          rw [hx] at h
          exact h rfl
        rw [ih.1 _ _ _ _ _ _ _ hne1]
        cases hp : phi fuel [a] a.arguments [] rest r c R with
        | error e2 => rfl
        | ok q =>
          obtain ⟨S, t1⟩ := q
          rw [hp] at h
          simp only at h ⊢
          have hne2 : makeMultiActionConditionList_aux fuel rest t1 (insert a r) R ≠
              .error exn.out_of_fuel := by
            intro hx
            rw [hx] at h
            exact h rfl
          rw [ih.2 _ _ _ _ hne2]

theorem kernel_fuel_le (fuel fuel2 : Nat) (hle : fuel ≤ fuel2) :
    (∀ (m : action_multiset_t) (d : data_expression_list) (w n r : action_multiset_t)
        (c : comm_entry) (R : rewriter),
        phi fuel m d w n r c R ≠ .error exn.out_of_fuel →
        phi fuel2 m d w n r c R = phi fuel m d w n r c R) ∧
      (∀ (l : action_multiset_t) (c : comm_entry) (r : action_multiset_t) (R : rewriter),
        makeMultiActionConditionList_aux fuel l c r R ≠ .error exn.out_of_fuel →
        makeMultiActionConditionList_aux fuel2 l c r R =
          makeMultiActionConditionList_aux fuel l c r R) := by
  induction fuel2, hle using Nat.le_induction with
  | base => exact ⟨fun _ _ _ _ _ _ _ _ => rfl, fun _ _ _ _ _ => rfl⟩
  | succ k _ ih =>
    constructor
    · intro m d w n r c R h
      have e := ih.1 m d w n r c R h
      rw [← e] at h
      rw [(kernel_fuel_succ k).1 m d w n r c R h, e]
    · intro l c r R h
      have e := ih.2 l c r R h
      rw [← e] at h
      rw [(kernel_fuel_succ k).2 l c r R h, e]

/-- C35: the kernel terminates on every input.  `xi` and `psi` are defined by
recursion on the range they traverse and never run out of the recursion
budget; `phi` and `makeMultiActionConditionList_aux` do not run out of it when
the budget is at least the bound for the number of actions still to be
distributed (the actions of `w` and `n` for `phi`, with the length of `n` as
second component; the actions of the range for
`makeMultiActionConditionList_aux`), and then deliver what they deliver for
the bound, whatever the budget; so `makeMultiActionConditionList` never runs
out of its budget. -/
theorem kernel_terminates :
    (∀ (alpha : action_multiset_t) (communications : communication_expression_list)
        (R : rewriter),
        makeMultiActionConditionList alpha communications R ≠ .error exn.out_of_fuel) ∧
      (∀ (fuel : Nat) (l : action_multiset_t) (c : comm_entry) (r : action_multiset_t)
        (R : rewriter), fuel_for l.length ≤ fuel →
        makeMultiActionConditionList_aux fuel l c r R ≠ .error exn.out_of_fuel ∧
          makeMultiActionConditionList_aux fuel l c r R =
            makeMultiActionConditionList_aux (fuel_for l.length) l c r R) ∧
      (∀ (fuel : Nat) (m : action_multiset_t) (d : data_expression_list)
        (w n r : action_multiset_t) (c : comm_entry) (R : rewriter),
        fuel_for (w.length + n.length) + 1 + n.length ≤ fuel →
        phi fuel m d w n r c R ≠ .error exn.out_of_fuel ∧
          phi fuel m d w n r c R =
            phi (fuel_for (w.length + n.length) + 1 + n.length) m d w n r c R) ∧
      (∀ (alpha beta : action_multiset_t) (c : comm_entry),
        xi alpha beta c ≠ .error exn.out_of_fuel) ∧
      (∀ (r : action_multiset_t) (c : comm_entry) (R : rewriter),
        psi r c R ≠ .error exn.out_of_fuel) := by
  refine ⟨?_, ?_, ?_, xi_fuel, ?_⟩
  · intro alpha communications R h
    unfold makeMultiActionConditionList at h
    simp only at h
    cases hg : makeMultiActionConditionList_aux (fuel_for alpha.length) alpha
        (comm_entry.init communications) [] R with
    | error e =>
      rw [hg] at h
      simp only [Except.error.injEq] at h
      subst h
      exact (kernel_fuel_enough _).2 _ _ _ _ (le_refl _) hg
    | ok q =>
      rw [hg] at h
      simp at h
  · intro fuel l c r R hb
    exact ⟨(kernel_fuel_enough fuel).2 l c r R hb,
      (kernel_fuel_le _ fuel hb).2 l c r R ((kernel_fuel_enough _).2 l c r R (le_refl _))⟩
  · intro fuel m d w n r c R hb
    exact ⟨(kernel_fuel_enough fuel).1 m d w n r c R hb,
      (kernel_fuel_le _ fuel hb).1 m d w n r c R
        ((kernel_fuel_enough _).1 m d w n r c R (le_refl _))⟩
  · intro r c R h
    have := psi_error _ _ _ _ h
    simp at this

/-! ## The multi-actions of the alternatives are sorted -/

theorem sorted_insert (a : action) (l : action_multiset_t)
    (hl : l.Pairwise (fun x y => action_compare y x = false)) :
    (insert a l).Pairwise (fun x y => action_compare y x = false) := by
  induction l with
  | nil => simp [insert]
  | cons b l ih =>
    rw [List.pairwise_cons] at hl
    simp only [insert]
    split_ifs with hab
    · rw [List.pairwise_cons]
      refine ⟨?_, List.pairwise_cons.mpr hl⟩
      intro y hy
      rcases List.mem_cons.mp hy with rfl | hy
      · exact action_compare_asymm _ _ hab
      · cases hya : action_compare y a with
        | false => rfl
        | true =>
          have := action_compare_trans _ _ _ hya hab
          rw [hl.1 y hy] at this
          exact absurd this (by simp)
    · rw [List.pairwise_cons]
      refine ⟨?_, ih hl.2⟩
      intro y hy
      rcases (mem_insert _ _ _).mp hy with rfl | hy
      · simpa using hab
      · exact hl.1 y hy

theorem sorted_foldr_insert (l : action_multiset_t) :
    (l.foldr insert []).Pairwise (fun x y => action_compare y x = false) := by
  induction l with
  | nil => simp
  | cons a l ih => exact sorted_insert a _ ih

theorem kernel_built_by_insert (fuel : Nat) :
    (∀ (m : action_multiset_t) (d : data_expression_list) (w n r : action_multiset_t)
        (c : comm_entry) (R : rewriter) (T : tuple_list) (c2 : comm_entry),
        phi fuel m d w n r c R = .ok (T, c2) →
        ∀ M ∈ T.actions, ∃ l : action_multiset_t, M = l.foldr insert []) ∧
      (∀ (l : action_multiset_t) (c : comm_entry) (r : action_multiset_t) (R : rewriter)
        (T : tuple_list) (c2 : comm_entry),
        makeMultiActionConditionList_aux fuel l c r R = .ok (T, c2) →
        ∀ M ∈ T.actions, ∃ l : action_multiset_t, M = l.foldr insert []) := by
  induction fuel with
  | zero =>
    constructor
    · intro m d w n r c R T c2 h
      rw [phi_zero] at h
      simp at h
    · intro l c r R T c2 h
      rw [gamma_zero] at h
      simp at h
  | succ fuel ih =>
    constructor
    · intro m d w n r c R T c2 h
      cases n with
      | nil =>
        rw [phi_succ_nil] at h
        split_ifs at h
        · simp only [Except.ok.injEq, Prod.mk.injEq] at h
          rw [← h.1]
          simp [tuple_list.empty]
        · cases hc : (c.might_communicate m []).2.can_communicate m with
          | error e2 =>
            rw [hc] at h
            simp at h
          | ok p =>
            obtain ⟨lab, t1⟩ := p
            rw [hc] at h
            cases lab with
            | none =>
              simp only [Except.ok.injEq, Prod.mk.injEq] at h
              rw [← h.1]
              simp [tuple_list.empty]
            | some lab =>
              simp only at h
              cases hg : makeMultiActionConditionList_aux fuel w t1 r R with
              | error e2 =>
                rw [hg] at h
                simp at h
              | ok q =>
                obtain ⟨T2, t2⟩ := q
                rw [hg] at h
                simp only [Except.ok.injEq, Prod.mk.injEq] at h
                rw [← h.1]
                intro M hM
                rcases mem_addActionCondition_actions _ _ _ _ _ hM with hM | ⟨M2, hM2, hMe⟩
                · simp [tuple_list.empty] at hM
                · obtain ⟨l, rfl⟩ := ih.2 _ _ _ _ _ _ hg M2 hM2
                  exact ⟨⟨lab, d⟩ :: l, hMe⟩
      | cons a n =>
        rw [phi_succ_cons] at h
        split_ifs at h
        · simp only [Except.ok.injEq, Prod.mk.injEq] at h
          rw [← h.1]
          simp [tuple_list.empty]
        · exact ih.1 _ _ _ _ _ _ _ _ _ h
        · cases hp : phi fuel (insert a m) d w n r (c.might_communicate m (a :: n)).2 R with
          | error e2 =>
            rw [hp] at h
            simp at h
          | ok q =>
            obtain ⟨T1, t1⟩ := q
            rw [hp] at h
            simp only at h
            cases hp2 : phi fuel m d (insert a w) n r t1 R with
            | error e2 =>
              rw [hp2] at h
              simp at h
            | ok q2 =>
              obtain ⟨T2, t2⟩ := q2
              rw [hp2] at h
              simp only [Except.ok.injEq, Prod.mk.injEq] at h
              rw [← h.1]
              intro M hM
              rcases mem_addActionCondition_actions _ _ _ _ _ hM with hM | ⟨M2, hM2, hMe⟩
              · exact ih.1 _ _ _ _ _ _ _ _ _ hp2 M hM
              · rw [hMe]
                exact ih.1 _ _ _ _ _ _ _ _ _ hp M2 hM2
    · intro l c r R T c2 h
      cases l with
      | nil =>
        rw [gamma_succ_nil] at h
        split_ifs at h
        · simp only [Except.ok.injEq, Prod.mk.injEq] at h
          rw [← h.1]
          intro M hM
          simp only [List.mem_singleton] at hM
          exact ⟨[], hM⟩
        · cases hp : psi r c R with
          | error e2 =>
            rw [hp] at h
            simp at h
          | ok q =>
            obtain ⟨g, t1⟩ := q
            rw [hp] at h
            simp only [Except.ok.injEq, Prod.mk.injEq] at h
            rw [← h.1]
            intro M hM
            simp only [List.mem_singleton] at hM
            exact ⟨[], hM⟩
      | cons a rest =>
        rw [gamma_succ_cons] at h
        cases hp : phi fuel [a] a.arguments [] rest r c R with
        | error e2 =>
          rw [hp] at h
          simp at h
        | ok q =>
          obtain ⟨S, t1⟩ := q
          rw [hp] at h
          simp only at h
          cases hg : makeMultiActionConditionList_aux fuel rest t1 (insert a r) R with
          | error e2 =>
            rw [hg] at h
            simp at h
          | ok q2 =>
            obtain ⟨T2, t2⟩ := q2
            rw [hg] at h
            simp only [Except.ok.injEq, Prod.mk.injEq] at h
            rw [← h.1]
            intro M hM
            rcases mem_addActionCondition_actions _ _ _ _ _ hM with hM | ⟨M2, hM2, hMe⟩
            · exact ih.1 _ _ _ _ _ _ _ _ _ hp M hM
            · obtain ⟨l, rfl⟩ := ih.2 _ _ _ _ _ _ hg M2 hM2
              exact ⟨a :: l, hMe⟩

/-- C34: for every input multi-action, sorted or not, every rule list and
every rewriter, every multi-action of an alternative that
`makeMultiActionConditionList` returns is built from the empty multi-action by
insertions only, and is sorted for the order that `insert` uses: no action is
strictly behind one that follows it. -/
theorem alternatives_sorted (alpha : action_multiset_t)
    (communications : communication_expression_list) (R : rewriter) (T : tuple_list)
    (h : makeMultiActionConditionList alpha communications R = .ok T) :
    ∀ M ∈ T.actions, (∃ l : action_multiset_t, M = l.foldr insert []) ∧
      M.Pairwise (fun x y => action_compare y x = false) := by
  obtain ⟨c2, hg⟩ := makeMultiActionConditionList_ok alpha communications R T h
  intro M hM
  obtain ⟨l, rfl⟩ := (kernel_built_by_insert _).2 _ _ _ _ _ _ hg M hM
  exact ⟨⟨l, rfl⟩, sorted_foldr_insert l⟩

/-- Witness of C34: the unsorted multi-action `b|a` with the rule `a|b -> c`;
the one alternative has the sorted multi-action `a|b`. -/
theorem alternatives_sorted_witness :
    makeMultiActionConditionList [⟨⟨2, []⟩, []⟩, ⟨⟨1, []⟩, []⟩] [⟨[1, 2], 3⟩] id =
        .ok ⟨[[⟨⟨1, []⟩, []⟩, ⟨⟨2, []⟩, []⟩]], [false_]⟩ ∧
      ∀ M ∈ [[(⟨⟨1, []⟩, []⟩ : action), ⟨⟨2, []⟩, []⟩]],
        (∃ l : action_multiset_t, M = l.foldr insert []) ∧
          M.Pairwise (fun x y => action_compare y x = false) :=
  ⟨by decide,
    alternatives_sorted [⟨⟨2, []⟩, []⟩, ⟨⟨1, []⟩, []⟩] [⟨[1, 2], 3⟩] id
      ⟨[[⟨⟨1, []⟩, []⟩, ⟨⟨2, []⟩, []⟩]], [false_]⟩ (by decide)⟩

/-! ## Arguments that cannot be equal -/

theorem pairwiseMatch_mismatch (l1 l2 : data_expression_list) (R : rewriter)
    (h : l1.length ≠ l2.length ∨
      ∃ (k : Nat) (t1 t2 : data_expression), l1[k]? = some t1 ∧ l2[k]? = some t2 ∧
        t1.sort ≠ t2.sort) :
    pairwiseMatch l1 l2 R = false_ := by
  unfold pairwiseMatch
  split_ifs with hlen
  · rfl
  · rcases h with h | ⟨k, t1, t2, h1, h2, hs⟩
    · exact absurd h hlen
    · exact pairwiseMatch_loop_sort_mismatch R l1 l2 true_ k t1 t2 h1 h2 hs

theorem sort_list_compare_total (l1 l2 : List sort_expression) (h : l1 ≠ l2) :
    sort_list_compare l1 l2 = true ∨ sort_list_compare l2 l1 = true := by
  induction l1 generalizing l2 with
  | nil =>
    cases l2 with
    | nil => exact absurd rfl h
    | cons s l => simp [sort_list_compare]
  | cons s1 l1 ih =>
    cases l2 with
    | nil => simp [sort_list_compare]
    | cons s2 l2 =>
      simp only [sort_list_compare, Bool.or_eq_true, decide_eq_true_eq, Bool.and_eq_true]
      rcases Nat.lt_trichotomy s1 s2 with hlt | heq | hgt
      · exact Or.inl (Or.inl hlt)
      · have hne : l1 ≠ l2 := by
          intro hl
          exact h (by rw [heq, hl])
        rcases ih l2 hne with h1 | h1
        · exact Or.inl (Or.inr ⟨heq, h1⟩)
        · exact Or.inr (Or.inr ⟨heq.symm, h1⟩)
      · exact Or.inr (Or.inl hgt)

theorem action_compare_total (a b : action) (h : a.label ≠ b.label) :
    action_compare a b = true ∨ action_compare b a = true := by
  unfold action_compare action_label_compare
  by_cases hn : a.label.name = b.label.name
  · have hs : a.label.sorts ≠ b.label.sorts := by
      intro hs
      apply h
      cases ha : a.label
      cases hb : b.label
      rw [ha, hb] at hn hs
      simp only at hn hs
      rw [hn, hs]
    simp only [hn, ne_eq, not_true_eq_false, if_false]
    exact sort_list_compare_total _ _ hs
  · have hn2 : ¬ b.label.name = a.label.name := fun e => hn e.symm
    simp only [ne_eq, hn, hn2, not_false_eq_true, if_true, decide_eq_true_eq]
    rcases Nat.lt_trichotomy a.label.name b.label.name with hlt | heq | hgt
    · exact Or.inl hlt
    · exact absurd heq hn
    · exact Or.inr hgt

theorem sorts_ne_of_mismatch (l1 l2 : data_expression_list)
    (h : l1.length ≠ l2.length ∨
      ∃ (k : Nat) (t1 t2 : data_expression), l1[k]? = some t1 ∧ l2[k]? = some t2 ∧
        t1.sort ≠ t2.sort) :
    l1.map data_expression.sort ≠ l2.map data_expression.sort := by
  intro heq
  rcases h with h | ⟨k, t1, t2, h1, h2, hs⟩
  · apply h
    have := congrArg List.length heq
    simpa using this
  · have e1 : (l1.map data_expression.sort)[k]? = some t1.sort := by
      rw [List.getElem?_map, h1]
      rfl
    have e2 : (l2.map data_expression.sort)[k]? = some t2.sort := by
      rw [List.getElem?_map, h2]
      rfl
    rw [heq, e2] at e1
    simp only [Option.some.injEq] at e1
    exact hs e1.symm

/-- C33: in `phi`, an action whose argument list differs from `d` in length, or
in the sort at some position, is never added to `m`: the call continues with
the action moved to `w` only.  Consequently, for a sorted multi-action
`a(d)|b(e)` with such `d` and `e` and the single rule `a|b -> c`, where `c` is
not `tau`, `makeMultiActionConditionList` returns exactly
`[(a(d)|b(e), true)]` for every rewriter.  The multi-action is sorted with `a`
strictly before `b`, as it is when the actions are sorted and their labels
carry the sorts of their arguments. -/
theorem mismatch_never_synchronises :
    (∀ (fuel : Nat) (m : action_multiset_t) (d : data_expression_list) (w : action_multiset_t)
        (a : action) (n r : action_multiset_t) (c : comm_entry) (R : rewriter),
        (d.length ≠ a.arguments.length ∨
          ∃ (k : Nat) (t1 t2 : data_expression), d[k]? = some t1 ∧
            a.arguments[k]? = some t2 ∧ t1.sort ≠ t2.sort) →
        phi (fuel + 1) m d w (a :: n) r c R =
          if (c.might_communicate m (a :: n)).1 = false then
            .ok (tuple_list.empty, (c.might_communicate m (a :: n)).2)
          else phi fuel m d (insert a w) n r (c.might_communicate m (a :: n)).2 R) ∧
      (∀ (a b : action) (cn : action_name_t) (R : rewriter), cn ≠ tau →
        (action_compare a b = true ∨
          (action_compare b a = false ∧
            a.label.sorts = a.arguments.map data_expression.sort ∧
            b.label.sorts = b.arguments.map data_expression.sort)) →
        (a.arguments.length ≠ b.arguments.length ∨
          ∃ (k : Nat) (t1 t2 : data_expression), a.arguments[k]? = some t1 ∧
            b.arguments[k]? = some t2 ∧ t1.sort ≠ t2.sort) →
        makeMultiActionConditionList [a, b] [⟨[a.label.name, b.label.name], cn⟩] R =
          .ok ⟨[[a, b]], [true_]⟩) := by
  constructor
  · intro fuel m d w a n r c R hmis
    rw [phi_succ_cons, pairwiseMatch_mismatch d a.arguments R hmis]
    simp
  · intro a b cn R hc hord hmis
    have hlt : action_compare a b = true := by
      rcases hord with h | ⟨hs, ha, hb⟩
      · exact h
      · have hne : a.label ≠ b.label := by
          intro he
          apply sorts_ne_of_mismatch _ _ hmis
          rw [← ha, ← hb, he]
        rcases action_compare_total a b hne with h | h
        · exact h
        · rw [hs] at h
          exact absurd h (by simp)
    have hmis2 : b.arguments.length ≠ a.arguments.length ∨
        ∃ (k : Nat) (t1 t2 : data_expression), b.arguments[k]? = some t1 ∧
          a.arguments[k]? = some t2 ∧ t1.sort ≠ t2.sort := by
      rcases hmis with h | ⟨k, t1, t2, h1, h2, hs⟩
      · exact Or.inl (fun e => h e.symm)
      · exact Or.inr ⟨k, t2, t1, h2, h1, fun e => hs e.symm⟩
    have h := two_actions_single_rule a b cn R hc (action_compare_asymm _ _ hlt)
    rw [pairwiseMatch_mismatch _ _ R hmis, pairwiseMatch_mismatch _ _ R hmis2] at h
    simp only [if_true, lazy_not_false] at h
    have hins : insert a [b] = [a, b] := by simp [insert, hlt]
    rw [hins] at h
    exact h

/-- Witness of C33: `a(x)|b` with the rule `a|b -> c`; the argument lists have
the lengths 1 and 0. -/
theorem mismatch_never_synchronises_witness :
    makeMultiActionConditionList [⟨⟨1, [5]⟩, [var 0 5]⟩, ⟨⟨2, []⟩, []⟩]
        [⟨[(⟨⟨1, [5]⟩, [var 0 5]⟩ : action).label.name,
          (⟨⟨2, []⟩, []⟩ : action).label.name], 3⟩] id =
      .ok ⟨[[⟨⟨1, [5]⟩, [var 0 5]⟩, ⟨⟨2, []⟩, []⟩]], [true_]⟩ :=
  mismatch_never_synchronises.2 ⟨⟨1, [5]⟩, [var 0 5]⟩ ⟨⟨2, []⟩, []⟩ 3 id (by decide)
    (Or.inl (by decide)) (Or.inl (by decide))

/-! ## The last alternative -/

theorem addActionCondition_eq (firstaction : Option action) (condition : data_expression)
    (L S : tuple_list) (hS : S.actions.length = S.conditions.length) :
    addActionCondition firstaction condition L S =
      ⟨S.actions ++ L.actions.map (fun M => firstaction.elim M (fun a => insert a M)),
        S.conditions ++ L.conditions.map (fun x => lazy.and_ x condition)⟩ := by
  unfold addActionCondition
  split_ifs with h0
  · simp only [tuple_list.size, List.length_eq_zero] at h0
    have h1 : S.conditions = [] := by
      rw [h0] at hS
      exact List.length_eq_zero.mp hS.symm
    cases firstaction <;> simp [h0, h1]
  · cases firstaction <;> simp

theorem psi_inner_scratch (R : rewriter) (a b : action) (beta : action_multiset_t)
    (cond : data_expression) (c1 c2 : comm_entry) (h1 : c1.wf) (h2 : c2.wf)
    (hl : c1.m_lhs = c2.m_lhs) (hr : c1.m_rhs = c2.m_rhs) :
    psi_inner R a (b :: beta) cond c1 = psi_inner R a (b :: beta) cond c2 := by
  simp only [psi_inner]
  rw [might_communicate_scratch c1 c2 h1 h2 hl hr]

theorem psi_outer_scratch (R : rewriter) (l : action_multiset_t) (cond : data_expression)
    (c1 c2 : comm_entry) (h1 : c1.wf) (h2 : c2.wf)
    (hl : c1.m_lhs = c2.m_lhs) (hr : c1.m_rhs = c2.m_rhs) :
    (psi_outer R l cond c1).map (fun p => p.1) = (psi_outer R l cond c2).map (fun p => p.1) := by
  cases l with
  | nil => simp [psi_outer, Except.map]
  | cons a rest =>
    cases rest with
    | nil => simp [psi_outer, psi_inner, Except.map]
    | cons b rest =>
      simp only [psi_outer]
      rw [psi_inner_scratch R a b rest cond c1 c2 h1 h2 hl hr]

theorem psi_scratch (r : action_multiset_t) (R : rewriter) (c1 c2 : comm_entry) (h1 : c1.wf)
    (h2 : c2.wf) (hl : c1.m_lhs = c2.m_lhs) (hr : c1.m_rhs = c2.m_rhs) :
    (psi r c1 R).map (fun p => p.1) = (psi r c2 R).map (fun p => p.1) := by
  have h := psi_outer_scratch R (reverse r) false_ c1 c2 h1 h2 hl hr
  unfold psi
  cases ho1 : psi_outer R (reverse r) false_ c1 with
  | error e1 =>
    cases ho2 : psi_outer R (reverse r) false_ c2 with
    | error e2 =>
      rw [ho1, ho2] at h
      simpa [Except.map] using h
    | ok q2 =>
      rw [ho1, ho2] at h
      simp [Except.map] at h
  | ok q1 =>
    cases ho2 : psi_outer R (reverse r) false_ c2 with
    | error e2 =>
      rw [ho1, ho2] at h
      simp [Except.map] at h
    | ok q2 =>
      rw [ho1, ho2] at h
      simp only [Except.map, Except.ok.injEq] at h
      simp [Except.map, h]

theorem insert_of_le (a : action) (l : action_multiset_t)
    (h : ∀ x ∈ l, action_compare a x = false) : insert a l = l ++ [a] := by
  induction l with
  | nil => rfl
  | cons b l ih =>
    simp only [insert, h b (List.mem_cons_self _ _), Bool.false_eq_true, if_false,
      List.cons_append]
    rw [ih (fun x hx => h x (List.mem_cons_of_mem _ hx))]

theorem foldl_insert_of_sorted (alpha r : action_multiset_t)
    (h : (r ++ alpha).Pairwise (fun x y => action_compare y x = false)) :
    alpha.foldl (fun r a => insert a r) r = r ++ alpha := by
  induction alpha generalizing r with
  | nil => simp
  | cons a alpha ih =>
    simp only [List.foldl_cons]
    have hins : insert a r = r ++ [a] := by
      apply insert_of_le
      intro x hx
      rw [List.pairwise_append] at h
      exact h.2.2 x hx a (List.mem_cons_self _ _)
    rw [hins, ih]
    · simp
    · simpa using h

theorem gamma_last (fuel : Nat) (l : action_multiset_t) (c : comm_entry)
    (r : action_multiset_t) (R : rewriter) (T : tuple_list) (c2 : comm_entry) (hwf : c.wf)
    (h : makeMultiActionConditionList_aux fuel l c r R = .ok (T, c2)) :
    T.actions.getLast? = some (l.foldr insert []) ∧
      ∃ g, T.conditions.getLast? = some g ∧
        ((l.foldl (fun r a => insert a r) r = [] ∧ g = true_) ∨
          (l.foldl (fun r a => insert a r) r ≠ [] ∧
            ∃ c3 t, rules_kept c c3 ∧
              psi (l.foldl (fun r a => insert a r) r) c3 R = .ok (g, t))) := by
  induction fuel generalizing l c r T c2 with
  | zero =>
    rw [gamma_zero] at h
    simp at h
  | succ fuel ih =>
    cases l with
    | nil =>
      rw [gamma_succ_nil] at h
      split_ifs at h with hr
      · simp only [Except.ok.injEq, Prod.mk.injEq] at h
        rw [← h.1]
        refine ⟨rfl, true_, rfl, Or.inl ⟨?_, rfl⟩⟩
        simpa using hr
      · cases hp : psi r c R with
        | error e2 =>
          rw [hp] at h
          simp at h
        | ok q =>
          obtain ⟨g, t1⟩ := q
          rw [hp] at h
          simp only [Except.ok.injEq, Prod.mk.injEq] at h
          rw [← h.1]
          refine ⟨rfl, g, rfl, Or.inr ⟨?_, c, t1, rules_kept_refl c hwf, hp⟩⟩
          simpa using hr
    | cons a rest =>
      rw [gamma_succ_cons] at h
      cases hp : phi fuel [a] a.arguments [] rest r c R with
      | error e2 =>
        rw [hp] at h
        simp at h
      | ok q =>
        obtain ⟨S, t1⟩ := q
        have k1 := (kernel_kept fuel).1 _ _ _ _ _ _ _ _ _ hwf hp
        have hS := (kernel_lengths fuel).1 _ _ _ _ _ _ _ _ _ hp
        rw [hp] at h
        simp only at h
        cases hg : makeMultiActionConditionList_aux fuel rest t1 (insert a r) R with
        | error e2 =>
          rw [hg] at h
          simp at h
        | ok q2 =>
          obtain ⟨T2, t2⟩ := q2
          rw [hg] at h
          simp only [Except.ok.injEq, Prod.mk.injEq] at h
          obtain ⟨i1, g, i2, i3⟩ := ih rest t1 (insert a r) T2 t2 k1.1 hg
          have hne := gamma_nonempty fuel rest t1 (insert a r) R T2 t2 hg
          rw [← h.1, addActionCondition_eq _ _ _ _ hS]
          simp only [List.foldr_cons, List.foldl_cons]
          constructor
          · rw [List.getLast?_append_of_ne_nil _ (by simpa using hne.1), List.getLast?_map, i1]
            rfl
          · refine ⟨g, ?_, ?_⟩
            · rw [List.getLast?_append_of_ne_nil _ (by simpa using hne.2), List.getLast?_map,
                i2]
              simp [lazy_and_true_right]
            · rcases i3 with ⟨j1, j2⟩ | ⟨j1, c3, t, j2, j3⟩
              · exact Or.inl ⟨j1, j2⟩
              · exact Or.inr ⟨j1, c3, t, rules_kept_trans _ _ _ k1 j2, j3⟩

/-- C32, counterexample: for the sorted multi-action `a(x)|a(y)` and the rule
`a|a -> c` the last alternative has the multi-action `a(y)|a(x)`, not the
multi-action passed in. -/
theorem last_alternative_counterexample :
    makeMultiActionConditionList [⟨⟨1, [5]⟩, [var 0 5]⟩, ⟨⟨1, [5]⟩, [var 1 5]⟩]
        [⟨[1, 1], 3⟩] id =
      .ok ⟨[[⟨⟨3, [5]⟩, [var 0 5]⟩],
            [⟨⟨1, [5]⟩, [var 1 5]⟩, ⟨⟨1, [5]⟩, [var 0 5]⟩]],
          [equal_to (var 0 5) (var 1 5),
            data_expression.not_ (equal_to (var 1 5) (var 0 5))]⟩ ∧
      action_compare ⟨⟨1, [5]⟩, [var 1 5]⟩ ⟨⟨1, [5]⟩, [var 0 5]⟩ = false ∧
      [(⟨⟨1, [5]⟩, [var 1 5]⟩ : action), ⟨⟨1, [5]⟩, [var 0 5]⟩] ≠
        [⟨⟨1, [5]⟩, [var 0 5]⟩, ⟨⟨1, [5]⟩, [var 1 5]⟩] := by
  decide

/-- C32, amended: for every non-empty multi-action `alpha`, rule list and
rewriter, when no error is raised, the last alternative has the multi-action
`alpha` rebuilt by `insert` from its last action to its first, which is `alpha`
itself when `alpha` is sorted and no two neighbouring actions have the same
label; and its guard is what `psi` delivers, for the table of the rules, for
`alpha` rebuilt by `insert` from its first action to its last, which is `alpha`
itself when `alpha` is sorted.  For the empty multi-action the result is
exactly `[(empty, true)]`. -/
theorem last_alternative (alpha : action_multiset_t)
    (communications : communication_expression_list) (R : rewriter) (T : tuple_list)
    (hne : alpha ≠ [])
    (h : makeMultiActionConditionList alpha communications R = .ok T) :
    T.actions.getLast? = some (alpha.foldr insert []) ∧
      (∃ g t, psi (alpha.foldl (fun r a => insert a r) []) (comm_entry.init communications) R =
          .ok (g, t) ∧ T.conditions.getLast? = some g) ∧
      (alpha.Pairwise (fun x y => action_compare y x = false) →
        alpha.foldl (fun r a => insert a r) [] = alpha) ∧
      (List.Chain' (fun a b => action_compare a b = true) alpha →
        alpha.foldr insert [] = alpha) ∧
      makeMultiActionConditionList [] communications R = .ok ⟨[[]], [true_]⟩ := by
  obtain ⟨c2, hg⟩ := makeMultiActionConditionList_ok alpha communications R T h
  obtain ⟨i1, g, i2, i3⟩ := gamma_last _ _ _ _ _ _ _ (init_wf communications) hg
  refine ⟨i1, ?_, ?_, foldr_insert_of_chain alpha, rfl⟩
  · rcases i3 with ⟨j1, -⟩ | ⟨-, c3, t, j2, j3⟩
    · exfalso
      cases alpha with
      | nil => exact hne rfl
      | cons a rest =>
        have hp : List.Perm ((a :: rest).foldl (fun r a => insert a r) []) (a :: rest) := by
          have : ∀ (l r : action_multiset_t),
              List.Perm (l.foldl (fun r a => insert a r) r) (r ++ l) := by
            intro l
            induction l with
            | nil => intro r; simp
            | cons b l ih =>
              intro r
              simp only [List.foldl_cons]
              refine (ih (insert b r)).trans ?_
              refine ((perm_insert b r).append_right l).trans ?_
              simpa using (List.perm_middle).symm
          simpa using this (a :: rest) []
        rw [j1] at hp
        simp at hp
    · have hs := psi_scratch (alpha.foldl (fun r a => insert a r) []) R c3
        (comm_entry.init communications) j2.1 (init_wf communications) j2.2.1 j2.2.2
      rw [j3] at hs
      cases hq : psi (alpha.foldl (fun r a => insert a r) []) (comm_entry.init communications)
          R with
      | error e =>
        rw [hq] at hs
        simp [Except.map] at hs
      | ok q =>
        obtain ⟨g2, t2⟩ := q
        rw [hq] at hs
        simp only [Except.map, Except.ok.injEq] at hs
        exact ⟨g2, t2, rfl, by rw [← hs]; exact i2⟩
  · intro hs
    have := foldl_insert_of_sorted alpha [] (by simpa using hs)
    simpa using this

/-- Witness of C32 (amended): `a(x)|b(y)` with the rule `a|b -> c`. -/
theorem last_alternative_witness :
    makeMultiActionConditionList [⟨⟨1, [5]⟩, [var 0 5]⟩, ⟨⟨2, [5]⟩, [var 1 5]⟩]
        [⟨[1, 2], 3⟩] id =
      .ok ⟨[[⟨⟨3, [5]⟩, [var 0 5]⟩],
            [⟨⟨1, [5]⟩, [var 0 5]⟩, ⟨⟨2, [5]⟩, [var 1 5]⟩]],
          [equal_to (var 0 5) (var 1 5),
            data_expression.not_ (equal_to (var 1 5) (var 0 5))]⟩ ∧
      (⟨[[⟨⟨3, [5]⟩, [var 0 5]⟩],
            [⟨⟨1, [5]⟩, [var 0 5]⟩, ⟨⟨2, [5]⟩, [var 1 5]⟩]],
          [equal_to (var 0 5) (var 1 5),
            data_expression.not_ (equal_to (var 1 5) (var 0 5))]⟩ : tuple_list).actions.getLast? =
        some ([(⟨⟨1, [5]⟩, [var 0 5]⟩ : action), ⟨⟨2, [5]⟩, [var 1 5]⟩].foldr insert []) :=
  ⟨by decide,
    (last_alternative [⟨⟨1, [5]⟩, [var 0 5]⟩, ⟨⟨2, [5]⟩, [var 1 5]⟩] [⟨[1, 2], 3⟩] id
      ⟨[[⟨⟨3, [5]⟩, [var 0 5]⟩],
            [⟨⟨1, [5]⟩, [var 0 5]⟩, ⟨⟨2, [5]⟩, [var 1 5]⟩]],
          [equal_to (var 0 5) (var 1 5),
            data_expression.not_ (equal_to (var 1 5) (var 0 5))]⟩
      (by decide) (by decide)).1⟩

/-! ## Every alternative stems from a partition of the multi-action -/

theorem can_communicate_ok_some (c : comm_entry) (hwf : c.wf) (m : action_multiset_t)
    (lab : action_label) (t1 : comm_entry) (h : c.can_communicate m = .ok (some lab, t1)) :
    ∃ a rest cn, m = a :: rest ∧ first_rule (names m) c.m_lhs c.m_rhs = some cn ∧ cn ≠ tau ∧
      lab = ⟨cn, a.label.sorts⟩ := by
  rw [can_communicate_eq c hwf] at h
  unfold can_communicate_result at h
  cases hf : first_rule (names m) c.m_lhs c.m_rhs with
  | none =>
    rw [hf] at h
    simp at h
  | some cn =>
    rw [hf] at h
    by_cases hc : cn = tau
    · simp [hc] at h
    · cases m with
      | nil => simp [hc] at h
      | cons a rest =>
        simp only [hc, if_false, Except.ok.injEq, Prod.mk.injEq, Option.some.injEq] at h
        exact ⟨a, rest, cn, rfl, rfl, hc, h.1.symm⟩

theorem partition_image_mono (rule1 rule2 : action_name_multiset_t → action_name_t → Prop)
    (hr : ∀ nm cn, rule1 nm cn → rule2 nm cn) (alpha M : action_multiset_t)
    (h : partition_image rule1 alpha M) : partition_image rule2 alpha M := by
  obtain ⟨gs, bs, h1, h2, h3, h4⟩ := h
  refine ⟨gs, bs, h1, h2, ?_, h4⟩
  refine List.Forall₂.imp ?_ h3
  intro G b hg
  rcases hg with hg | ⟨a, rest, cn, e1, e2, e3⟩
  · exact Or.inl hg
  · exact Or.inr ⟨a, rest, cn, e1, hr _ _ e2, e3⟩

theorem partition_image_cons_single (rule : action_name_multiset_t → action_name_t → Prop)
    (a : action) (rest M2 : action_multiset_t) (h : partition_image rule rest M2) :
    partition_image rule (a :: rest) (insert a M2) := by
  obtain ⟨gs, bs, h1, h2, h3, h4⟩ := h
  refine ⟨[a] :: gs, a :: bs, ?_, ?_, ?_, ?_⟩
  · intro G hG
    rcases List.mem_cons.mp hG with rfl | hG
    · simp
    · exact (h1 G hG).trans (List.sublist_cons_self _ _)
  · simpa using h2
  · exact List.Forall₂.cons (Or.inl rfl) h3
  · exact (perm_insert a M2).trans (List.Perm.cons a h4)

theorem partition_image_cons_group (rule : action_name_multiset_t → action_name_t → Prop)
    (a : action) (rest sel rest2 M2 : action_multiset_t) (cn : action_name_t)
    (hsel : List.Sublist sel rest) (hrest : List.Sublist rest2 rest)
    (hperm : List.Perm (sel ++ rest2) rest) (hrule : rule (names (a :: sel)) cn)
    (h : partition_image rule rest2 M2) :
    partition_image rule (a :: rest) (insert ⟨⟨cn, a.label.sorts⟩, a.arguments⟩ M2) := by
  obtain ⟨gs, bs, h1, h2, h3, h4⟩ := h
  refine ⟨(a :: sel) :: gs, ⟨⟨cn, a.label.sorts⟩, a.arguments⟩ :: bs, ?_, ?_, ?_, ?_⟩
  · intro G hG
    rcases List.mem_cons.mp hG with rfl | hG
    · exact List.Sublist.cons₂ a hsel
    · exact ((h1 G hG).trans hrest).trans (List.sublist_cons_self _ _)
  · simp only [List.flatten_cons, List.cons_append]
    exact List.Perm.cons a (((List.Perm.append_left sel h2)).trans hperm)
  · exact List.Forall₂.cons (Or.inr ⟨a, sel, cn, rfl, hrule, rfl⟩) h3
  · exact (perm_insert _ M2).trans (List.Perm.cons _ h4)

theorem partition_image_length (rule : action_name_multiset_t → action_name_t → Prop)
    (alpha M : action_multiset_t) (h : partition_image rule alpha M) :
    M.length ≤ alpha.length := by
  obtain ⟨gs, bs, -, h2, h3, h4⟩ := h
  rw [h4.length_eq, ← h3.length_eq, ← h2.length_eq]
  clear h2 h4
  induction h3 with
  | nil => simp
  | @cons G b gs2 bs2 hg _ ih =>
    have hpos : 1 ≤ G.length := by
      rcases hg with hg | ⟨a, rest, cn, e1, -, -⟩
      · rw [hg]
        simp
      · rw [e1]
        simp
    simp only [List.length_cons, List.flatten_cons, List.length_append]
    omega

theorem kernel_partition (c0 : comm_entry) (R : rewriter) (fuel : Nat) :
    (∀ (m : action_multiset_t) (d : data_expression_list) (w n r : action_multiset_t)
        (c : comm_entry) (T : tuple_list) (c2 : comm_entry) (a0 : action)
        (mt : action_multiset_t), rules_kept c0 c → m = a0 :: mt →
        (m ++ n).Pairwise (fun x y => action_compare y x = false) →
        (w ++ n).Pairwise (fun x y => action_compare y x = false) →
        phi fuel m d w n r c R = .ok (T, c2) →
        ∀ M ∈ T.actions, ∃ (sel rest2 : action_multiset_t) (cn : action_name_t)
          (M2 : action_multiset_t),
          List.Sublist sel n ∧ List.Sublist rest2 n ∧ List.Perm (sel ++ rest2) n ∧
            (first_rule (names (m ++ sel)) c0.m_lhs c0.m_rhs = some cn ∧ cn ≠ tau) ∧
            partition_image
              (fun nm cn => first_rule nm c0.m_lhs c0.m_rhs = some cn ∧ cn ≠ tau)
              (w ++ rest2) M2 ∧
            M = insert ⟨⟨cn, a0.label.sorts⟩, d⟩ M2) ∧
      (∀ (l : action_multiset_t) (c : comm_entry) (r : action_multiset_t)
        (T : tuple_list) (c2 : comm_entry), rules_kept c0 c →
        l.Pairwise (fun x y => action_compare y x = false) →
        makeMultiActionConditionList_aux fuel l c r R = .ok (T, c2) →
        ∀ M ∈ T.actions,
          partition_image (fun nm cn => first_rule nm c0.m_lhs c0.m_rhs = some cn ∧ cn ≠ tau)
            l M) := by
  induction fuel with
  | zero =>
    constructor
    · intro m d w n r c T c2 a0 mt _ _ _ _ h
      rw [phi_zero] at h
      simp at h
    · intro l c r T c2 _ _ h
      rw [gamma_zero] at h
      simp at h
  | succ fuel ih =>
    constructor
    · intro m d w n r c T c2 a0 mt hk hm hmn hwn h
      cases n with
      | nil =>
        have k1 := might_communicate_kept c hk.1 m []
        rw [phi_succ_nil] at h
        split_ifs at h
        · simp only [Except.ok.injEq, Prod.mk.injEq] at h
          rw [← h.1]
          simp [tuple_list.empty]
        · cases hc : (c.might_communicate m []).2.can_communicate m with
          | error e2 =>
            rw [hc] at h
            simp at h
          | ok p =>
            obtain ⟨lab, t1⟩ := p
            have k2 := can_communicate_kept _ k1.1 _ _ _ hc
            rw [hc] at h
            cases lab with
            | none =>
              simp only [Except.ok.injEq, Prod.mk.injEq] at h
              rw [← h.1]
              simp [tuple_list.empty]
            | some lab =>
              simp only at h
              cases hg : makeMultiActionConditionList_aux fuel w t1 r R with
              | error e2 =>
                rw [hg] at h
                simp at h
              | ok q =>
                obtain ⟨T2, t2⟩ := q
                rw [hg] at h
                simp only [Except.ok.injEq, Prod.mk.injEq] at h
                rw [← h.1]
                intro M hM
                rcases mem_addActionCondition_actions _ _ _ _ _ hM with hM | ⟨M2, hM2, hMe⟩
                · simp [tuple_list.empty] at hM
                · obtain ⟨a, rest, cn, e1, e2, e3, e4⟩ :=
                    can_communicate_ok_some _ k1.1 m lab t1 hc
                  rw [k1.2.1, k1.2.2, hk.2.1, hk.2.2] at e2
                  have ha : a = a0 := by
                    rw [hm] at e1
                    simp only [List.cons.injEq] at e1
                    exact e1.1.symm
                  have hkt : rules_kept c0 t1 :=
                    rules_kept_trans _ _ _ hk (rules_kept_trans _ _ _ k1 k2)
                  have hw : w.Pairwise (fun x y => action_compare y x = false) := by
                    simpa using hwn
                  have hp := ih.2 w t1 r T2 t2 hkt hw hg M2 hM2
                  refine ⟨[], [], cn, M2, List.Sublist.refl _, List.Sublist.refl _, by simp,
                    ⟨by simpa using e2, e3⟩, by simpa using hp, ?_⟩
                  rw [hMe, e4, ha]
                  rfl
      | cons a n =>
        have k1 := might_communicate_kept c hk.1 m (a :: n)
        have hk1 : rules_kept c0 (c.might_communicate m (a :: n)).2 :=
          rules_kept_trans _ _ _ hk k1
        have hinsw : insert a w = w ++ [a] := by
          apply insert_of_le
          intro x hx
          rw [List.pairwise_append] at hwn
          exact hwn.2.2 x hx a (List.mem_cons_self _ _)
        have hinsm : insert a m = m ++ [a] := by
          apply insert_of_le
          intro x hx
          rw [List.pairwise_append] at hmn
          exact hmn.2.2 x hx a (List.mem_cons_self _ _)
        have hmn1 : (m ++ n).Pairwise (fun x y => action_compare y x = false) :=
          hmn.sublist (List.Sublist.append (List.Sublist.refl m) (List.sublist_cons_self a n))
        have hwn1 : (w ++ n).Pairwise (fun x y => action_compare y x = false) :=
          hwn.sublist (List.Sublist.append (List.Sublist.refl w) (List.sublist_cons_self a n))
        have hmn2 : ((m ++ [a]) ++ n).Pairwise (fun x y => action_compare y x = false) := by
          simpa using hmn
        have hwn2 : ((w ++ [a]) ++ n).Pairwise (fun x y => action_compare y x = false) := by
          simpa using hwn
        have branchA : ∀ (c3 : comm_entry) (T3 : tuple_list) (c4 : comm_entry),
            rules_kept c0 c3 → phi fuel m d (insert a w) n r c3 R = .ok (T3, c4) →
            ∀ M ∈ T3.actions, ∃ (sel rest2 : action_multiset_t) (cn : action_name_t)
              (M2 : action_multiset_t),
              List.Sublist sel (a :: n) ∧ List.Sublist rest2 (a :: n) ∧
                List.Perm (sel ++ rest2) (a :: n) ∧
                (first_rule (names (m ++ sel)) c0.m_lhs c0.m_rhs = some cn ∧ cn ≠ tau) ∧
                partition_image
                  (fun nm cn => first_rule nm c0.m_lhs c0.m_rhs = some cn ∧ cn ≠ tau)
                  (w ++ rest2) M2 ∧
                M = insert ⟨⟨cn, a0.label.sorts⟩, d⟩ M2 := by
          intro c3 T3 c4 hk3 h3 M hM
          rw [hinsw] at h3
          obtain ⟨sel, rest2, cn, M2, s1, s2, s3, s4, s5, s6⟩ :=
            ih.1 m d (w ++ [a]) n r c3 T3 c4 a0 mt hk3 hm hmn1 hwn2 h3 M hM
          refine ⟨sel, a :: rest2, cn, M2, List.Sublist.cons a s1, List.Sublist.cons₂ a s2,
            ?_, s4, by simpa using s5, s6⟩
          exact List.perm_middle.trans (List.Perm.cons a s3)
        have branchB : ∀ (c3 : comm_entry) (T3 : tuple_list) (c4 : comm_entry),
            rules_kept c0 c3 → phi fuel (insert a m) d w n r c3 R = .ok (T3, c4) →
            ∀ M ∈ T3.actions, ∃ (sel rest2 : action_multiset_t) (cn : action_name_t)
              (M2 : action_multiset_t),
              List.Sublist sel (a :: n) ∧ List.Sublist rest2 (a :: n) ∧
                List.Perm (sel ++ rest2) (a :: n) ∧
                (first_rule (names (m ++ sel)) c0.m_lhs c0.m_rhs = some cn ∧ cn ≠ tau) ∧
                partition_image
                  (fun nm cn => first_rule nm c0.m_lhs c0.m_rhs = some cn ∧ cn ≠ tau)
                  (w ++ rest2) M2 ∧
                M = insert ⟨⟨cn, a0.label.sorts⟩, d⟩ M2 := by
          intro c3 T3 c4 hk3 h3 M hM
          rw [hinsm] at h3
          have hm2 : m ++ [a] = a0 :: (mt ++ [a]) := by rw [hm]; rfl
          obtain ⟨sel, rest2, cn, M2, s1, s2, s3, s4, s5, s6⟩ :=
            ih.1 (m ++ [a]) d w n r c3 T3 c4 a0 (mt ++ [a]) hk3 hm2 hmn2 hwn1 h3 M hM
          refine ⟨a :: sel, rest2, cn, M2, List.Sublist.cons₂ a s1, List.Sublist.cons a s2,
            ?_, by simpa using s4, s5, s6⟩
          exact List.Perm.cons a s3
        rw [phi_succ_cons] at h
        split_ifs at h
        · simp only [Except.ok.injEq, Prod.mk.injEq] at h
          rw [← h.1]
          simp [tuple_list.empty]
        · exact branchA _ _ _ hk1 h
        · cases hp : phi fuel (insert a m) d w n r (c.might_communicate m (a :: n)).2 R with
          | error e2 =>
            rw [hp] at h
            simp at h
          | ok q =>
            obtain ⟨T1, t1⟩ := q
            have k2 := (kernel_kept fuel).1 _ _ _ _ _ _ _ _ _ k1.1 hp
            rw [hp] at h
            simp only at h
            cases hp2 : phi fuel m d (insert a w) n r t1 R with
            | error e2 =>
              rw [hp2] at h
              simp at h
            | ok q2 =>
              obtain ⟨T2, t2⟩ := q2
              rw [hp2] at h
              simp only [Except.ok.injEq, Prod.mk.injEq] at h
              rw [← h.1]
              intro M hM
              rcases mem_addActionCondition_actions _ _ _ _ _ hM with hM | ⟨M2, hM2, hMe⟩
              · exact branchA _ _ _ (rules_kept_trans _ _ _ hk1 k2) hp2 M hM
              · rw [hMe]
                exact branchB _ _ _ hk1 hp M2 hM2
    · intro l c r T c2 hk hl h
      cases l with
      | nil =>
        have hnil : ∀ M : action_multiset_t, M = [] →
            partition_image
              (fun nm cn => first_rule nm c0.m_lhs c0.m_rhs = some cn ∧ cn ≠ tau) [] M := by
          intro M hM
          exact ⟨[], [], by simp, by simp, List.Forall₂.nil, by rw [hM]⟩
        rw [gamma_succ_nil] at h
        split_ifs at h
        · simp only [Except.ok.injEq, Prod.mk.injEq] at h
          rw [← h.1]
          intro M hM
          exact hnil M (by simpa using hM)
        · cases hp : psi r c R with
          | error e2 =>
            rw [hp] at h
            simp at h
          | ok q =>
            obtain ⟨g, t1⟩ := q
            rw [hp] at h
            simp only [Except.ok.injEq, Prod.mk.injEq] at h
            rw [← h.1]
            intro M hM
            exact hnil M (by simpa using hM)
      | cons a rest =>
        have hl0 := hl
        rw [List.pairwise_cons] at hl
        rw [gamma_succ_cons] at h
        cases hp : phi fuel [a] a.arguments [] rest r c R with
        | error e2 =>
          rw [hp] at h
          simp at h
        | ok q =>
          obtain ⟨S, t1⟩ := q
          have k1 := (kernel_kept fuel).1 _ _ _ _ _ _ _ _ _ hk.1 hp
          rw [hp] at h
          simp only at h
          cases hg : makeMultiActionConditionList_aux fuel rest t1 (insert a r) R with
          | error e2 =>
            rw [hg] at h
            simp at h
          | ok q2 =>
            obtain ⟨T2, t2⟩ := q2
            rw [hg] at h
            simp only [Except.ok.injEq, Prod.mk.injEq] at h
            rw [← h.1]
            intro M hM
            rcases mem_addActionCondition_actions _ _ _ _ _ hM with hM | ⟨M2, hM2, hMe⟩
            · have hl2 : ([a] ++ rest).Pairwise (fun x y => action_compare y x = false) := by
                simpa using hl0
              obtain ⟨sel, rest2, cn, M2, s1, s2, s3, s4, s5, s6⟩ :=
                ih.1 [a] a.arguments [] rest r c S t1 a [] hk rfl hl2 (by simpa using hl.2) hp
                  M hM
              rw [s6]
              exact partition_image_cons_group _ a rest sel rest2 M2 cn s1 s2 s3
                (by simpa using s4) (by simpa using s5)
            · rw [hMe]
              exact partition_image_cons_single _ a rest M2
                (ih.2 rest t1 (insert a r) T2 t2 (rules_kept_trans _ _ _ hk k1) hl.2 hg M2 hM2)

theorem first_rule_init (communications : communication_expression_list)
    (nm : action_name_multiset_t) (cn : action_name_t)
    (h : first_rule nm (comm_entry.init communications).m_lhs
      (comm_entry.init communications).m_rhs = some cn) :
    ∃ ce ∈ communications, ce.action_name = nm ∧ ce.name = cn := by
  obtain ⟨i, h1, -, h3⟩ := (first_rule_eq_some _ _ _ _).mp h
  simp only [comm_entry.init, init_lhs, init_rhs, List.getElem?_map] at h1 h3
  cases hi : communications[i]? with
  | none =>
    rw [hi] at h1
    simp at h1
  | some ce =>
    rw [hi] at h1 h3
    simp only [Option.map_some', Option.some.injEq] at h1 h3
    exact ⟨ce, List.getElem?_mem hi, h1, h3⟩

/-- C31: for every sorted multi-action `alpha`, rule list and rewriter, every
multi-action `M` of an alternative that `makeMultiActionConditionList` returns
stems from a partition of the actions of `alpha` into groups, each a part of
`alpha` in the order of `alpha`: `M` holds, in sorted order, for each group
either its single action unchanged or one action `c(d)`, where the names of
the group are the left-hand side of a rule with right-hand side `c` (which is
not `tau`), and `d` and the sorts of the label are those of the first action
of the group; and `M` has at most as many actions as `alpha`. -/
theorem alternatives_are_partitions (alpha : action_multiset_t)
    (communications : communication_expression_list) (R : rewriter) (T : tuple_list)
    (hs : alpha.Pairwise (fun x y => action_compare y x = false))
    (h : makeMultiActionConditionList alpha communications R = .ok T) :
    ∀ M ∈ T.actions,
      partition_image
          (fun nm cn => ∃ ce ∈ communications, ce.action_name = nm ∧ ce.name = cn ∧ cn ≠ tau)
          alpha M ∧
        M.Pairwise (fun x y => action_compare y x = false) ∧ M.length ≤ alpha.length := by
  obtain ⟨c2, hg⟩ := makeMultiActionConditionList_ok alpha communications R T h
  intro M hM
  have hp := (kernel_partition (comm_entry.init communications) R _).2 alpha _ [] T c2
    (rules_kept_refl _ (init_wf communications)) hs hg M hM
  have hp2 := partition_image_mono _
    (fun nm cn => ∃ ce ∈ communications, ce.action_name = nm ∧ ce.name = cn ∧ cn ≠ tau)
    (by
      intro nm cn hr
      obtain ⟨ce, h1, h2, h3⟩ := first_rule_init communications nm cn hr.1
      exact ⟨ce, h1, h2, h3, hr.2⟩) alpha M hp
  obtain ⟨l, hl⟩ := (kernel_built_by_insert _).2 _ _ _ _ _ _ hg M hM
  refine ⟨hp2, ?_, partition_image_length _ _ _ hp2⟩
  rw [hl]
  exact sorted_foldr_insert l

/-- Witness of C31: `a(x)|b(y)` with the rule `a|b -> c`; the alternative `c(x)`
has one action for the two actions of the multi-action. -/
theorem alternatives_are_partitions_witness :
    makeMultiActionConditionList [⟨⟨1, [5]⟩, [var 0 5]⟩, ⟨⟨2, [5]⟩, [var 1 5]⟩]
        [⟨[1, 2], 3⟩] id =
      .ok ⟨[[⟨⟨3, [5]⟩, [var 0 5]⟩],
            [⟨⟨1, [5]⟩, [var 0 5]⟩, ⟨⟨2, [5]⟩, [var 1 5]⟩]],
          [equal_to (var 0 5) (var 1 5),
            data_expression.not_ (equal_to (var 1 5) (var 0 5))]⟩ ∧
      partition_image
        (fun nm cn => ∃ ce ∈ [(⟨[1, 2], 3⟩ : communication_expression)],
          ce.action_name = nm ∧ ce.name = cn ∧ cn ≠ tau)
        [⟨⟨1, [5]⟩, [var 0 5]⟩, ⟨⟨2, [5]⟩, [var 1 5]⟩] [⟨⟨3, [5]⟩, [var 0 5]⟩] :=
  ⟨by decide,
    (alternatives_are_partitions [⟨⟨1, [5]⟩, [var 0 5]⟩, ⟨⟨2, [5]⟩, [var 1 5]⟩]
      [⟨[1, 2], 3⟩] id
      ⟨[[⟨⟨3, [5]⟩, [var 0 5]⟩],
            [⟨⟨1, [5]⟩, [var 0 5]⟩, ⟨⟨2, [5]⟩, [var 1 5]⟩]],
          [equal_to (var 0 5) (var 1 5),
            data_expression.not_ (equal_to (var 1 5) (var 0 5))]⟩
      (by decide) (by decide) [⟨⟨3, [5]⟩, [var 0 5]⟩] (by decide)).1⟩

/-! ## The order of the actions that are passed in -/

/-- C17, counterexample: `a(x)|a(y)` and `a(y)|a(x)` are permutations of each
other and both are sorted, the two actions having the same label; with the
rule `a|a -> c` the enumeration of the first holds the alternative `c(x)`
with the guard `x = y`, and the enumeration of the second the alternative
`c(y)` with the guard `y = x`. -/
theorem permutation_counterexample :
    List.Perm [(⟨⟨1, [5]⟩, [var 1 5]⟩ : action), ⟨⟨1, [5]⟩, [var 0 5]⟩]
        [⟨⟨1, [5]⟩, [var 0 5]⟩, ⟨⟨1, [5]⟩, [var 1 5]⟩] ∧
      [(⟨⟨1, [5]⟩, [var 0 5]⟩ : action), ⟨⟨1, [5]⟩, [var 1 5]⟩].Pairwise
        (fun x y => action_compare y x = false) ∧
      [(⟨⟨1, [5]⟩, [var 1 5]⟩ : action), ⟨⟨1, [5]⟩, [var 0 5]⟩].Pairwise
        (fun x y => action_compare y x = false) ∧
      makeMultiActionConditionList [⟨⟨1, [5]⟩, [var 0 5]⟩, ⟨⟨1, [5]⟩, [var 1 5]⟩]
          [⟨[1, 1], 3⟩] id =
        .ok ⟨[[⟨⟨3, [5]⟩, [var 0 5]⟩],
              [⟨⟨1, [5]⟩, [var 1 5]⟩, ⟨⟨1, [5]⟩, [var 0 5]⟩]],
            [equal_to (var 0 5) (var 1 5),
              data_expression.not_ (equal_to (var 1 5) (var 0 5))]⟩ ∧
      makeMultiActionConditionList [⟨⟨1, [5]⟩, [var 1 5]⟩, ⟨⟨1, [5]⟩, [var 0 5]⟩]
          [⟨[1, 1], 3⟩] id =
        .ok ⟨[[⟨⟨3, [5]⟩, [var 1 5]⟩],
              [⟨⟨1, [5]⟩, [var 0 5]⟩, ⟨⟨1, [5]⟩, [var 1 5]⟩]],
            [equal_to (var 1 5) (var 0 5),
              data_expression.not_ (equal_to (var 0 5) (var 1 5))]⟩ := by
  decide

/-- C17, amended: the enumeration commutes with every permutation of the
actions when no communication can take place: if no left-hand side is a
sub-multiset of the names of `alpha`, the enumerations of `alpha` and of a
permutation `pi` of it are both the one alternative with the guard `true` and
the actions in sorted order, the same multi-action up to the order of actions
with equal labels, and the same result when the labels of `alpha` are
pairwise different.  When a communication can take place the enumeration
follows the order of the input: for two actions `a(d)` and `a(e)` with the
same label and the rule `a|a -> c`, the enumeration of `a(d)|a(e)` holds
`c(d)` guarded by `pairwiseMatch(d, e)` and the unsynchronised multi-action
guarded by the negation of `pairwiseMatch(e, d)`, and the enumeration of
`a(e)|a(d)` is the same with `d` and `e` exchanged. -/
theorem permutation_enumeration :
    (∀ (alpha pi : action_multiset_t) (communications : communication_expression_list)
        (R : rewriter), List.Perm pi alpha →
        (∀ ce ∈ communications, ¬ List.Subperm ce.action_name (names alpha)) →
        makeMultiActionConditionList pi communications R =
            .ok ⟨[pi.foldr insert []], [true_]⟩ ∧
          makeMultiActionConditionList alpha communications R =
            .ok ⟨[alpha.foldr insert []], [true_]⟩ ∧
          List.Perm (pi.foldr insert []) (alpha.foldr insert []) ∧
          (pi.foldr insert []).Pairwise (fun x y => action_compare y x = false) ∧
          (alpha.foldr insert []).Pairwise (fun x y => action_compare y x = false) ∧
          (alpha.Pairwise (fun x y => x.label ≠ y.label) →
            makeMultiActionConditionList pi communications R =
              makeMultiActionConditionList alpha communications R)) ∧
      (∀ (a b : action) (cn : action_name_t) (R : rewriter), cn ≠ tau → a.label = b.label →
        makeMultiActionConditionList [a, b] [⟨[a.label.name, a.label.name], cn⟩] R =
            .ok (if pairwiseMatch a.arguments b.arguments R = false_ then
                ⟨[[b, a]], [lazy.not_ (pairwiseMatch b.arguments a.arguments R)]⟩
              else
                ⟨[[⟨⟨cn, a.label.sorts⟩, a.arguments⟩], [b, a]],
                  [pairwiseMatch a.arguments b.arguments R,
                    lazy.not_ (pairwiseMatch b.arguments a.arguments R)]⟩) ∧
          makeMultiActionConditionList [b, a] [⟨[a.label.name, a.label.name], cn⟩] R =
            .ok (if pairwiseMatch b.arguments a.arguments R = false_ then
                ⟨[[a, b]], [lazy.not_ (pairwiseMatch a.arguments b.arguments R)]⟩
              else
                ⟨[[⟨⟨cn, a.label.sorts⟩, b.arguments⟩], [a, b]],
                  [pairwiseMatch b.arguments a.arguments R,
                    lazy.not_ (pairwiseMatch a.arguments b.arguments R)]⟩)) := by
  constructor
  · intro alpha pi communications R hp hno
    have hno2 : ∀ ce ∈ communications, ¬ List.Subperm ce.action_name (names pi) := by
      intro ce hce hsub
      exact hno ce hce ((List.Perm.subperm_left (names_perm _ _ hp)).mp hsub)
    have e1 := makeMultiActionConditionList_none pi communications R hno2
    have e2 := makeMultiActionConditionList_none alpha communications R hno
    refine ⟨e1, e2, ?_, sorted_foldr_insert pi, sorted_foldr_insert alpha, ?_⟩
    · exact ((perm_foldr_insert pi).trans hp).trans (perm_foldr_insert alpha).symm
    · intro hd
      have hc : alpha.Pairwise
          (fun x y => action_compare x y = true ∨ action_compare y x = true) :=
        hd.imp (fun h => action_compare_total _ _ h)
      have hs := pairwise_foldr_insert alpha hc
      have hpi : pi.foldr insert [] = alpha.foldr insert [] :=
        foldr_insert_of_perm _ pi hs (hp.trans (perm_foldr_insert alpha).symm)
      rw [e1, e2, hpi]
  · intro a b cn R hc hl
    have hab : action_compare a b = false := by
      unfold action_compare
      rw [hl]
      exact action_compare_irrefl b
    have hba : action_compare b a = false := by
      unfold action_compare
      rw [hl]
      exact action_compare_irrefl b
    have h1 := two_actions_single_rule a b cn R hc hba
    have h2 := two_actions_single_rule b a cn R hc hab
    have i1 : insert a [b] = [b, a] := by simp [insert, hab]
    have i2 : insert b [a] = [a, b] := by simp [insert, hba]
    rw [i1, ← hl] at h1
    rw [i2, ← hl] at h2
    exact ⟨h1, h2⟩

/-- Witness of C17 (amended): `b(y)|a(x)` and `a(x)|b(y)` with the rule
`a|c -> d`, which neither can use. -/
theorem permutation_enumeration_witness :
    makeMultiActionConditionList [⟨⟨2, [5]⟩, [var 1 5]⟩, ⟨⟨1, [5]⟩, [var 0 5]⟩]
        [⟨[1, 3], 4⟩] id =
      makeMultiActionConditionList [⟨⟨1, [5]⟩, [var 0 5]⟩, ⟨⟨2, [5]⟩, [var 1 5]⟩]
        [⟨[1, 3], 4⟩] id :=
  (permutation_enumeration.1 [⟨⟨1, [5]⟩, [var 0 5]⟩, ⟨⟨2, [5]⟩, [var 1 5]⟩]
    [⟨⟨2, [5]⟩, [var 1 5]⟩, ⟨⟨1, [5]⟩, [var 0 5]⟩] [⟨[1, 3], 4⟩] id (by decide)
    (by decide)).2.2.2.2.2 (by decide)

end lps
